import Mathlib

/-!
Verification of the discrete-HMM engine described in the repository's design
document against its demo driver (`src/main.cpp`).

The demo program constructs a two-state discrete HMM (initial vector,
column-stochastic transition matrix, per-state emission rows), runs Viterbi
decoding, computes the log-likelihood of an observation sequence, and retrains
with Baum-Welch.  The engine itself (forward-backward, Viterbi, Baum-Welch) is
library code that is not part of the repository sources, so it is modelled here
from the design document, in exact rational arithmetic.

Probabilities are represented as rationals.  Log-domain quantities are
represented multiplicatively: a value `p : Q` stands for the log-domain value
`Real.log p`, and `log 0 = -infinity` corresponds to `p = 0`.  This keeps every
definition executable; statements about actual log values use `Real.log`.
-/

namespace HmmDemo

/-- Modelled from the spec: the stable error taxonomy of section 7. -/
inductive HmmErr where
  | InvalidParameters
  | EmptySequence
  | SymbolOutOfRange
  | ZeroProbability
  | NoFeasiblePath
  | NotStochastic
deriving DecidableEq, Repr

/-- Modelled from the spec: an HMM model holding the initial vector pi,
the column-stochastic transition matrix A (entry `trans i j` is the
probability of moving to state `i` from state `j`), and the emission table B
(entry `emit s k` is the probability that state `s` emits symbol `k`). -/
structure Model where
  S : ℕ
  K : ℕ
  init : Fin S → ℚ
  trans : Fin S → Fin S → ℚ
  emit : Fin S → Fin K → ℚ

/-- Emission probability lookup for a raw symbol; symbols outside the
alphabet carry probability zero (the engine's guards reject them anyway). -/
def emitP (m : Model) (s : Fin m.S) (k : ℕ) : ℚ :=
  if h : k < m.K then m.emit s ⟨k, h⟩ else 0

/-- Sum of the entries of a finite vector. -/
def sumV {n : ℕ} (v : Fin n → ℚ) : ℚ := ∑ i, v i

/-- Stochasticity tolerance fixed by the design document (1e-9). -/
def tol : ℚ := 1 / 1000000000

/-- A stochastic vector: non-negative entries summing to 1 within `tol`. -/
def StochVec {n : ℕ} (v : Fin n → ℚ) : Prop :=
  (∀ i, 0 ≤ v i) ∧ |sumV v - 1| ≤ tol

instance stochVecDec {n : ℕ} (v : Fin n → ℚ) : Decidable (StochVec v) := by
  unfold StochVec; infer_instance

/-- Modelled from the spec: a valid model has a stochastic initial vector, a
column-stochastic transition matrix and row-stochastic emission table. -/
def ValidModel (m : Model) : Prop :=
  StochVec m.init ∧ (∀ j, StochVec (fun i => m.trans i j)) ∧
    (∀ s, StochVec (m.emit s))

instance validModelDec (m : Model) : Decidable (ValidModel m) := by
  unfold ValidModel; infer_instance

/-- Modelled from the spec: `construct_model` validates the parameters and
fails with `InvalidParameters` otherwise. -/
def construct (S K : ℕ) (p : Fin S → ℚ) (A : Fin S → Fin S → ℚ)
    (B : Fin S → Fin K → ℚ) : Except HmmErr Model :=
  if ValidModel ⟨S, K, p, A, B⟩ then .ok ⟨S, K, p, A, B⟩
  else .error .InvalidParameters

/-- The demo's initial state probabilities ([0.5, 0.5], `main.cpp` 63-65). -/
def demoInit : Fin 2 → ℚ := fun i => if i = 0 then 1/2 else 1/2

/-- The demo's column-stochastic transition matrix (`main.cpp` 70-78):
column 0 is [0.8, 0.2], column 1 is [0.3, 0.7]. -/
def demoTrans : Fin 2 → Fin 2 → ℚ := fun i j =>
  if i = 0 then (if j = 0 then 8/10 else 3/10)
  else (if j = 0 then 2/10 else 7/10)

/-- The demo's emission rows (`main.cpp` 50-55): state 0 emits [0.9, 0.1],
state 1 emits [0.2, 0.8]. -/
def demoEmit : Fin 2 → Fin 2 → ℚ := fun s k =>
  if s = 0 then (if k = 0 then 9/10 else 1/10)
  else (if k = 0 then 2/10 else 8/10)

/-- The demo model assembled from the literal parameters of `main.cpp`. -/
def demoModel : Model := ⟨2, 2, demoInit, demoTrans, demoEmit⟩

/-- The demo's observation sequence (`main.cpp` 101). -/
def demoObs : List ℕ := [0, 0, 1, 0, 1, 1]

/-- Observation access: symbol at time `t` of a sequence held as a list. -/
def seqO (obs : List ℕ) : ℕ → ℕ := fun t => obs.getD t 0

/-! ### Scaled forward pass (spec section 4.3) -/

/-- Modelled from the spec: the unnormalized scaled forward values.
`alphaT m O 0 s = pi s * B[s, O 0]`, and
`alphaT m O (t+1) s = B[s, O (t+1)] * sum_j A[s,j] * alpha_t j`
where `alpha_t` is `alphaT` at `t` normalized by its total. -/
def alphaT (m : Model) (O : ℕ → ℕ) : ℕ → Fin m.S → ℚ
  | 0 => fun s => m.init s * emitP m s (O 0)
  | t + 1 => fun s =>
      emitP m s (O (t + 1)) *
        ∑ j, m.trans s j * (alphaT m O t j / ∑ r, alphaT m O t r)

/-- Total of the unnormalized forward values at time `t`; the spec's scaling
factor is its reciprocal. -/
def sigma (m : Model) (O : ℕ → ℕ) (t : ℕ) : ℚ := ∑ s, alphaT m O t s

/-- The normalized (scaled) forward values `alpha_t` of the spec. -/
def alphaS (m : Model) (O : ℕ → ℕ) (t : ℕ) (s : Fin m.S) : ℚ :=
  alphaT m O t s / sigma m O t

/-- The spec's scaling factor `c_t = 1 / sum_s alphaT t s`. -/
def cScale (m : Model) (O : ℕ → ℕ) (t : ℕ) : ℚ := 1 / sigma m O t

/-- Modelled from the spec: the engine's log-likelihood computation, section
4.3, represented multiplicatively: the returned rational is the exponential of
the returned log-likelihood `-sum_t log c_t`, namely the product of the
per-step totals `1 / c_t`.  Guards: `EmptySequence` for `T = 0`,
`SymbolOutOfRange` for a symbol outside `[0, K)`, `ZeroProbability` when a
scaling total vanishes. -/
def likelihoodE (m : Model) (obs : List ℕ) : Except HmmErr ℚ :=
  if obs.isEmpty then .error .EmptySequence
  else if obs.any (fun sym => m.K ≤ sym) then .error .SymbolOutOfRange
  else if (List.range obs.length).any
      (fun t => decide (sigma m (seqO obs) t = 0)) then .error .ZeroProbability
  else .ok (∏ t ∈ Finset.range obs.length, sigma m (seqO obs) t)

/-! ### Viterbi decoder (spec section 4.4)

The spec's log-domain recurrence is represented multiplicatively: the
log-domain score `delta` becomes a product of probabilities (`exp` of the
spec's `delta`), `log 0 = -infinity` becomes the score `0`, and comparisons
are preserved because `exp` is strictly monotone. -/

/-- First index attaining the strict maximum of `f` along a list, threaded
through an accumulator; on ties the earlier candidate is kept. -/
def argmaxGo {S : ℕ} (f : Fin S → ℚ) : List (Fin S) → Fin S → Fin S
  | [], b => b
  | j :: rest, b => argmaxGo f rest (if f b < f j then j else b)

/-- Modelled from the spec: the argmax over all states, taking the smallest
index among ties (section 4.4's deterministic tie-break). -/
def argmaxT {S : ℕ} (f : Fin S → ℚ) (h : 0 < S) : Fin S :=
  argmaxGo f (List.finRange S) ⟨0, h⟩

/-- Modelled from the spec: the Viterbi scores, multiplicatively.
`delta m O h 0 s = pi s * B[s, O 0]`; at `t+1` the best predecessor `j`
maximizes `delta t j * A[s, j]` (smallest index on ties) and
`delta (t+1) s = B[s, O (t+1)] * delta t j * A[s, j]`. -/
def delta (m : Model) (O : ℕ → ℕ) (h : 0 < m.S) : ℕ → Fin m.S → ℚ
  | 0 => fun s => m.init s * emitP m s (O 0)
  | t + 1 => fun s =>
      emitP m s (O (t + 1)) *
        ((fun j => delta m O h t j * m.trans s j)
          (argmaxT (fun j => delta m O h t j * m.trans s j) h))

/-- The Viterbi back-pointer: `psi m O h t s` is the best predecessor (at
time `t`) of state `s` at time `t+1`; this is the spec's `psi_{t+1}(s)`. -/
def psi (m : Model) (O : ℕ → ℕ) (h : 0 < m.S) (t : ℕ) (s : Fin m.S) :
    Fin m.S :=
  argmaxT (fun j => delta m O h t j * m.trans s j) h

/-- Traceback: the decoded path `s*_0 .. s*_t` ending in state `s` at time
`t`, following the back-pointers. -/
def vitPath (m : Model) (O : ℕ → ℕ) (h : 0 < m.S) : ℕ → Fin m.S → List (Fin m.S)
  | 0, s => [s]
  | t + 1, s => vitPath m O h t (psi m O h t s) ++ [s]

/-- Modelled from the spec: the Viterbi decoder, section 4.4.  Guards:
`EmptySequence` for `T = 0`, `SymbolOutOfRange` for a symbol outside
`[0, K)`, `NoFeasiblePath` when every terminal score is `-infinity`
(multiplicatively: zero). -/
def decode (m : Model) (obs : List ℕ) : Except HmmErr (List ℕ) :=
  if obs.isEmpty then .error .EmptySequence
  else if obs.any (fun sym => m.K ≤ sym) then .error .SymbolOutOfRange
  else if h : 0 < m.S then
    let O := seqO obs
    let T := obs.length
    if (List.finRange m.S).all (fun s => decide (delta m O h (T - 1) s = 0))
    then .error .NoFeasiblePath
    else .ok ((vitPath m O h (T - 1) (argmaxT (delta m O h (T - 1)) h)).map
      Fin.val)
  else .error .NoFeasiblePath

/-! ### Scaled backward pass and posteriors (spec section 4.3) -/

/-- Modelled from the spec: the scaled backward values, indexed by distance
from the end: `betaR m O T r` is the spec's `beta_{T-1-r}`.
`beta_{T-1} s = c_{T-1}`, and for `t <= T-2`,
`beta_t s = c_t * sum_j A[j,s] * B[j, O (t+1)] * beta_{t+1} j`. -/
def betaR (m : Model) (O : ℕ → ℕ) (T : ℕ) : ℕ → Fin m.S → ℚ
  | 0 => fun _ => cScale m O (T - 1)
  | r + 1 => fun s =>
      cScale m O (T - 2 - r) *
        ∑ j, m.trans j s * emitP m j (O (T - 1 - r)) * betaR m O T r j

/-- The scaled backward values in forward time: `betaS m O T t` is the
spec's `beta_t` for a sequence of length `T`. -/
def betaS (m : Model) (O : ℕ → ℕ) (T t : ℕ) (s : Fin m.S) : ℚ :=
  betaR m O T (T - 1 - t) s

/-- The state posterior `gamma_t s = alpha_t s * beta_t s / c_t`. -/
def gammaS (m : Model) (O : ℕ → ℕ) (T t : ℕ) (s : Fin m.S) : ℚ :=
  alphaS m O t s * betaS m O T t s / cScale m O t

/-- The pair posterior
`xi_t i j = alpha_t j * A[i,j] * B[i, O (t+1)] * beta_{t+1} i`. -/
def xiS (m : Model) (O : ℕ → ℕ) (T t : ℕ) (i j : Fin m.S) : ℚ :=
  alphaS m O t j * m.trans i j * emitP m i (O (t + 1)) * betaS m O T (t + 1) i

/-! ### Baum-Welch trainer (spec section 4.5)

Sufficient statistics accumulated over a list of observation sequences, the
M-step with its zero-denominator guard, and the iteration loop.  The spec's
convergence tolerance on the log-likelihood delta only determines how many
iterations run, so the iteration count is a parameter.  The probability floor
defaults to 0 in the spec, matching the demo; it is omitted. -/

/-- Per-sequence initial-state statistic `gamma_0 s`. -/
def initAcc (m : Model) (obs : List ℕ) (s : Fin m.S) : ℚ :=
  gammaS m (seqO obs) obs.length 0 s

/-- Per-sequence transition numerator `sum_{t < T-1} xi_t i j`. -/
def transNum (m : Model) (obs : List ℕ) (i j : Fin m.S) : ℚ :=
  ∑ t ∈ Finset.range (obs.length - 1), xiS m (seqO obs) obs.length t i j

/-- Per-sequence transition denominator `sum_{t < T-1} gamma_t j`. -/
def transDen (m : Model) (obs : List ℕ) (j : Fin m.S) : ℚ :=
  ∑ t ∈ Finset.range (obs.length - 1), gammaS m (seqO obs) obs.length t j

/-- Per-sequence emission numerator `sum_{t : O t = k} gamma_t s`. -/
def emitNum (m : Model) (obs : List ℕ) (s : Fin m.S) (k : Fin m.K) : ℚ :=
  ∑ t ∈ Finset.range obs.length,
    if seqO obs t = k.val then gammaS m (seqO obs) obs.length t s else 0

/-- Per-sequence emission denominator `sum_t gamma_t s`. -/
def emitDen (m : Model) (obs : List ℕ) (s : Fin m.S) : ℚ :=
  ∑ t ∈ Finset.range obs.length, gammaS m (seqO obs) obs.length t s

/-- Initial-state statistic summed over all sequences. -/
def initAccL (m : Model) (seqs : List (List ℕ)) (s : Fin m.S) : ℚ :=
  (seqs.map (fun obs => initAcc m obs s)).sum

/-- Transition numerator summed over all sequences. -/
def transNumL (m : Model) (seqs : List (List ℕ)) (i j : Fin m.S) : ℚ :=
  (seqs.map (fun obs => transNum m obs i j)).sum

/-- Transition denominator summed over all sequences. -/
def transDenL (m : Model) (seqs : List (List ℕ)) (j : Fin m.S) : ℚ :=
  (seqs.map (fun obs => transDen m obs j)).sum

/-- Emission numerator summed over all sequences. -/
def emitNumL (m : Model) (seqs : List (List ℕ)) (s : Fin m.S) (k : Fin m.K) :
    ℚ :=
  (seqs.map (fun obs => emitNum m obs s k)).sum

/-- Emission denominator summed over all sequences. -/
def emitDenL (m : Model) (seqs : List (List ℕ)) (s : Fin m.S) : ℚ :=
  (seqs.map (fun obs => emitDen m obs s)).sum

/-- Renormalization of a vector by its total. -/
def normalizeV {n : ℕ} (v : Fin n → ℚ) : Fin n → ℚ :=
  fun i => v i / sumV v

/-- Modelled from the spec: the M-step, section 4.5.  Each updated block is
renormalized; when a state's accumulated denominator is zero, that state's
column of A (resp. row of B) is left unchanged from the previous iteration. -/
def mStep (m : Model) (seqs : List (List ℕ)) : Model :=
  ⟨m.S, m.K,
    normalizeV (fun s => initAccL m seqs s / (seqs.length : ℚ)),
    fun i j =>
      if transDenL m seqs j = 0 then m.trans i j
      else normalizeV (fun i' => transNumL m seqs i' j / transDenL m seqs j) i,
    fun s k =>
      if emitDenL m seqs s = 0 then m.emit s k
      else normalizeV (fun k' => emitNumL m seqs s k' / emitDenL m seqs s) k⟩

/-- Input validation shared by the trainer: every sequence must be non-empty
(`EmptySequence`, also for an empty batch) with all symbols in the alphabet
(`SymbolOutOfRange`). -/
def checkSeqs (m : Model) (seqs : List (List ℕ)) : Option HmmErr :=
  if seqs.isEmpty || seqs.any List.isEmpty then some .EmptySequence
  else if seqs.any (fun obs => obs.any (fun sym => m.K ≤ sym)) then
    some .SymbolOutOfRange
  else none

/-- A forward-pass scaling total vanishes somewhere along the sequence. -/
def zeroProb (m : Model) (obs : List ℕ) : Bool :=
  (List.range obs.length).any (fun t => decide (sigma m (seqO obs) t = 0))

/-- Modelled from the spec: one Baum-Welch iteration (E-step over every
sequence, then the M-step); fails with `ZeroProbability` when a forward
total vanishes, after the input guards. -/
def bwStep (m : Model) (seqs : List (List ℕ)) : Except HmmErr Model :=
  match checkSeqs m seqs with
  | some e => .error e
  | none =>
      if seqs.any (fun obs => zeroProb m obs) then .error .ZeroProbability
      else .ok (mStep m seqs)

/-- The trainer's iteration loop: runs up to `n` Baum-Welch iterations,
stopping at the first failure, which leaves the model of the last completed
iteration in place and reports the error. -/
def trainGo (seqs : List (List ℕ)) : ℕ → Model → Model × Option HmmErr
  | 0, m => (m, none)
  | n + 1, m =>
      match bwStep m seqs with
      | .error e => (m, some e)
      | .ok m' => trainGo seqs n m'

/-- Modelled from the spec: `train`, section 4.5.  Validates the batch, then
runs up to `n` iterations (the convergence test only bounds this count).
Returns the model state reached together with the error reported, if any. -/
def train (m : Model) (seqs : List (List ℕ)) (n : ℕ) :
    Model × Option HmmErr :=
  match checkSeqs m seqs with
  | some e => (m, some e)
  | none => trainGo seqs n m

/-! ### Properties of the argmax tie-break -/

lemma argmaxGo_spec {S : ℕ} (f : Fin S → ℚ) :
    ∀ (l : List (Fin S)) (b : Fin S), (b :: l).Pairwise (· < ·) →
      (argmaxGo f l b ∈ b :: l) ∧
      (∀ j ∈ b :: l, f j ≤ f (argmaxGo f l b)) ∧
      (∀ j ∈ b :: l, f j = f (argmaxGo f l b) → argmaxGo f l b ≤ j) := by
  intro l
  induction l with
  | nil =>
      intro b _
      refine ⟨List.mem_singleton.mpr rfl, ?_, ?_⟩
      · intro j hj
        rw [List.mem_singleton.mp hj]
        exact le_of_eq rfl
      · intro j hj _
        rw [List.mem_singleton.mp hj]
        exact le_of_eq rfl
  | cons j0 rest ih =>
      intro b hp
      have hb_j0 : b < j0 := (List.pairwise_cons.mp hp).1 j0 (by simp)
      have hb_rest : ∀ x ∈ rest, b < x := by
        intro x hx
        exact (List.pairwise_cons.mp hp).1 x (by simp [hx])
      have hp' : (j0 :: rest).Pairwise (· < ·) := (List.pairwise_cons.mp hp).2
      have hj0_rest : ∀ x ∈ rest, j0 < x := (List.pairwise_cons.mp hp').1
      have hrest : rest.Pairwise (· < ·) := (List.pairwise_cons.mp hp').2
      set b' : Fin S := if f b < f j0 then j0 else b with hb'
      have hpb' : (b' :: rest).Pairwise (· < ·) := by
        rw [List.pairwise_cons]
        constructor
        · intro x hx
          by_cases h : f b < f j0
          · simpa [hb', h] using hj0_rest x hx
          · simpa [hb', h] using hb_rest x hx
        · exact hrest
      have hstep : argmaxGo f (j0 :: rest) b = argmaxGo f rest b' := rfl
      obtain ⟨hmem, hmax, htie⟩ := ih b' hpb'
      rw [hstep]
      set r := argmaxGo f rest b' with hr
      have hfb_b' : f b ≤ f b' := by
        by_cases h : f b < f j0
        · simpa [hb', h] using le_of_lt h
        · simp [hb', h]
      have hfj0_b' : f j0 ≤ f b' := by
        by_cases h : f b < f j0
        · simp [hb', h]
        · simpa [hb', h] using le_of_not_lt h
      have hb'_r : f b' ≤ f r := hmax b' (List.mem_cons_self b' rest)
      refine ⟨?_, ?_, ?_⟩
      · rcases List.mem_cons.mp hmem with h | h
        · by_cases hc : f b < f j0
          · exact List.mem_cons.mpr (Or.inr (List.mem_cons.mpr (Or.inl
              (by rw [h, hb']; simp [hc]))))
          · exact List.mem_cons.mpr (Or.inl (by rw [h, hb']; simp [hc]))
        · exact List.mem_cons.mpr (Or.inr (List.mem_cons.mpr (Or.inr h)))
      · intro j hj
        rcases List.mem_cons.mp hj with h | h
        · exact h ▸ le_trans hfb_b' hb'_r
        · rcases List.mem_cons.mp h with h2 | h2
          · exact h2 ▸ le_trans hfj0_b' hb'_r
          · exact hmax j (List.mem_cons.mpr (Or.inr h2))
      · intro j hj hfj
        rcases List.mem_cons.mp hj with h | h
        · by_cases hc : f b < f j0
          · exfalso
            have hlt : f b < f r := lt_of_lt_of_le hc (le_trans hfj0_b' hb'_r)
            rw [← h] at hlt
            exact absurd hfj (ne_of_lt hlt)
          · have hbb : b' = b := by rw [hb']; simp [hc]
            refine htie j ?_ hfj
            rw [List.mem_cons]
            exact Or.inl (by rw [h, hbb])
        · rcases List.mem_cons.mp h with h2 | h2
          · by_cases hc : f b < f j0
            · have hbb : b' = j0 := by rw [hb']; simp [hc]
              refine htie j ?_ hfj
              rw [List.mem_cons]
              exact Or.inl (by rw [h2, hbb])
            · have hbb : b' = b := by rw [hb']; simp [hc]
              have hfb_r : f b = f r := by
                refine le_antisymm (le_trans hfb_b' hb'_r) ?_
                rw [← hfj, h2]
                exact le_of_not_lt hc
              have hrb : r ≤ b := by
                refine htie b ?_ hfb_r
                rw [List.mem_cons]
                exact Or.inl hbb.symm
              rw [h2]
              exact le_trans hrb (le_of_lt hb_j0)
          · exact htie j (List.mem_cons.mpr (Or.inr h2)) hfj

lemma argmaxT_spec {S : ℕ} (f : Fin S → ℚ) (h : 0 < S) :
    (∀ j, f j ≤ f (argmaxT f h)) ∧
      (∀ j, f j = f (argmaxT f h) → argmaxT f h ≤ j) := by
  obtain ⟨S', rfl⟩ : ∃ S', S = S' + 1 := ⟨S - 1, by omega⟩
  have hzero : (⟨0, h⟩ : Fin (S' + 1)) = 0 := rfl
  have hfr : List.finRange (S' + 1) = 0 :: (List.finRange S').map Fin.succ :=
    List.finRange_succ_eq_map S'
  have hstep : argmaxGo f (0 :: (List.finRange S').map Fin.succ) 0 =
      argmaxGo f ((List.finRange S').map Fin.succ) (if f 0 < f 0 then 0 else 0) :=
    rfl
  have hskip : argmaxT f h = argmaxGo f ((List.finRange S').map Fin.succ) 0 := by
    unfold argmaxT
    rw [hzero, hfr, hstep, if_neg (lt_irrefl (f 0))]
  have hpw : (0 :: (List.finRange S').map Fin.succ).Pairwise (· < ·) := by
    rw [← hfr]
    exact List.pairwise_lt_finRange (S' + 1)
  obtain ⟨_, hmax, htie⟩ := argmaxGo_spec f ((List.finRange S').map Fin.succ) 0 hpw
  rw [← hfr] at hmax htie
  constructor
  · intro j
    rw [hskip]
    exact hmax j (List.mem_finRange j)
  · intro j hj
    rw [hskip] at hj ⊢
    exact htie j (List.mem_finRange j) hj

/-- The demo model has at least one state. -/
lemma demoS_pos : 0 < demoModel.S := Nat.zero_lt_two

/-- A two-state model whose second state is unreachable (zero initial mass,
zero incoming transitions), used to exhibit zero Baum-Welch denominators. -/
def mZero : Model :=
  ⟨2, 2, fun i => if i = 0 then 1 else 0,
    fun i _ => if i = 0 then 1 else 0, fun _ _ => 1/2⟩

/-! ### Evaluation helpers on the two-state demo model

Rational arithmetic does not reduce in the kernel, so the concrete runs of
the engine on the demo model are evaluated by explicit rewriting, one time
step at a time. -/

/-- State 0 of the demo model. -/
def f0 : Fin demoModel.S := ⟨0, demoS_pos⟩

/-- State 1 of the demo model. -/
def f1 : Fin demoModel.S := ⟨1, Nat.one_lt_two⟩

lemma sum_demo (f : Fin demoModel.S → ℚ) : (∑ j, f j) = f f0 + f f1 :=
  Fin.sum_univ_two f

lemma sum_mzero (f : Fin mZero.S → ℚ) :
    (∑ j, f j) = f ⟨0, Nat.zero_lt_two⟩ + f ⟨1, Nat.one_lt_two⟩ :=
  Fin.sum_univ_two f

lemma argmaxT_two (f : Fin 2 → ℚ) (h : 0 < 2) :
    argmaxT f h = if f 0 < f 1 then 1 else 0 := by
  have h1 : List.finRange 2 = [0, 1] := rfl
  show argmaxGo f (List.finRange 2) ⟨0, h⟩ = _
  rw [h1]
  show argmaxGo f [1] (if f 0 < f 0 then 0 else 0) = _
  rw [if_neg (lt_irrefl (f 0))]
  rfl

lemma argmax_demo (f : Fin demoModel.S → ℚ) (h : 0 < demoModel.S) :
    argmaxT f h = if f f0 < f f1 then f1 else f0 :=
  argmaxT_two f h

lemma alphaT_succ (m : Model) (O : ℕ → ℕ) (t : ℕ) (s : Fin m.S) :
    alphaT m O (t + 1) s =
      emitP m s (O (t + 1)) * ∑ j, m.trans s j * alphaS m O t j := rfl

lemma delta_succ (m : Model) (O : ℕ → ℕ) (h : 0 < m.S) (t : ℕ) (s : Fin m.S) :
    delta m O h (t + 1) s =
      emitP m s (O (t + 1)) *
        (delta m O h t (psi m O h t s) * m.trans s (psi m O h t s)) := rfl

lemma vitPath_succ (m : Model) (O : ℕ → ℕ) (h : 0 < m.S) (t : ℕ)
    (s : Fin m.S) :
    vitPath m O h (t + 1) s = vitPath m O h t (psi m O h t s) ++ [s] := rfl

/-- The demo model's parameters are valid (exactly stochastic). -/
lemma demo_valid : ValidModel demoModel := by
  show StochVec demoInit ∧ (∀ j : Fin 2, StochVec (fun i => demoTrans i j)) ∧
    (∀ s : Fin 2, StochVec (demoEmit s))
  refine ⟨⟨?_, ?_⟩, ?_, ?_⟩
  · intro i
    fin_cases i <;> norm_num [demoInit]
  · norm_num [sumV, Fin.sum_univ_two, demoInit, tol]
  · intro j
    constructor
    · intro i
      fin_cases i <;> fin_cases j <;> norm_num [demoTrans]
    · fin_cases j <;> norm_num [sumV, Fin.sum_univ_two, demoTrans, tol]
  · intro s
    constructor
    · intro k
      fin_cases k <;> fin_cases s <;> norm_num [demoEmit]
    · fin_cases s <;> norm_num [sumV, Fin.sum_univ_two, demoEmit, tol]

/-! Literal parameter values of the demo model, by kernel reduction. -/

lemma dmI0 : demoModel.init f0 = 1/2 := rfl
lemma dmI1 : demoModel.init f1 = 1/2 := rfl
lemma dmT00 : demoModel.trans f0 f0 = 8/10 := rfl
lemma dmT01 : demoModel.trans f0 f1 = 3/10 := rfl
lemma dmT10 : demoModel.trans f1 f0 = 2/10 := rfl
lemma dmT11 : demoModel.trans f1 f1 = 7/10 := rfl
lemma dmE00 : emitP demoModel f0 0 = 9/10 := rfl
lemma dmE01 : emitP demoModel f0 1 = 1/10 := rfl
lemma dmE10 : emitP demoModel f1 0 = 2/10 := rfl
lemma dmE11 : emitP demoModel f1 1 = 8/10 := rfl
lemma ov0 : seqO demoObs 0 = 0 := rfl
lemma ov1 : seqO demoObs 1 = 0 := rfl
lemma ov2 : seqO demoObs 2 = 1 := rfl
lemma ov3 : seqO demoObs 3 = 0 := rfl
lemma ov4 : seqO demoObs 4 = 1 := rfl
lemma ov5 : seqO demoObs 5 = 1 := rfl

/-! Forward-pass values on the demo observations. -/

lemma av00 : alphaT demoModel (seqO demoObs) 0 f0 = 9/20 := by
  show demoModel.init f0 * emitP demoModel f0 (seqO demoObs 0) = 9/20
  norm_num [ov0, ov1, ov2, ov3, ov4, ov5, dmI0, dmI1, dmT00, dmT01, dmT10, dmT11, dmE00, dmE01, dmE10, dmE11]

lemma av01 : alphaT demoModel (seqO demoObs) 0 f1 = 1/10 := by
  show demoModel.init f1 * emitP demoModel f1 (seqO demoObs 0) = 1/10
  norm_num [ov0, ov1, ov2, ov3, ov4, ov5, dmI0, dmI1, dmT00, dmT01, dmT10, dmT11, dmE00, dmE01, dmE10, dmE11]

lemma sv0 : sigma demoModel (seqO demoObs) 0 = 11/20 := by
  show (∑ s, alphaT demoModel (seqO demoObs) 0 s) = 11/20
  rw [sum_demo, av00, av01]
  norm_num

lemma av10 : alphaT demoModel (seqO demoObs) 1 f0 = 351/550 := by
  rw [alphaT_succ, sum_demo]
  unfold alphaS
  rw [av00, av01, sv0]
  norm_num [ov0, ov1, ov2, ov3, ov4, ov5, dmI0, dmI1, dmT00, dmT01, dmT10, dmT11, dmE00, dmE01, dmE10, dmE11]

lemma av11 : alphaT demoModel (seqO demoObs) 1 f1 = 16/275 := by
  rw [alphaT_succ, sum_demo]
  unfold alphaS
  rw [av00, av01, sv0]
  norm_num [ov0, ov1, ov2, ov3, ov4, ov5, dmI0, dmI1, dmT00, dmT01, dmT10, dmT11, dmE00, dmE01, dmE10, dmE11]

lemma sv1 : sigma demoModel (seqO demoObs) 1 = 383/550 := by
  show (∑ s, alphaT demoModel (seqO demoObs) 1 s) = 383/550
  rw [sum_demo, av10, av11]
  norm_num

lemma av20 : alphaT demoModel (seqO demoObs) 2 f0 = 726/9575 := by
  rw [alphaT_succ, sum_demo]
  unfold alphaS
  rw [av10, av11, sv1]
  norm_num [ov0, ov1, ov2, ov3, ov4, ov5, dmI0, dmI1, dmT00, dmT01, dmT10, dmT11, dmE00, dmE01, dmE10, dmE11]

lemma av21 : alphaT demoModel (seqO demoObs) 2 f1 = 1852/9575 := by
  rw [alphaT_succ, sum_demo]
  unfold alphaS
  rw [av10, av11, sv1]
  norm_num [ov0, ov1, ov2, ov3, ov4, ov5, dmI0, dmI1, dmT00, dmT01, dmT10, dmT11, dmE00, dmE01, dmE10, dmE11]

lemma sv2 : sigma demoModel (seqO demoObs) 2 = 2578/9575 := by
  show (∑ s, alphaT demoModel (seqO demoObs) 2 s) = 2578/9575
  rw [sum_demo, av20, av21]
  norm_num

lemma av30 : alphaT demoModel (seqO demoObs) 3 f0 = 25569/64450 := by
  rw [alphaT_succ, sum_demo]
  unfold alphaS
  rw [av20, av21, sv2]
  norm_num [ov0, ov1, ov2, ov3, ov4, ov5, dmI0, dmI1, dmT00, dmT01, dmT10, dmT11, dmE00, dmE01, dmE10, dmE11]

lemma av31 : alphaT demoModel (seqO demoObs) 3 f1 = 3604/32225 := by
  rw [alphaT_succ, sum_demo]
  unfold alphaS
  rw [av20, av21, sv2]
  norm_num [ov0, ov1, ov2, ov3, ov4, ov5, dmI0, dmI1, dmT00, dmT01, dmT10, dmT11, dmE00, dmE01, dmE10, dmE11]

lemma sv3 : sigma demoModel (seqO demoObs) 3 = 32777/64450 := by
  show (∑ s, alphaT demoModel (seqO demoObs) 3 s) = 32777/64450
  rw [sum_demo, av30, av31]
  norm_num

lemma av40 : alphaT demoModel (seqO demoObs) 4 f0 = 56544/819425 := by
  rw [alphaT_succ, sum_demo]
  unfold alphaS
  rw [av30, av31, sv3]
  norm_num [ov0, ov1, ov2, ov3, ov4, ov5, dmI0, dmI1, dmT00, dmT01, dmT10, dmT11, dmE00, dmE01, dmE10, dmE11]

lemma av41 : alphaT demoModel (seqO demoObs) 4 f1 = 203188/819425 := by
  rw [alphaT_succ, sum_demo]
  unfold alphaS
  rw [av30, av31, sv3]
  norm_num [ov0, ov1, ov2, ov3, ov4, ov5, dmI0, dmI1, dmT00, dmT01, dmT10, dmT11, dmE00, dmE01, dmE10, dmE11]

lemma sv4 : sigma demoModel (seqO demoObs) 4 = 259732/819425 := by
  show (∑ s, alphaT demoModel (seqO demoObs) 4 s) = 259732/819425
  rw [sum_demo, av40, av41]
  norm_num

lemma av50 : alphaT demoModel (seqO demoObs) 5 f0 = 265479/6493300 := by
  rw [alphaT_succ, sum_demo]
  unfold alphaS
  rw [av40, av41, sv4]
  norm_num [ov0, ov1, ov2, ov3, ov4, ov5, dmI0, dmI1, dmT00, dmT01, dmT10, dmT11, dmE00, dmE01, dmE10, dmE11]

lemma av51 : alphaT demoModel (seqO demoObs) 5 f1 = 767702/1623325 := by
  rw [alphaT_succ, sum_demo]
  unfold alphaS
  rw [av40, av41, sv4]
  norm_num [ov0, ov1, ov2, ov3, ov4, ov5, dmI0, dmI1, dmT00, dmT01, dmT10, dmT11, dmE00, dmE01, dmE10, dmE11]

lemma sv5 : sigma demoModel (seqO demoObs) 5 = 3336287/6493300 := by
  show (∑ s, alphaT demoModel (seqO demoObs) 5 s) = 3336287/6493300
  rw [sum_demo, av50, av51]
  norm_num

/-- The engine's likelihood on the demo data, evaluated exactly: the
returned value is the exponential of the log-likelihood. -/
lemma likelihoodE_demo :
    likelihoodE demoModel demoObs = Except.ok (3336287/390625000 : ℚ) := by
  have hz : (List.range demoObs.length).any
      (fun t => decide (sigma demoModel (seqO demoObs) t = 0)) = false := by
    have h6 : List.range demoObs.length = [0, 1, 2, 3, 4, 5] := rfl
    rw [h6]
    simp only [List.any_cons, List.any_nil, Bool.or_eq_false_iff,
      decide_eq_false_iff_not]
    refine ⟨?_, ?_, ?_, ?_, ?_, ?_, trivial⟩
    · rw [sv0]; norm_num
    · rw [sv1]; norm_num
    · rw [sv2]; norm_num
    · rw [sv3]; norm_num
    · rw [sv4]; norm_num
    · rw [sv5]; norm_num
  show (if (List.range demoObs.length).any
        (fun t => decide (sigma demoModel (seqO demoObs) t = 0))
      then Except.error HmmErr.ZeroProbability
      else Except.ok (∏ t ∈ Finset.range demoObs.length,
        sigma demoModel (seqO demoObs) t)) = _
  rw [hz]
  show Except.ok (∏ t ∈ Finset.range 6, sigma demoModel (seqO demoObs) t) = _
  rw [Finset.prod_range_succ, Finset.prod_range_succ, Finset.prod_range_succ,
    Finset.prod_range_succ, Finset.prod_range_succ, Finset.prod_range_one,
    sv0, sv1, sv2, sv3, sv4, sv5]
  norm_num

/-! Viterbi values on the demo observations. -/

lemma dv00 : delta demoModel (seqO demoObs) demoS_pos 0 f0 = 9/20 := av00

lemma dv01 : delta demoModel (seqO demoObs) demoS_pos 0 f1 = 1/10 := av01

lemma pv00 : psi demoModel (seqO demoObs) demoS_pos 0 f0 = f0 := by
  show argmaxT (fun j => delta demoModel (seqO demoObs) demoS_pos 0 j *
    demoModel.trans f0 j) demoS_pos = f0
  rw [argmax_demo]
  rw [if_neg (by norm_num [dv00, dv01, dmT00, dmT01, dmT10, dmT11])]

lemma pv01 : psi demoModel (seqO demoObs) demoS_pos 0 f1 = f0 := by
  show argmaxT (fun j => delta demoModel (seqO demoObs) demoS_pos 0 j *
    demoModel.trans f1 j) demoS_pos = f0
  rw [argmax_demo]
  rw [if_neg (by norm_num [dv00, dv01, dmT00, dmT01, dmT10, dmT11])]

lemma dv10 : delta demoModel (seqO demoObs) demoS_pos 1 f0 = 81/250 := by
  rw [delta_succ, pv00, dv00]
  norm_num [ov0, ov1, ov2, ov3, ov4, ov5, dmI0, dmI1, dmT00, dmT01, dmT10, dmT11, dmE00, dmE01, dmE10, dmE11]

lemma dv11 : delta demoModel (seqO demoObs) demoS_pos 1 f1 = 9/500 := by
  rw [delta_succ, pv01, dv00]
  norm_num [ov0, ov1, ov2, ov3, ov4, ov5, dmI0, dmI1, dmT00, dmT01, dmT10, dmT11, dmE00, dmE01, dmE10, dmE11]

lemma pv10 : psi demoModel (seqO demoObs) demoS_pos 1 f0 = f0 := by
  show argmaxT (fun j => delta demoModel (seqO demoObs) demoS_pos 1 j *
    demoModel.trans f0 j) demoS_pos = f0
  rw [argmax_demo]
  rw [if_neg (by norm_num [dv10, dv11, dmT00, dmT01, dmT10, dmT11])]

lemma pv11 : psi demoModel (seqO demoObs) demoS_pos 1 f1 = f0 := by
  show argmaxT (fun j => delta demoModel (seqO demoObs) demoS_pos 1 j *
    demoModel.trans f1 j) demoS_pos = f0
  rw [argmax_demo]
  rw [if_neg (by norm_num [dv10, dv11, dmT00, dmT01, dmT10, dmT11])]

lemma dv20 : delta demoModel (seqO demoObs) demoS_pos 2 f0 = 81/3125 := by
  rw [delta_succ, pv10, dv10]
  norm_num [ov0, ov1, ov2, ov3, ov4, ov5, dmI0, dmI1, dmT00, dmT01, dmT10, dmT11, dmE00, dmE01, dmE10, dmE11]

lemma dv21 : delta demoModel (seqO demoObs) demoS_pos 2 f1 = 162/3125 := by
  rw [delta_succ, pv11, dv10]
  norm_num [ov0, ov1, ov2, ov3, ov4, ov5, dmI0, dmI1, dmT00, dmT01, dmT10, dmT11, dmE00, dmE01, dmE10, dmE11]

lemma pv20 : psi demoModel (seqO demoObs) demoS_pos 2 f0 = f0 := by
  show argmaxT (fun j => delta demoModel (seqO demoObs) demoS_pos 2 j *
    demoModel.trans f0 j) demoS_pos = f0
  rw [argmax_demo]
  rw [if_neg (by norm_num [dv20, dv21, dmT00, dmT01, dmT10, dmT11])]

lemma pv21 : psi demoModel (seqO demoObs) demoS_pos 2 f1 = f1 := by
  show argmaxT (fun j => delta demoModel (seqO demoObs) demoS_pos 2 j *
    demoModel.trans f1 j) demoS_pos = f1
  rw [argmax_demo]
  rw [if_pos (by norm_num [dv20, dv21, dmT00, dmT01, dmT10, dmT11])]

lemma dv30 : delta demoModel (seqO demoObs) demoS_pos 3 f0 = 1458/78125 := by
  rw [delta_succ, pv20, dv20]
  norm_num [ov0, ov1, ov2, ov3, ov4, ov5, dmI0, dmI1, dmT00, dmT01, dmT10, dmT11, dmE00, dmE01, dmE10, dmE11]

lemma dv31 : delta demoModel (seqO demoObs) demoS_pos 3 f1 = 567/78125 := by
  rw [delta_succ, pv21, dv21]
  norm_num [ov0, ov1, ov2, ov3, ov4, ov5, dmI0, dmI1, dmT00, dmT01, dmT10, dmT11, dmE00, dmE01, dmE10, dmE11]

lemma pv30 : psi demoModel (seqO demoObs) demoS_pos 3 f0 = f0 := by
  show argmaxT (fun j => delta demoModel (seqO demoObs) demoS_pos 3 j *
    demoModel.trans f0 j) demoS_pos = f0
  rw [argmax_demo]
  rw [if_neg (by norm_num [dv30, dv31, dmT00, dmT01, dmT10, dmT11])]

lemma pv31 : psi demoModel (seqO demoObs) demoS_pos 3 f1 = f1 := by
  show argmaxT (fun j => delta demoModel (seqO demoObs) demoS_pos 3 j *
    demoModel.trans f1 j) demoS_pos = f1
  rw [argmax_demo]
  rw [if_pos (by norm_num [dv30, dv31, dmT00, dmT01, dmT10, dmT11])]

lemma dv40 : delta demoModel (seqO demoObs) demoS_pos 4 f0 = 2916/1953125 := by
  rw [delta_succ, pv30, dv30]
  norm_num [ov0, ov1, ov2, ov3, ov4, ov5, dmI0, dmI1, dmT00, dmT01, dmT10, dmT11, dmE00, dmE01, dmE10, dmE11]

lemma dv41 : delta demoModel (seqO demoObs) demoS_pos 4 f1 = 7938/1953125 := by
  rw [delta_succ, pv31, dv31]
  norm_num [ov0, ov1, ov2, ov3, ov4, ov5, dmI0, dmI1, dmT00, dmT01, dmT10, dmT11, dmE00, dmE01, dmE10, dmE11]

lemma pv40 : psi demoModel (seqO demoObs) demoS_pos 4 f0 = f1 := by
  show argmaxT (fun j => delta demoModel (seqO demoObs) demoS_pos 4 j *
    demoModel.trans f0 j) demoS_pos = f1
  rw [argmax_demo]
  rw [if_pos (by norm_num [dv40, dv41, dmT00, dmT01, dmT10, dmT11])]

lemma pv41 : psi demoModel (seqO demoObs) demoS_pos 4 f1 = f1 := by
  show argmaxT (fun j => delta demoModel (seqO demoObs) demoS_pos 4 j *
    demoModel.trans f1 j) demoS_pos = f1
  rw [argmax_demo]
  rw [if_pos (by norm_num [dv40, dv41, dmT00, dmT01, dmT10, dmT11])]

lemma dv50 : delta demoModel (seqO demoObs) demoS_pos 5 f0 =
    11907/97656250 := by
  rw [delta_succ, pv40, dv41]
  norm_num [ov0, ov1, ov2, ov3, ov4, ov5, dmI0, dmI1, dmT00, dmT01, dmT10, dmT11, dmE00, dmE01, dmE10, dmE11]

lemma dv51 : delta demoModel (seqO demoObs) demoS_pos 5 f1 =
    111132/48828125 := by
  rw [delta_succ, pv41, dv41]
  norm_num [ov0, ov1, ov2, ov3, ov4, ov5, dmI0, dmI1, dmT00, dmT01, dmT10, dmT11, dmE00, dmE01, dmE10, dmE11]

/-- Unfolding of `decode` on generic arguments. -/
lemma decode_eq (m : Model) (obs : List ℕ) : decode m obs =
    (if obs.isEmpty then .error .EmptySequence
    else if obs.any (fun sym => m.K ≤ sym) then .error .SymbolOutOfRange
    else if h : 0 < m.S then
      (if (List.finRange m.S).all
          (fun s => decide (delta m (seqO obs) h (obs.length - 1) s = 0))
      then .error .NoFeasiblePath
      else .ok ((vitPath m (seqO obs) h (obs.length - 1)
        (argmaxT (delta m (seqO obs) h (obs.length - 1)) h)).map Fin.val))
    else .error .NoFeasiblePath) := rfl

/-- The Viterbi decoder's run on the demo data, evaluated exactly. -/
lemma decode_demo_val :
    decode demoModel demoObs = Except.ok [0, 0, 1, 1, 1, 1] := by
  have hterm : argmaxT (delta demoModel (seqO demoObs) demoS_pos 5)
      demoS_pos = f1 := by
    rw [argmax_demo]
    rw [if_pos (by rw [dv50, dv51]; norm_num)]
  have hguard : (List.finRange demoModel.S).all
      (fun s => decide (delta demoModel (seqO demoObs) demoS_pos 5 s = 0)) =
      false := by
    have hfr : List.finRange demoModel.S = [f0, f1] := rfl
    rw [hfr]
    simp only [List.all_cons, List.all_nil]
    rw [decide_eq_false
      (show ¬delta demoModel (seqO demoObs) demoS_pos 5 f0 = 0 by
        rw [dv50]; norm_num)]
    rfl
  have hpath : vitPath demoModel (seqO demoObs) demoS_pos 5 f1 =
      [f0, f0, f1, f1, f1, f1] := by
    rw [vitPath_succ, pv41, vitPath_succ, pv31, vitPath_succ, pv21,
      vitPath_succ, pv11, vitPath_succ, pv00]
    rfl
  rw [decode_eq]
  rw [show demoObs.isEmpty = false from rfl]
  rw [if_neg Bool.false_ne_true]
  rw [show demoObs.any (fun sym => decide (demoModel.K ≤ sym)) = false from rfl]
  rw [if_neg Bool.false_ne_true]
  rw [dif_pos demoS_pos]
  rw [show demoObs.length - 1 = 5 from rfl]
  rw [hguard, if_neg Bool.false_ne_true, hterm, hpath]
  rfl

/-! ### Claim theorems: demo scenarios and error handling -/

/-- C1 counterexample: on the demo model, Viterbi decoding of
[0, 0, 1, 0, 1, 1] does not return [0, 0, 1, 0, 1, 1] as the spec's scenario
S1 expects. -/
theorem viterbi_demo_not_claimed_path :
    decode demoModel demoObs ≠ Except.ok [0, 0, 1, 0, 1, 1] := by
  rw [decode_demo_val]
  intro h
  have h2 : [0, 0, 1, 1, 1, 1] = [0, 0, 1, 0, 1, 1] := Except.ok.inj h
  exact absurd h2 (by decide)

/-- C1 amended: on the demo model, Viterbi decoding of [0, 0, 1, 0, 1, 1]
returns the state sequence [0, 0, 1, 1, 1, 1]: the single symbol 0 at t = 3
is not enough to pull the path back through state 0, because the detour pays
two transition switches (0.2 * 0.3) against staying (0.7 * 0.7). -/
theorem viterbi_demo_path :
    decode demoModel demoObs = Except.ok [0, 0, 1, 1, 1, 1] :=
  decode_demo_val

/-- C10: the demo's literal construction inputs are exactly stochastic, so
constructing the model from them succeeds rather than failing with
`InvalidParameters`. -/
theorem construct_demo_ok :
    construct 2 2 demoInit demoTrans demoEmit = Except.ok demoModel := by
  show (if ValidModel demoModel then Except.ok demoModel
    else Except.error HmmErr.InvalidParameters) = Except.ok demoModel
  rw [if_pos demo_valid]

/-- C4: on any valid model, the empty observation sequence is rejected with
`EmptySequence` by log-likelihood, decoding, and training (for training:
whenever the batch contains an empty sequence, whatever the iteration
count). -/
theorem reject_empty_sequence (m : Model) (hv : ValidModel m) :
    likelihoodE m [] = Except.error HmmErr.EmptySequence ∧
    decode m [] = Except.error HmmErr.EmptySequence ∧
    ∀ seqs n, [] ∈ seqs → (train m seqs n).2 = some HmmErr.EmptySequence := by
  refine ⟨rfl, rfl, ?_⟩
  intro seqs n hmem
  have hc : checkSeqs m seqs = some HmmErr.EmptySequence := by
    unfold checkSeqs
    rw [if_pos]
    rw [Bool.or_eq_true]
    exact Or.inr (List.any_eq_true.mpr ⟨[], hmem, rfl⟩)
  unfold train
  rw [hc]

/-- C5: on any valid model, an observation sequence containing a symbol
outside the alphabet [0, K) is rejected with `SymbolOutOfRange` by
log-likelihood, decoding, and training (for training: whenever it appears in
a batch of non-empty sequences); symbols are unsigned, so no negative symbol
exists. -/
theorem reject_out_of_range (m : Model) (obs : List ℕ) (hv : ValidModel m)
    (hsym : ∃ sym ∈ obs, m.K ≤ sym) :
    likelihoodE m obs = Except.error HmmErr.SymbolOutOfRange ∧
    decode m obs = Except.error HmmErr.SymbolOutOfRange ∧
    ∀ seqs n, obs ∈ seqs → (∀ o ∈ seqs, o ≠ []) →
      (train m seqs n).2 = some HmmErr.SymbolOutOfRange := by
  obtain ⟨sym, hmem, hK⟩ := hsym
  have hne : obs ≠ [] := by
    intro h
    rw [h] at hmem
    exact absurd hmem (List.not_mem_nil sym)
  have hempty : obs.isEmpty = false := by
    cases obs with
    | nil => exact absurd rfl hne
    | cons a l => rfl
  have hany : obs.any (fun s => decide (m.K ≤ s)) = true :=
    List.any_eq_true.mpr ⟨sym, hmem, by simpa using hK⟩
  refine ⟨?_, ?_, ?_⟩
  · unfold likelihoodE
    rw [hempty, hany]
    rfl
  · unfold decode
    rw [hempty, hany]
    rfl
  · intro seqs n hobs hno
    have hc : checkSeqs m seqs = some HmmErr.SymbolOutOfRange := by
      unfold checkSeqs
      rw [if_neg, if_pos]
      · exact List.any_eq_true.mpr ⟨obs, hobs, hany⟩
      · rw [Bool.or_eq_true]
        rintro (h | h)
        · have : seqs = [] := by
            cases seqs with
            | nil => rfl
            | cons a l => exact absurd h (by simp)
          rw [this] at hobs
          exact absurd hobs (List.not_mem_nil obs)
        · obtain ⟨o, ho, hoe⟩ := List.any_eq_true.mp h
          have : o = [] := by
            cases o with
            | nil => rfl
            | cons a l => exact absurd hoe (by simp)
          exact absurd this (hno o ho)
    unfold train
    rw [hc]

/-- Witness for C4 at the demo model with the singleton batch [[]]. -/
theorem reject_empty_sequence_witness :
    ValidModel demoModel ∧
    likelihoodE demoModel [] = Except.error HmmErr.EmptySequence ∧
    decode demoModel [] = Except.error HmmErr.EmptySequence ∧
    (train demoModel [[]] 500).2 = some HmmErr.EmptySequence :=
  ⟨demo_valid, (reject_empty_sequence demoModel demo_valid).1,
    (reject_empty_sequence demoModel demo_valid).2.1,
    (reject_empty_sequence demoModel demo_valid).2.2 [[]] 500
      (List.mem_singleton.mpr rfl)⟩

/-- Witness for C5 at the demo model with the sequence [0, 2] (spec scenario
S4). -/
theorem reject_out_of_range_witness :
    ValidModel demoModel ∧
    (∃ sym ∈ ([0, 2] : List ℕ), demoModel.K ≤ sym) ∧
    likelihoodE demoModel [0, 2] = Except.error HmmErr.SymbolOutOfRange ∧
    decode demoModel [0, 2] = Except.error HmmErr.SymbolOutOfRange ∧
    (train demoModel [[0, 2]] 500).2 = some HmmErr.SymbolOutOfRange :=
  ⟨demo_valid, ⟨2, by decide, by decide⟩,
    (reject_out_of_range demoModel [0, 2] demo_valid
      ⟨2, by decide, by decide⟩).1,
    (reject_out_of_range demoModel [0, 2] demo_valid
      ⟨2, by decide, by decide⟩).2.1,
    (reject_out_of_range demoModel [0, 2] demo_valid
      ⟨2, by decide, by decide⟩).2.2 [[0, 2]] 500 (by decide) (by decide)⟩

/-- C8: in Viterbi decoding, the back-pointer argmax over predecessor states
and the terminal argmax over final scores each attain the maximum, and
whenever several states attain it (an exact tie in this exact-arithmetic
model, which is the 1e-12-tolerance tie of the floating-point spec collapsed
to equality) the smallest state index is chosen; the decoder is a pure
function of the model and the observations, so its output is deterministic. -/
theorem viterbi_tiebreak_smallest (m : Model) (O : ℕ → ℕ) (h : 0 < m.S)
    (t : ℕ) (s : Fin m.S) :
    (∀ j, delta m O h t j * m.trans s j ≤
        delta m O h t (psi m O h t s) * m.trans s (psi m O h t s)) ∧
    (∀ j, delta m O h t j * m.trans s j =
        delta m O h t (psi m O h t s) * m.trans s (psi m O h t s) →
      psi m O h t s ≤ j) ∧
    (∀ j, delta m O h t j ≤ delta m O h t (argmaxT (delta m O h t) h)) ∧
    (∀ j, delta m O h t j = delta m O h t (argmaxT (delta m O h t) h) →
      argmaxT (delta m O h t) h ≤ j) := by
  have h1 := argmaxT_spec (fun j => delta m O h t j * m.trans s j) h
  have h2 := argmaxT_spec (delta m O h t) h
  exact ⟨h1.1, h1.2, h2.1, h2.2⟩

/-- Witness for C8 at the demo model, time 0, state 0. -/
theorem viterbi_tiebreak_smallest_witness :
    0 < demoModel.S ∧
    (∀ j, delta demoModel (seqO demoObs) demoS_pos 0 j *
        demoModel.trans ⟨0, demoS_pos⟩ j ≤
      delta demoModel (seqO demoObs) demoS_pos 0
          (psi demoModel (seqO demoObs) demoS_pos 0 ⟨0, demoS_pos⟩) *
        demoModel.trans ⟨0, demoS_pos⟩
          (psi demoModel (seqO demoObs) demoS_pos 0 ⟨0, demoS_pos⟩)) :=
  ⟨demoS_pos,
    (viterbi_tiebreak_smallest demoModel (seqO demoObs) demoS_pos 0
      ⟨0, demoS_pos⟩).1⟩

/-! Zero-denominator computations on `mZero`: state 1 carries no posterior
mass, so its accumulated denominators vanish on the batch [[0, 1]]. -/

lemma mzI1 : mZero.init ⟨1, Nat.one_lt_two⟩ = 0 := rfl

lemma mzT1 (j : Fin mZero.S) : mZero.trans ⟨1, Nat.one_lt_two⟩ j = 0 := rfl

lemma mz_a01 : alphaT mZero (seqO [0, 1]) 0 ⟨1, Nat.one_lt_two⟩ = 0 := by
  show mZero.init ⟨1, Nat.one_lt_two⟩ *
    emitP mZero ⟨1, Nat.one_lt_two⟩ (seqO [0, 1] 0) = 0
  rw [mzI1, zero_mul]

lemma mz_as01 : alphaS mZero (seqO [0, 1]) 0 ⟨1, Nat.one_lt_two⟩ = 0 := by
  unfold alphaS
  rw [mz_a01]
  exact zero_div _

lemma mz_g0 (T : ℕ) : gammaS mZero (seqO [0, 1]) T 0 ⟨1, Nat.one_lt_two⟩ = 0 := by
  unfold gammaS
  rw [mz_as01, zero_mul, zero_div]

lemma mz_a11 : alphaT mZero (seqO [0, 1]) 1 ⟨1, Nat.one_lt_two⟩ = 0 := by
  rw [alphaT_succ, sum_mzero]
  rw [mzT1, mzT1, zero_mul, zero_mul, add_zero, mul_zero]

lemma mz_as11 : alphaS mZero (seqO [0, 1]) 1 ⟨1, Nat.one_lt_two⟩ = 0 := by
  unfold alphaS
  rw [mz_a11]
  exact zero_div _

lemma mz_g1 (T : ℕ) : gammaS mZero (seqO [0, 1]) T 1 ⟨1, Nat.one_lt_two⟩ = 0 := by
  unfold gammaS
  rw [mz_as11, zero_mul, zero_div]

lemma mz_transDen : transDenL mZero [[0, 1]] ⟨1, Nat.one_lt_two⟩ = 0 := by
  show transDen mZero [0, 1] ⟨1, Nat.one_lt_two⟩ + 0 = 0
  unfold transDen
  rw [show ([0, 1] : List ℕ).length - 1 = 1 from rfl, Finset.sum_range_one,
    mz_g0]
  norm_num

lemma mz_emitDen : emitDenL mZero [[0, 1]] ⟨1, Nat.one_lt_two⟩ = 0 := by
  show emitDen mZero [0, 1] ⟨1, Nat.one_lt_two⟩ + 0 = 0
  unfold emitDen
  rw [show ([0, 1] : List ℕ).length = 2 from rfl, Finset.sum_range_succ,
    Finset.sum_range_one, mz_g0, mz_g1]
  norm_num

/-- C9: in the Baum-Welch M-step, a state whose accumulated transition
denominator is zero keeps its column of A verbatim from the previous
iteration, and a state whose emission denominator is zero keeps its emission
row verbatim; no entry is produced by a division by the zero denominator. -/
theorem mstep_zero_denominator (m : Model) (seqs : List (List ℕ))
    (j s : Fin m.S) :
    (transDenL m seqs j = 0 →
      ∀ i, (mStep m seqs).trans i j = m.trans i j) ∧
    (emitDenL m seqs s = 0 →
      ∀ k, (mStep m seqs).emit s k = m.emit s k) := by
  constructor
  · intro hz i
    show (if transDenL m seqs j = 0 then m.trans i j else _) = m.trans i j
    rw [if_pos hz]
  · intro hz k
    show (if emitDenL m seqs s = 0 then m.emit s k else _) = m.emit s k
    rw [if_pos hz]

/-- Witness for C9: in `mZero` state 1 is unreachable, so both of its
denominators vanish on the batch [[0, 1]], and the M-step keeps its column
of A and its emission row. -/
theorem mstep_zero_denominator_witness :
    transDenL mZero [[0, 1]] ⟨1, Nat.one_lt_two⟩ = 0 ∧
    emitDenL mZero [[0, 1]] ⟨1, Nat.one_lt_two⟩ = 0 ∧
    (∀ i, (mStep mZero [[0, 1]]).trans i ⟨1, Nat.one_lt_two⟩ =
      mZero.trans i ⟨1, Nat.one_lt_two⟩) ∧
    (∀ k, (mStep mZero [[0, 1]]).emit ⟨1, Nat.one_lt_two⟩ k =
      mZero.emit ⟨1, Nat.one_lt_two⟩ k) :=
  ⟨mz_transDen, mz_emitDen,
    (mstep_zero_denominator mZero [[0, 1]] ⟨1, Nat.one_lt_two⟩
      ⟨1, Nat.one_lt_two⟩).1 mz_transDen,
    (mstep_zero_denominator mZero [[0, 1]] ⟨1, Nat.one_lt_two⟩
      ⟨1, Nat.one_lt_two⟩).2 mz_emitDen⟩

/-! ### The log-likelihood formula (claim C2) -/

/-- A successful likelihood run returns the product of the per-step scaling
totals, all of which are non-zero. -/
lemma likelihoodE_ok (m : Model) (obs : List ℕ) (P : ℚ)
    (hok : likelihoodE m obs = Except.ok P) :
    P = (∏ t ∈ Finset.range obs.length, sigma m (seqO obs) t) ∧
    ∀ t < obs.length, sigma m (seqO obs) t ≠ 0 := by
  unfold likelihoodE at hok
  split at hok
  · exact absurd hok (by simp)
  · split at hok
    · exact absurd hok (by simp)
    · split at hok
      · exact absurd hok (by simp)
      · rename_i hzero
        refine ⟨(Except.ok.inj hok).symm, ?_⟩
        intro t ht heq
        exact hzero (List.any_eq_true.mpr
          ⟨t, List.mem_range.mpr ht, decide_eq_true heq⟩)

/-- C2: on a successful run over a valid model and a non-empty in-range
observation sequence, the logarithm of the returned likelihood equals
`-sum_t log c_t`, where `c_t` are the scaling factors of the scaled forward
recurrence of spec section 4.3 (`cScale`, built from `alphaT`). -/
theorem loglik_matches_scaling_formula (m : Model) (obs : List ℕ) (P : ℚ)
    (hv : ValidModel m) (hT : 1 ≤ obs.length)
    (hsym : ∀ sym ∈ obs, sym < m.K)
    (hok : likelihoodE m obs = Except.ok P) :
    Real.log (P : ℝ) =
      -∑ t ∈ Finset.range obs.length,
        Real.log ((cScale m (seqO obs) t : ℚ) : ℝ) := by
  obtain ⟨hP, hz⟩ := likelihoodE_ok m obs P hok
  have hcast : (P : ℝ) =
      ∏ t ∈ Finset.range obs.length, ((sigma m (seqO obs) t : ℚ) : ℝ) := by
    rw [hP]
    push_cast
    rfl
  rw [hcast, Real.log_prod]
  · rw [← Finset.sum_neg_distrib]
    refine Finset.sum_congr rfl ?_
    intro t ht
    have : ((cScale m (seqO obs) t : ℚ) : ℝ) = ((sigma m (seqO obs) t : ℚ) : ℝ)⁻¹ := by
      unfold cScale
      push_cast
      rw [one_div]
    rw [this, Real.log_inv, neg_neg]
  · intro t ht
    exact Rat.cast_ne_zero.mpr (hz t (Finset.mem_range.mp ht))

/-- Witness for C2 on the demo model and demo observations. -/
theorem loglik_matches_scaling_formula_witness :
    ValidModel demoModel ∧ 1 ≤ demoObs.length ∧
    (∀ sym ∈ demoObs, sym < demoModel.K) ∧
    likelihoodE demoModel demoObs = Except.ok (3336287/390625000 : ℚ) ∧
    Real.log ((3336287/390625000 : ℚ) : ℝ) =
      -∑ t ∈ Finset.range demoObs.length,
        Real.log ((cScale demoModel (seqO demoObs) t : ℚ) : ℝ) :=
  ⟨demo_valid, by decide, by decide, likelihoodE_demo,
    loglik_matches_scaling_formula demoModel demoObs (3336287/390625000 : ℚ)
      demo_valid (by decide) (by decide) likelihoodE_demo⟩

/-! ### The demo's log-likelihood value (claim C6)

The exact likelihood of the demo sequence is 3336287/390625000, whose
natural logarithm is -4.76289, not the -4.1077 claimed by spec scenario S2.
The logarithm is bracketed by Taylor bounds on `exp` around rational
points. -/

lemma exp_taylor_lb {x : ℝ} (h0 : 0 ≤ x) (h1 : x ≤ 1) :
    (∑ m ∈ Finset.range 8, x ^ m / m.factorial) -
      x ^ 8 * (Nat.succ 8 / ((Nat.factorial 8 : ℝ) * 8)) ≤ Real.exp x := by
  have h4 : |x| ≤ 1 := by rwa [abs_of_nonneg h0]
  have h := Real.exp_bound h4 (n := 8) (by norm_num)
  have h2 := (abs_sub_le_iff.1 h).2
  rw [abs_of_nonneg h0] at h2
  linarith

lemma exp_7619_ub : Real.exp 0.7619 ≤ 2.142349 := by
  have h := Real.exp_bound' (x := 0.7619) (by norm_num) (by norm_num)
    (n := 8) (by norm_num)
  refine h.trans ?_
  norm_num [Finset.sum_range_succ, Nat.factorial]

lemma exp_1087_ub : Real.exp 0.1087 ≤ 1.114843 := by
  have h := Real.exp_bound' (x := 0.1087) (by norm_num) (by norm_num)
    (n := 8) (by norm_num)
  refine h.trans ?_
  norm_num [Finset.sum_range_succ, Nat.factorial]

lemma exp_7639_lb : (2.146625 : ℝ) ≤ Real.exp 0.7639 := by
  refine le_trans ?_ (exp_taylor_lb (x := 0.7639) (by norm_num) (by norm_num))
  norm_num [Finset.sum_range_succ, Nat.factorial, Nat.succ_eq_add_one]

lemma exp_split (a : ℝ) : Real.exp (4 + a) = Real.exp 1 ^ 4 * Real.exp a := by
  rw [Real.exp_add]
  congr 1
  rw [show (4 : ℝ) = ((4 : ℕ) : ℝ) * 1 by norm_num, Real.exp_nat_mul]

lemma exp_one_pow4_ub : Real.exp 1 ^ 4 ≤ (54.598151 : ℝ) := by
  calc Real.exp 1 ^ 4 ≤ (2.7182818286 : ℝ) ^ 4 :=
        pow_le_pow_left₀ (Real.exp_pos 1).le Real.exp_one_lt_d9.le 4
  _ ≤ (54.598151 : ℝ) := by norm_num

lemma exp_one_pow4_lb : (54.598150 : ℝ) ≤ Real.exp 1 ^ 4 := by
  calc (54.598150 : ℝ) ≤ (2.7182818283 : ℝ) ^ 4 := by norm_num
  _ ≤ Real.exp 1 ^ 4 :=
        pow_le_pow_left₀ (by norm_num) Real.exp_one_gt_d9.le 4

lemma demoP_pos : (0 : ℝ) < ((3336287/390625000 : ℚ) : ℝ) := by
  push_cast
  norm_num

lemma log_demoP_lt : Real.log ((3336287/390625000 : ℚ) : ℝ) < -4.1087 := by
  rw [Real.log_lt_iff_lt_exp demoP_pos]
  rw [show (-4.1087 : ℝ) = -(4 + 0.1087) by norm_num, Real.exp_neg]
  have hub : Real.exp (4 + 0.1087) ≤ 60.87 := by
    rw [exp_split]
    calc Real.exp 1 ^ 4 * Real.exp 0.1087 ≤ 54.598151 * 1.114843 :=
          mul_le_mul exp_one_pow4_ub exp_1087_ub (Real.exp_pos _).le
            (by norm_num)
    _ ≤ 60.87 := by norm_num
  have hP : ((3336287/390625000 : ℚ) : ℝ) < (60.87 : ℝ)⁻¹ := by
    push_cast
    norm_num
  exact lt_of_lt_of_le hP (inv_anti₀ (Real.exp_pos _) hub)

lemma log_demoP_lb : (-4.7639 : ℝ) ≤ Real.log ((3336287/390625000 : ℚ) : ℝ) := by
  rw [Real.le_log_iff_exp_le demoP_pos]
  rw [show (-4.7639 : ℝ) = -(4 + 0.7639) by norm_num, Real.exp_neg]
  have hlb : (117.2016 : ℝ) ≤ Real.exp (4 + 0.7639) := by
    rw [exp_split]
    calc (117.2016 : ℝ) ≤ 54.598150 * 2.146625 := by norm_num
    _ ≤ Real.exp 1 ^ 4 * Real.exp 0.7639 :=
          mul_le_mul exp_one_pow4_lb exp_7639_lb (by norm_num)
            (pow_nonneg (Real.exp_pos 1).le 4)
  refine le_trans (inv_anti₀ (by norm_num) hlb) ?_
  push_cast
  norm_num

lemma log_demoP_ub : Real.log ((3336287/390625000 : ℚ) : ℝ) ≤ (-4.7619 : ℝ) := by
  rw [Real.log_le_iff_le_exp demoP_pos]
  rw [show (-4.7619 : ℝ) = -(4 + 0.7619) by norm_num, Real.exp_neg]
  have hub : Real.exp (4 + 0.7619) ≤ 116.96833 := by
    rw [exp_split]
    calc Real.exp 1 ^ 4 * Real.exp 0.7619 ≤ 54.598151 * 2.142349 :=
          mul_le_mul exp_one_pow4_ub exp_7619_ub (Real.exp_pos _).le
            (by norm_num)
    _ ≤ 116.96833 := by norm_num
  have hP : ((3336287/390625000 : ℚ) : ℝ) ≤ (116.96833 : ℝ)⁻¹ := by
    push_cast
    norm_num
  exact le_trans hP (inv_anti₀ (Real.exp_pos _) hub)

/-- C6 counterexample: the demo sequence's log-likelihood is not -4.1077 to
within 1e-3; it is below -4.1087 (in fact about -4.7629: the spec's S2 value
is wrong). -/
theorem loglik_demo_not_spec_value :
    likelihoodE demoModel demoObs = Except.ok (3336287/390625000 : ℚ) ∧
    ¬ |Real.log ((3336287/390625000 : ℚ) : ℝ) - (-4.1077)| ≤ 0.001 := by
  refine ⟨likelihoodE_demo, ?_⟩
  intro h
  have h2 := (abs_le.mp h).1
  have h3 := log_demoP_lt
  simp only [sub_neg_eq_add] at h2
  linarith

/-- C6 amended: the demo sequence's log-likelihood equals -4.7629 to within
1e-3 (the exact likelihood is 3336287/390625000 and its logarithm is
about -4.76289). -/
theorem loglik_demo_value :
    likelihoodE demoModel demoObs = Except.ok (3336287/390625000 : ℚ) ∧
    |Real.log ((3336287/390625000 : ℚ) : ℝ) - (-4.7629)| ≤ 0.001 := by
  refine ⟨likelihoodE_demo, abs_le.mpr ⟨?_, ?_⟩⟩
  · have := log_demoP_lb
    simp only [sub_neg_eq_add]
    linarith
  · have := log_demoP_ub
    simp only [sub_neg_eq_add]
    linarith

/-! ### Stochasticity preservation under training (claim C3)

The chain of identities: the normalized forward vector sums to 1; the
forward-backward product telescopes (by downward induction, carried on the
reversed index of `betaR`); hence each `gamma_t` sums to 1 over states, and
the pair posterior `xi_t` sums over successor states to `gamma_t`.  The
M-step's numerator sums therefore equal its denominators, so every updated
block sums to exactly 1; blocks kept by the zero-denominator rule inherit
the previous iteration's bound. -/

/-- Sums within the stochasticity tolerance, as in spec property 1. -/
def NearStoch (m : Model) : Prop :=
  |sumV m.init - 1| ≤ tol ∧
    (∀ j, |sumV (fun i => m.trans i j) - 1| ≤ tol) ∧
    (∀ s, |sumV (m.emit s) - 1| ≤ tol)

lemma alphaS_sum (m : Model) (O : ℕ → ℕ) (t : ℕ)
    (h : sigma m O t ≠ 0) : (∑ s, alphaS m O t s) = 1 := by
  unfold alphaS
  rw [← Finset.sum_div]
  exact div_self h

lemma betaR_succ (m : Model) (O : ℕ → ℕ) (T r : ℕ) (s : Fin m.S) :
    betaR m O T (r + 1) s =
      cScale m O (T - 2 - r) *
        ∑ j, m.trans j s * emitP m j (O (T - 1 - r)) * betaR m O T r j := rfl

lemma betaS_last (m : Model) (O : ℕ → ℕ) (T : ℕ) (s : Fin m.S) :
    betaS m O T (T - 1) s = cScale m O (T - 1) := by
  unfold betaS
  rw [Nat.sub_self]
  rfl

lemma betaS_rec (m : Model) (O : ℕ → ℕ) (T t : ℕ) (ht : t + 1 ≤ T - 1)
    (s : Fin m.S) :
    betaS m O T t s =
      cScale m O t *
        ∑ j, m.trans j s * emitP m j (O (t + 1)) * betaS m O T (t + 1) j := by
  unfold betaS
  rw [show T - 1 - t = (T - 1 - (t + 1)) + 1 by omega, betaR_succ,
    show T - 2 - (T - 1 - (t + 1)) = t by omega,
    show T - 1 - (T - 1 - (t + 1)) = t + 1 by omega]

/-- The forward-backward telescoping identity, stated on the reversed
backward index: at time `T - 1 - r`, the scaled forward and backward vectors
pair to the scaling factor. -/
lemma alpha_beta_pairing (m : Model) (O : ℕ → ℕ) (T : ℕ) (hT : 1 ≤ T)
    (hs : ∀ t < T, sigma m O t ≠ 0) :
    ∀ r, r ≤ T - 1 →
      (∑ s, alphaS m O (T - 1 - r) s * betaR m O T r s) =
        cScale m O (T - 1 - r) := by
  intro r
  induction r with
  | zero =>
      intro _
      rw [Nat.sub_zero]
      show (∑ s, alphaS m O (T - 1) s * cScale m O (T - 1)) = _
      rw [← Finset.sum_mul, alphaS_sum m O (T - 1) (hs (T - 1) (by omega)),
        one_mul]
  | succ r ih =>
      intro hr
      have hrT : r ≤ T - 1 := by omega
      set t := T - 1 - (r + 1) with hdef
      have ht1 : t + 1 = T - 1 - r := by omega
      have htT : t + 1 < T := by omega
      have hstep : ∀ s, betaR m O T (r + 1) s =
          cScale m O t * ∑ j, m.trans j s * emitP m j (O (t + 1)) *
            betaR m O T r j := by
        intro s
        rw [betaR_succ, show T - 2 - r = t by omega,
          show T - 1 - r = t + 1 by omega]
      have hA : ∀ j, alphaT m O (t + 1) j =
          sigma m O (t + 1) * alphaS m O (t + 1) j := by
        intro j
        unfold alphaS
        rw [mul_comm, div_mul_cancel₀ _ (hs (t + 1) htT)]
      calc (∑ s, alphaS m O t s * betaR m O T (r + 1) s)
          = ∑ s, ∑ j, cScale m O t * (alphaS m O t s *
              (m.trans j s * emitP m j (O (t + 1)) * betaR m O T r j)) := by
            refine Finset.sum_congr rfl ?_
            intro s _
            rw [hstep s, Finset.mul_sum, Finset.mul_sum]
            refine Finset.sum_congr rfl ?_
            intro j _
            ring
      _ = ∑ j, ∑ s, cScale m O t * (alphaS m O t s *
              (m.trans j s * emitP m j (O (t + 1)) * betaR m O T r j)) :=
            Finset.sum_comm
      _ = ∑ j, cScale m O t * (alphaT m O (t + 1) j * betaR m O T r j) := by
            refine Finset.sum_congr rfl ?_
            intro j _
            rw [alphaT_succ, ← Finset.mul_sum]
            congr 1
            conv_rhs => rw [Finset.mul_sum, Finset.sum_mul]
            refine Finset.sum_congr rfl ?_
            intro s _
            ring
      _ = ∑ j, cScale m O t *
            (sigma m O (t + 1) * (alphaS m O (t + 1) j * betaR m O T r j)) := by
            refine Finset.sum_congr rfl ?_
            intro j _
            rw [hA j]
            ring
      _ = cScale m O t *
            (sigma m O (t + 1) * ∑ j, alphaS m O (t + 1) j * betaR m O T r j) := by
            conv_rhs => rw [Finset.mul_sum, Finset.mul_sum]
      _ = cScale m O t := by
            rw [ht1, ih hrT, ← ht1]
            unfold cScale
            rw [mul_one_div, div_self (hs (t + 1) htT), mul_one]

/-- Each state-posterior vector `gamma_t` sums to 1 (spec property 3). -/
lemma gamma_sum (m : Model) (O : ℕ → ℕ) (T t : ℕ) (hT : 1 ≤ T)
    (ht : t ≤ T - 1) (hs : ∀ u < T, sigma m O u ≠ 0) :
    (∑ s, gammaS m O T t s) = 1 := by
  have hc : cScale m O t ≠ 0 := by
    unfold cScale
    exact one_div_ne_zero (hs t (by omega))
  have htt : T - 1 - (T - 1 - t) = t := by omega
  have hp := alpha_beta_pairing m O T hT hs (T - 1 - t) (by omega)
  rw [htt] at hp
  unfold gammaS betaS
  rw [← Finset.sum_div, hp]
  exact div_self hc

/-- Summing the pair posterior over the successor state recovers the state
posterior. -/
lemma xi_sum (m : Model) (O : ℕ → ℕ) (T t : ℕ) (ht : t + 1 ≤ T - 1)
    (hs : ∀ u < T, sigma m O u ≠ 0) (j : Fin m.S) :
    (∑ i, xiS m O T t i j) = gammaS m O T t j := by
  have hc : cScale m O t ≠ 0 := by
    unfold cScale
    exact one_div_ne_zero (hs t (by omega))
  have hb := betaS_rec m O T t ht j
  have hsum : (∑ i, m.trans i j * emitP m i (O (t + 1)) * betaS m O T (t + 1) i)
      = betaS m O T t j / cScale m O t := by
    rw [hb, mul_div_cancel_left₀ _ hc]
  calc (∑ i, xiS m O T t i j)
      = alphaS m O t j *
          ∑ i, m.trans i j * emitP m i (O (t + 1)) * betaS m O T (t + 1) i := by
        rw [Finset.mul_sum]
        refine Finset.sum_congr rfl ?_
        intro i _
        unfold xiS
        ring
  _ = alphaS m O t j * (betaS m O T t j / cScale m O t) := by rw [hsum]
  _ = gammaS m O T t j := by
        unfold gammaS
        rw [mul_div_assoc]

/-- Validity of a training batch for one iteration: every sequence is
non-empty, in-range, and scaling never degenerates. -/
def GoodBatch (m : Model) (seqs : List (List ℕ)) : Prop :=
  ∀ o ∈ seqs, 1 ≤ o.length ∧ (∀ sym ∈ o, sym < m.K) ∧
    ∀ t < o.length, sigma m (seqO o) t ≠ 0

lemma initAcc_sum (m : Model) (obs : List ℕ) (hT : 1 ≤ obs.length)
    (hs : ∀ t < obs.length, sigma m (seqO obs) t ≠ 0) :
    (∑ s, initAcc m obs s) = 1 := by
  unfold initAcc
  exact gamma_sum m (seqO obs) obs.length 0 hT (by omega) hs

lemma transNum_sum (m : Model) (obs : List ℕ)
    (hs : ∀ t < obs.length, sigma m (seqO obs) t ≠ 0) (j : Fin m.S) :
    (∑ i, transNum m obs i j) = transDen m obs j := by
  unfold transNum transDen
  rw [Finset.sum_comm]
  refine Finset.sum_congr rfl ?_
  intro t ht
  have ht2 : t + 1 ≤ obs.length - 1 := by
    have := Finset.mem_range.mp ht
    omega
  exact xi_sum m (seqO obs) obs.length t ht2 hs j

lemma emitNum_sum (m : Model) (obs : List ℕ)
    (hsym : ∀ sym ∈ obs, sym < m.K) (s : Fin m.S) :
    (∑ k, emitNum m obs s k) = emitDen m obs s := by
  unfold emitNum emitDen
  rw [Finset.sum_comm]
  refine Finset.sum_congr rfl ?_
  intro t ht
  have htl : t < obs.length := Finset.mem_range.mp ht
  have hk : seqO obs t < m.K := by
    have hmem : obs.getD t 0 ∈ obs := by
      rw [List.getD_eq_getElem obs 0 htl]
      exact List.getElem_mem htl
    exact hsym _ hmem
  rw [Finset.sum_eq_single (⟨seqO obs t, hk⟩ : Fin m.K)]
  · rw [if_pos rfl]
  · intro b _ hb
    rw [if_neg]
    intro heq
    exact hb (Fin.ext heq.symm)
  · intro habs
    exact absurd (Finset.mem_univ _) habs

lemma initAccL_sum (m : Model) (seqs : List (List ℕ)) (hval : GoodBatch m seqs) :
    (∑ s, initAccL m seqs s) = (seqs.length : ℚ) := by
  induction seqs with
  | nil => simp [initAccL]
  | cons o rest ih =>
      have ho := hval o (by simp)
      have hrest : GoodBatch m rest := fun o' ho' => hval o' (by simp [ho'])
      have hstep : ∀ s, initAccL m (o :: rest) s =
          initAcc m o s + initAccL m rest s := by
        intro s
        rfl
      calc (∑ s, initAccL m (o :: rest) s)
          = (∑ s, initAcc m o s) + ∑ s, initAccL m rest s := by
            rw [← Finset.sum_add_distrib]
            exact Finset.sum_congr rfl fun s _ => hstep s
      _ = 1 + (rest.length : ℚ) := by
            rw [initAcc_sum m o ho.1 ho.2.2, ih hrest]
      _ = ((o :: rest).length : ℚ) := by
            rw [List.length_cons]
            push_cast
            ring

lemma transNumL_sum (m : Model) (seqs : List (List ℕ))
    (hval : GoodBatch m seqs) (j : Fin m.S) :
    (∑ i, transNumL m seqs i j) = transDenL m seqs j := by
  induction seqs with
  | nil => simp [transNumL, transDenL]
  | cons o rest ih =>
      have ho := hval o (by simp)
      have hrest : GoodBatch m rest := fun o' ho' => hval o' (by simp [ho'])
      have hstep : ∀ i, transNumL m (o :: rest) i j =
          transNum m o i j + transNumL m rest i j := by
        intro i
        rfl
      calc (∑ i, transNumL m (o :: rest) i j)
          = (∑ i, transNum m o i j) + ∑ i, transNumL m rest i j := by
            rw [← Finset.sum_add_distrib]
            exact Finset.sum_congr rfl fun i _ => hstep i
      _ = transDen m o j + transDenL m rest j := by
            rw [transNum_sum m o ho.2.2 j, ih hrest]
      _ = transDenL m (o :: rest) j := rfl

lemma emitNumL_sum (m : Model) (seqs : List (List ℕ))
    (hval : GoodBatch m seqs) (s : Fin m.S) :
    (∑ k, emitNumL m seqs s k) = emitDenL m seqs s := by
  induction seqs with
  | nil => simp [emitNumL, emitDenL]
  | cons o rest ih =>
      have ho := hval o (by simp)
      have hrest : GoodBatch m rest := fun o' ho' => hval o' (by simp [ho'])
      have hstep : ∀ k, emitNumL m (o :: rest) s k =
          emitNum m o s k + emitNumL m rest s k := by
        intro k
        rfl
      calc (∑ k, emitNumL m (o :: rest) s k)
          = (∑ k, emitNum m o s k) + ∑ k, emitNumL m rest s k := by
            rw [← Finset.sum_add_distrib]
            exact Finset.sum_congr rfl fun k _ => hstep k
      _ = emitDen m o s + emitDenL m rest s := by
            rw [emitNum_sum m o ho.2.1 s, ih hrest]
      _ = emitDenL m (o :: rest) s := rfl

lemma sum_normalizeV {n : ℕ} (v : Fin n → ℚ) (h : sumV v ≠ 0) :
    sumV (normalizeV v) = 1 := by
  unfold normalizeV sumV
  rw [← Finset.sum_div]
  exact div_self h

/-- The M-step produces a model whose updated blocks sum to exactly 1 and
whose kept blocks retain the previous iteration's tolerance bound. -/
lemma mStep_nearStoch (m : Model) (seqs : List (List ℕ)) (hm : NearStoch m)
    (hne : seqs ≠ []) (hval : GoodBatch m seqs) :
    NearStoch (mStep m seqs) := by
  have hN : ((seqs.length : ℚ)) ≠ 0 := by
    have : seqs.length ≠ 0 := by
      intro h
      exact hne (List.length_eq_zero.mp h)
    exact_mod_cast Nat.cast_ne_zero.mpr this
  refine ⟨?_, ?_, ?_⟩
  · have hpre : sumV (fun s => initAccL m seqs s / (seqs.length : ℚ)) = 1 := by
      unfold sumV
      rw [← Finset.sum_div]
      rw [show (∑ s, initAccL m seqs s) = ((seqs.length : ℚ)) from
        initAccL_sum m seqs hval]
      exact div_self hN
    have h1 : sumV (mStep m seqs).init = 1 := by
      show sumV (normalizeV fun s => initAccL m seqs s / (seqs.length : ℚ)) = 1
      exact sum_normalizeV _ (by rw [hpre]; norm_num)
    rw [h1]
    simp [tol]
  · intro j
    by_cases hd : transDenL m seqs j = 0
    · have hcol : (fun i => (mStep m seqs).trans i j) =
          (fun i => m.trans i j) := by
        funext i
        show (if transDenL m seqs j = 0 then m.trans i j else _) = m.trans i j
        rw [if_pos hd]
      rw [hcol]
      exact hm.2.1 j
    · have hpre : sumV (fun i => transNumL m seqs i j / transDenL m seqs j)
          = 1 := by
        unfold sumV
        rw [← Finset.sum_div, transNumL_sum m seqs hval j]
        exact div_self hd
      have hcol : (fun i => (mStep m seqs).trans i j) =
          normalizeV (fun i => transNumL m seqs i j / transDenL m seqs j) := by
        funext i
        show (if transDenL m seqs j = 0 then m.trans i j else _) = _
        rw [if_neg hd]
      rw [hcol, sum_normalizeV _ (by rw [hpre]; norm_num)]
      simp [tol]
  · intro s
    by_cases hd : emitDenL m seqs s = 0
    · have hrow : (mStep m seqs).emit s = m.emit s := by
        funext k
        show (if emitDenL m seqs s = 0 then m.emit s k else _) = m.emit s k
        rw [if_pos hd]
      rw [hrow]
      exact hm.2.2 s
    · have hpre : sumV (fun k => emitNumL m seqs s k / emitDenL m seqs s)
          = 1 := by
        unfold sumV
        rw [← Finset.sum_div, emitNumL_sum m seqs hval s]
        exact div_self hd
      have hrow : (mStep m seqs).emit s =
          normalizeV (fun k => emitNumL m seqs s k / emitDenL m seqs s) := by
        funext k
        show (if emitDenL m seqs s = 0 then m.emit s k else _) = _
        rw [if_neg hd]
      rw [hrow, sum_normalizeV _ (by rw [hpre]; norm_num)]
      simp [tol]

/-- A successful Baum-Welch iteration is the M-step on a good batch. -/
lemma bwStep_ok (m : Model) (seqs : List (List ℕ)) (m' : Model)
    (h : bwStep m seqs = Except.ok m') :
    m' = mStep m seqs ∧ seqs ≠ [] ∧ GoodBatch m seqs := by
  unfold bwStep at h
  split at h
  · exact absurd h (by simp)
  · rename_i hc
    unfold checkSeqs at hc
    split at hc
    · exact absurd hc (by simp)
    · split at hc
      · exact absurd hc (by simp)
      · rename_i hempty hrange
        split at h
        · exact absurd h (by simp)
        · rename_i hzero
          have hne : seqs ≠ [] := by
            intro hnil
            rw [hnil] at hempty
            exact hempty (by simp)
          refine ⟨(Except.ok.inj h).symm, hne, ?_⟩
          intro o ho
          have ho_ne : ¬o.isEmpty := by
            intro hoe
            exact hempty (by
              rw [Bool.or_eq_true]
              exact Or.inr (List.any_eq_true.mpr ⟨o, ho, hoe⟩))
          have ho_len : 1 ≤ o.length := by
            cases o with
            | nil => exact absurd rfl ho_ne
            | cons a l => simp
          have ho_sym : ∀ sym ∈ o, sym < m.K := by
            intro sym hsym
            by_contra hge
            exact hrange (List.any_eq_true.mpr ⟨o, ho,
              List.any_eq_true.mpr ⟨sym, hsym, by
                simpa using Nat.le_of_not_lt hge⟩⟩)
          have ho_sig : ∀ t < o.length, sigma m (seqO o) t ≠ 0 := by
            intro t ht heq
            exact hzero (List.any_eq_true.mpr ⟨o, ho, by
              unfold zeroProb
              exact List.any_eq_true.mpr ⟨t, List.mem_range.mpr ht,
                decide_eq_true heq⟩⟩)
          exact ⟨ho_len, ho_sym, ho_sig⟩

lemma trainGo_nearStoch (seqs : List (List ℕ)) :
    ∀ (n : ℕ) (m : Model), NearStoch m → NearStoch (trainGo seqs n m).1 := by
  intro n
  induction n with
  | zero =>
      intro m hm
      exact hm
  | succ n ih =>
      intro m hm
      cases hb : bwStep m seqs with
      | error e =>
          have heq : trainGo seqs (n + 1) m = (m, some e) := by
            rw [trainGo, hb]
          rw [heq]
          exact hm
      | ok m' =>
          have heq : trainGo seqs (n + 1) m = trainGo seqs n m' := by
            rw [trainGo, hb]
          rw [heq]
          obtain ⟨hm', hne, hval⟩ := bwStep_ok m seqs m' hb
          exact ih m' (hm' ▸ mStep_nearStoch m seqs hm hne hval)

/-- C3: after any call to train on a valid model with valid (non-empty,
in-range) observation sequences, the parameters remain stochastic: the
initial vector, every column of the transition matrix, and every emission
row sum to 1 within 1e-9 (exactly 1 for every block the M-step updates;
blocks kept by the zero-denominator rule retain the constructor's
tolerance). -/
theorem train_preserves_stochasticity (m : Model) (seqs : List (List ℕ))
    (n : ℕ) (hv : ValidModel m)
    (hseqs : ∀ o ∈ seqs, o ≠ [] ∧ ∀ sym ∈ o, sym < m.K) :
    NearStoch (train m seqs n).1 := by
  have hm : NearStoch m := ⟨hv.1.2, fun j => (hv.2.1 j).2, fun s => (hv.2.2 s).2⟩
  unfold train
  cases hc : checkSeqs m seqs with
  | some e => exact hm
  | none => exact trainGo_nearStoch seqs n m hm

/-- Witness for C3 on the demo model, demo sequence and the default
iteration cap. -/
theorem train_preserves_stochasticity_witness :
    ValidModel demoModel ∧
    (∀ o ∈ [demoObs], o ≠ [] ∧ ∀ sym ∈ o, sym < demoModel.K) ∧
    NearStoch (train demoModel [demoObs] 500).1 :=
  ⟨demo_valid, by decide,
    train_preserves_stochasticity demoModel [demoObs] 500 demo_valid
      (by decide)⟩

/-! ### Path-space semantics of the forward-backward quantities

To settle the monotonicity claim C7 we give the spec's HMM a path-space
reading: the likelihood is the sum, over all hidden-state paths, of the
path's probability under the model.  The definitions are parametrized by
the raw parameter tables (the transition table `A`, column-stochastic as in
the spec, and the emission lookup `B`) so that the same development applies
to the model before and after an M-step. -/

/-- Modelled from the spec: the weight of the hidden-state path segment
`z 0, z 1, ..., z n` starting at time `t`: emission factors
`B (z i) (O (t+i))` for every visited state and transition factors
`A (z (i+1)) (z i)` between consecutive states. -/
def pathF (S : ℕ) (A : Fin S → Fin S → ℚ) (B : Fin S → ℕ → ℚ)
    (O : ℕ → ℕ) : (t n : ℕ) → (Fin (n + 1) → Fin S) → ℚ
  | t, 0, z => B (z 0) (O t)
  | t, n + 1, z =>
      B (z 0) (O t) * A (Fin.tail z 0) (z 0) *
        pathF S A B O (t + 1) n (Fin.tail z)

/-- Modelled from the spec: the unscaled backward sum `bwF t n s`: the total
weight of all length-`n` continuations out of state `s` at time `t`
(excluding the emission at `s` itself). -/
def bwF (S : ℕ) (A : Fin S → Fin S → ℚ) (B : Fin S → ℕ → ℚ)
    (O : ℕ → ℕ) : (t n : ℕ) → Fin S → ℚ
  | _, 0, _ => 1
  | t, n + 1, s =>
      ∑ j, A j s * B j (O (t + 1)) * bwF S A B O (t + 1) n j

/-- Modelled from the spec: the unscaled forward sum seeded by a prefix
weight `h` at time `u`: `fwF h u r s` is the total weight of all ways to
reach state `s` at time `u + r`, starting from the prefix weights `h`. -/
def fwF (S : ℕ) (A : Fin S → Fin S → ℚ) (B : Fin S → ℕ → ℚ)
    (O : ℕ → ℕ) (h : Fin S → ℚ) (u : ℕ) : ℕ → Fin S → ℚ
  | 0 => fun s => h s * B s (O u)
  | r + 1 => fun s =>
      B s (O (u + r + 1)) * ∑ j, A s j * fwF S A B O h u r j

lemma pathF_zero (S : ℕ) (A : Fin S → Fin S → ℚ) (B : Fin S → ℕ → ℚ)
    (O : ℕ → ℕ) (t : ℕ) (z : Fin 1 → Fin S) :
    pathF S A B O t 0 z = B (z 0) (O t) := rfl

lemma pathF_succ (S : ℕ) (A : Fin S → Fin S → ℚ) (B : Fin S → ℕ → ℚ)
    (O : ℕ → ℕ) (t n : ℕ) (z : Fin (n + 2) → Fin S) :
    pathF S A B O t (n + 1) z =
      B (z 0) (O t) * A (Fin.tail z 0) (z 0) *
        pathF S A B O (t + 1) n (Fin.tail z) := rfl

/-- Splitting a sum over length-`(n+1)` tuples into the head and the tail. -/
lemma sum_pi_succ {n : ℕ} {β : Type} [Fintype β] [DecidableEq β]
    {M : Type} [AddCommMonoid M] (f : (Fin (n + 1) → β) → M) :
    (∑ z : Fin (n + 1) → β, f z) =
      ∑ a : β, ∑ w : Fin n → β, f (Fin.cons a w) := by
  rw [← ((Fin.consEquiv (fun _ : Fin (n + 1) => β)).sum_comp f),
    Fintype.sum_prod_type]
  rfl

/-- Base sum-exchange: summing a head-weighted path weight over all paths
gives the backward sums. -/
lemma pathF_sum (S : ℕ) (A : Fin S → Fin S → ℚ) (B : Fin S → ℕ → ℚ)
    (O : ℕ → ℕ) :
    ∀ (n t : ℕ) (G : Fin S → ℝ),
      (∑ z : Fin (n + 1) → Fin S, G (z 0) * (pathF S A B O t n z : ℝ)) =
        ∑ j, G j * (B j (O t) : ℝ) * (bwF S A B O t n j : ℝ) := by
  intro n
  induction n with
  | zero =>
      intro t G
      rw [sum_pi_succ]
      refine Finset.sum_congr rfl ?_
      intro a _
      rw [Fintype.sum_unique, pathF_zero, Fin.cons_zero]
      show _ = G a * _ * ((1 : ℚ) : ℝ)
      push_cast
      ring
  | succ n ih =>
      intro t G
      rw [sum_pi_succ]
      have hstep : ∀ (a : Fin S) (w : Fin n.succ → Fin S),
          G ((Fin.cons a w : Fin (n + 2) → Fin S) 0) *
            ((pathF S A B O t (n + 1) (Fin.cons a w) : ℚ) : ℝ) =
          (G a * (B a (O t) : ℝ)) *
            ((A (w 0) a : ℝ) * (pathF S A B O (t + 1) n w : ℝ)) := by
        intro a w
        rw [pathF_succ, Fin.cons_zero, Fin.tail_cons]
        push_cast
        ring
      calc (∑ a : Fin S, ∑ w : Fin n.succ → Fin S,
              G ((Fin.cons a w : Fin (n + 2) → Fin S) 0) *
                ((pathF S A B O t (n + 1) (Fin.cons a w) : ℚ) : ℝ))
          = ∑ a : Fin S, (G a * (B a (O t) : ℝ)) *
              ∑ w : Fin n.succ → Fin S,
                ((A (w 0) a : ℝ) * (pathF S A B O (t + 1) n w : ℝ)) := by
            refine Finset.sum_congr rfl ?_
            intro a _
            rw [Finset.mul_sum]
            exact Finset.sum_congr rfl fun w _ => hstep a w
      _ = ∑ a : Fin S, (G a * (B a (O t) : ℝ)) *
              ∑ j, (A j a : ℝ) * (B j (O (t + 1)) : ℝ) *
                (bwF S A B O (t + 1) n j : ℝ) := by
            refine Finset.sum_congr rfl ?_
            intro a _
            congr 1
            exact ih (t + 1) (fun j => (A j a : ℝ))
      _ = ∑ j, G j * (B j (O t) : ℝ) * (bwF S A B O t (n + 1) j : ℝ) := by
            refine Finset.sum_congr rfl ?_
            intro a _
            show _ = G a * (B a (O t) : ℝ) *
              ((∑ j, A j a * B j (O (t + 1)) * bwF S A B O (t + 1) n j : ℚ) : ℝ)
            push_cast
            ring

/-- Additivity of `fwF` in its seed weights. -/
lemma fwF_finsum (S : ℕ) (A : Fin S → Fin S → ℚ) (B : Fin S → ℕ → ℚ)
    (O : ℕ → ℕ) {ι : Type} (J : Finset ι) (F : ι → Fin S → ℚ) (u : ℕ) :
    ∀ (t : ℕ) (s : Fin S),
      fwF S A B O (fun j => ∑ a ∈ J, F a j) u t s =
        ∑ a ∈ J, fwF S A B O (F a) u t s := by
  intro t
  induction t with
  | zero =>
      intro s
      show (∑ a ∈ J, F a s) * B s (O u) = _
      rw [Finset.sum_mul]
      rfl
  | succ t ih =>
      intro s
      show B s (O (u + t + 1)) * ∑ j, A s j *
          fwF S A B O (fun j' => ∑ a ∈ J, F a j') u t j = _
      calc B s (O (u + t + 1)) * ∑ j, A s j *
            fwF S A B O (fun j' => ∑ a ∈ J, F a j') u t j
          = B s (O (u + t + 1)) * ∑ j, ∑ a ∈ J,
              A s j * fwF S A B O (F a) u t j := by
            congr 1
            refine Finset.sum_congr rfl ?_
            intro j _
            rw [ih j, Finset.mul_sum]
      _ = ∑ a ∈ J, B s (O (u + t + 1)) * ∑ j,
              A s j * fwF S A B O (F a) u t j := by
            rw [Finset.sum_comm, Finset.mul_sum]
      _ = ∑ a ∈ J, fwF S A B O (F a) u (t + 1) s :=
            Finset.sum_congr rfl fun a _ => rfl

/-- Advancing the seed of `fwF` by one time step. -/
lemma fwF_shift (S : ℕ) (A : Fin S → Fin S → ℚ) (B : Fin S → ℕ → ℚ)
    (O : ℕ → ℕ) (h : Fin S → ℚ) (u : ℕ) :
    ∀ (t : ℕ) (s : Fin S),
      fwF S A B O h u (t + 1) s =
        fwF S A B O (fun j => ∑ a, h a * B a (O u) * A j a) (u + 1) t s := by
  intro t
  induction t with
  | zero =>
      intro s
      show B s (O (u + 0 + 1)) * ∑ j, A s j * (h j * B j (O u)) =
        (∑ a, h a * B a (O u) * A s a) * B s (O (u + 1))
      rw [Finset.sum_mul, Finset.mul_sum]
      refine Finset.sum_congr rfl ?_
      intro j _
      ring
  | succ t ih =>
      intro s
      show B s (O (u + (t + 1) + 1)) * ∑ j, A s j * fwF S A B O h u (t + 1) j =
        B s (O (u + 1 + t + 1)) * ∑ j, A s j *
          fwF S A B O (fun j' => ∑ a, h a * B a (O u) * A j' a) (u + 1) t j
      rw [show u + (t + 1) + 1 = u + 1 + t + 1 by ring]
      congr 1
      refine Finset.sum_congr rfl ?_
      intro j _
      rw [ih j]

/-- Single-position marginal: summing a function of the state at position
`t` against the path weights gives the forward and backward sums paired at
`t`. -/
lemma pathF_marg (S : ℕ) (A : Fin S → Fin S → ℚ) (B : Fin S → ℕ → ℚ)
    (O : ℕ → ℕ) :
    ∀ (t n : ℕ) (ht : t ≤ n) (u : ℕ) (h : Fin S → ℚ) (g : Fin S → ℝ),
      (∑ z : Fin (n + 1) → Fin S,
          g (z ⟨t, Nat.lt_succ_of_le ht⟩) * ((h (z 0) * pathF S A B O u n z : ℚ) : ℝ)) =
        ∑ s, g s * (fwF S A B O h u t s : ℝ) * (bwF S A B O (u + t) (n - t) s : ℝ) := by
  intro t
  induction t with
  | zero =>
      intro n ht u h g
      calc (∑ z : Fin (n + 1) → Fin S,
              g (z ⟨0, Nat.lt_succ_of_le ht⟩) *
                ((h (z 0) * pathF S A B O u n z : ℚ) : ℝ))
          = ∑ z : Fin (n + 1) → Fin S,
              g (z 0) * ((h (z 0) : ℚ) : ℝ) *
                ((pathF S A B O u n z : ℚ) : ℝ) := by
            refine Finset.sum_congr rfl ?_
            intro z _
            rw [show (⟨0, Nat.lt_succ_of_le ht⟩ : Fin (n + 1)) = 0 from rfl]
            push_cast
            ring
      _ = ∑ j, g j * ((h j : ℚ) : ℝ) * ((B j (O u) : ℚ) : ℝ) *
              ((bwF S A B O u n j : ℚ) : ℝ) :=
            pathF_sum S A B O n u (fun j => g j * ((h j : ℚ) : ℝ))
      _ = ∑ s, g s * ((fwF S A B O h u 0 s : ℚ) : ℝ) *
              ((bwF S A B O (u + 0) (n - 0) s : ℚ) : ℝ) := by
            refine Finset.sum_congr rfl ?_
            intro s _
            rw [Nat.sub_zero]
            show _ = g s * ((h s * B s (O u) : ℚ) : ℝ) * _
            push_cast
            ring
  | succ t ih =>
      intro n htn u h g
      cases n with
      | zero => exact absurd htn (by omega)
      | succ n =>
        have ht : t ≤ n := Nat.le_of_succ_le_succ htn
        rw [sum_pi_succ]
        have hstep : ∀ (a : Fin S) (w : Fin (n + 1) → Fin S),
            g ((Fin.cons a w : Fin (n + 2) → Fin S)
                ⟨t + 1, Nat.lt_succ_of_le htn⟩) *
              ((h ((Fin.cons a w : Fin (n + 2) → Fin S) 0) *
                pathF S A B O u (n + 1) (Fin.cons a w) : ℚ) : ℝ) =
            g (w ⟨t, Nat.lt_succ_of_le ht⟩) *
              (((h a * B a (O u) * A (w 0) a) *
                pathF S A B O (u + 1) n w : ℚ) : ℝ) := by
          intro a w
          have hidx : (⟨t + 1, Nat.lt_succ_of_le htn⟩ : Fin (n + 2)) =
              Fin.succ ⟨t, Nat.lt_succ_of_le ht⟩ := rfl
          rw [pathF_succ, Fin.cons_zero, Fin.tail_cons, hidx, Fin.cons_succ]
          push_cast
          ring
        calc (∑ a : Fin S, ∑ w : Fin (n + 1) → Fin S,
                g ((Fin.cons a w : Fin (n + 2) → Fin S)
                    ⟨t + 1, Nat.lt_succ_of_le htn⟩) *
                  ((h ((Fin.cons a w : Fin (n + 2) → Fin S) 0) *
                    pathF S A B O u (n + 1) (Fin.cons a w) : ℚ) : ℝ))
            = ∑ a : Fin S, ∑ w : Fin (n + 1) → Fin S,
                g (w ⟨t, Nat.lt_succ_of_le ht⟩) *
                  (((h a * B a (O u) * A (w 0) a) *
                    pathF S A B O (u + 1) n w : ℚ) : ℝ) :=
              Finset.sum_congr rfl fun a _ =>
                Finset.sum_congr rfl fun w _ => hstep a w
        _ = ∑ a : Fin S, ∑ s, g s *
                (fwF S A B O (fun j => h a * B a (O u) * A j a) (u + 1) t s : ℝ) *
                (bwF S A B O (u + 1 + t) (n - t) s : ℝ) :=
              Finset.sum_congr rfl fun a _ =>
                ih n ht (u + 1) (fun j => h a * B a (O u) * A j a) g
        _ = ∑ s, ∑ a : Fin S, g s *
                (fwF S A B O (fun j => h a * B a (O u) * A j a) (u + 1) t s : ℝ) *
                (bwF S A B O (u + 1 + t) (n - t) s : ℝ) := Finset.sum_comm
        _ = ∑ s, g s * (fwF S A B O h u (t + 1) s : ℝ) *
                (bwF S A B O (u + (t + 1)) (n + 1 - (t + 1)) s : ℝ) := by
              refine Finset.sum_congr rfl ?_
              intro s _
              have hsw : fwF S A B O h u (t + 1) s =
                  ∑ a, fwF S A B O (fun j => h a * B a (O u) * A j a)
                    (u + 1) t s := by
                rw [fwF_shift S A B O h u t s]
                exact fwF_finsum S A B O Finset.univ
                  (fun a j => h a * B a (O u) * A j a) (u + 1) t s
              rw [hsw, show u + (t + 1) = u + 1 + t by ring,
                Nat.succ_sub_succ]
              push_cast
              conv_rhs => rw [Finset.mul_sum, Finset.sum_mul]

/-- Pair marginal: summing a function of the states at positions `t` and
`t+1` against the path weights gives the forward sum at `t`, the connecting
transition and emission factors, and the backward sum at `t+1`. -/
lemma pathF_margP (S : ℕ) (A : Fin S → Fin S → ℚ) (B : Fin S → ℕ → ℚ)
    (O : ℕ → ℕ) :
    ∀ (t n : ℕ) (ht : t + 1 ≤ n) (u : ℕ) (h : Fin S → ℚ)
      (g : Fin S → Fin S → ℝ),
      (∑ z : Fin (n + 1) → Fin S,
          g (z ⟨t + 1, Nat.lt_succ_of_le ht⟩)
            (z ⟨t, Nat.lt_succ_of_le (Nat.le_of_succ_le ht)⟩) *
            ((h (z 0) * pathF S A B O u n z : ℚ) : ℝ)) =
        ∑ i, ∑ j, g i j *
          ((fwF S A B O h u t j : ℝ) * (A i j : ℝ) *
            (B i (O (u + t + 1)) : ℝ) *
            (bwF S A B O (u + t + 1) (n - t - 1) i : ℝ)) := by
  intro t
  induction t with
  | zero =>
      intro n htn u h g
      cases n with
      | zero => exact absurd htn (by omega)
      | succ n =>
        rw [sum_pi_succ]
        have hstep : ∀ (a : Fin S) (w : Fin (n + 1) → Fin S),
            g ((Fin.cons a w : Fin (n + 2) → Fin S)
                ⟨0 + 1, Nat.lt_succ_of_le htn⟩)
              ((Fin.cons a w : Fin (n + 2) → Fin S)
                ⟨0, Nat.lt_succ_of_le (Nat.le_of_succ_le htn)⟩) *
              ((h ((Fin.cons a w : Fin (n + 2) → Fin S) 0) *
                pathF S A B O u (n + 1) (Fin.cons a w) : ℚ) : ℝ) =
            (fun i => g i a * ((h a * B a (O u) * A i a : ℚ) : ℝ)) (w 0) *
              ((pathF S A B O (u + 1) n w : ℚ) : ℝ) := by
          intro a w
          have hidx1 : (⟨0 + 1, Nat.lt_succ_of_le htn⟩ : Fin (n + 2)) =
              Fin.succ 0 := rfl
          have hidx0 : (⟨0, Nat.lt_succ_of_le (Nat.le_of_succ_le htn)⟩ :
              Fin (n + 2)) = 0 := rfl
          rw [pathF_succ, Fin.cons_zero, Fin.tail_cons, hidx1, hidx0,
            Fin.cons_succ, Fin.cons_zero]
          push_cast
          ring
        calc (∑ a : Fin S, ∑ w : Fin (n + 1) → Fin S,
                g ((Fin.cons a w : Fin (n + 2) → Fin S)
                    ⟨0 + 1, Nat.lt_succ_of_le htn⟩)
                  ((Fin.cons a w : Fin (n + 2) → Fin S)
                    ⟨0, Nat.lt_succ_of_le (Nat.le_of_succ_le htn)⟩) *
                  ((h ((Fin.cons a w : Fin (n + 2) → Fin S) 0) *
                    pathF S A B O u (n + 1) (Fin.cons a w) : ℚ) : ℝ))
            = ∑ a : Fin S, ∑ i, g i a * ((h a * B a (O u) * A i a : ℚ) : ℝ) *
                ((B i (O (u + 1)) : ℚ) : ℝ) *
                ((bwF S A B O (u + 1) n i : ℚ) : ℝ) := by
              refine Finset.sum_congr rfl ?_
              intro a _
              rw [Finset.sum_congr rfl fun w _ => hstep a w]
              exact pathF_sum S A B O n (u + 1)
                (fun i => g i a * ((h a * B a (O u) * A i a : ℚ) : ℝ))
        _ = ∑ i, ∑ a, g i a * ((h a * B a (O u) * A i a : ℚ) : ℝ) *
                ((B i (O (u + 1)) : ℚ) : ℝ) *
                ((bwF S A B O (u + 1) n i : ℚ) : ℝ) := Finset.sum_comm
        _ = ∑ i, ∑ j, g i j *
                ((fwF S A B O h u 0 j : ℝ) * (A i j : ℝ) *
                  (B i (O (u + 0 + 1)) : ℝ) *
                  (bwF S A B O (u + 0 + 1) (n + 1 - 0 - 1) i : ℝ)) := by
              refine Finset.sum_congr rfl ?_
              intro i _
              refine Finset.sum_congr rfl ?_
              intro j _
              rw [Nat.add_zero u, Nat.sub_zero, Nat.succ_sub_one]
              show g i j * ((h j * B j (O u) * A i j : ℚ) : ℝ) * _ * _ =
                g i j * (((h j * B j (O u) : ℚ) : ℝ) * (A i j : ℝ) * _ * _)
              push_cast
              ring
  | succ t ih =>
      intro n htn u h g
      cases n with
      | zero => exact absurd htn (by omega)
      | succ n =>
        have ht : t + 1 ≤ n := Nat.le_of_succ_le_succ htn
        rw [sum_pi_succ]
        have hstep : ∀ (a : Fin S) (w : Fin (n + 1) → Fin S),
            g ((Fin.cons a w : Fin (n + 2) → Fin S)
                ⟨t + 1 + 1, Nat.lt_succ_of_le htn⟩)
              ((Fin.cons a w : Fin (n + 2) → Fin S)
                ⟨t + 1, Nat.lt_succ_of_le (Nat.le_of_succ_le htn)⟩) *
              ((h ((Fin.cons a w : Fin (n + 2) → Fin S) 0) *
                pathF S A B O u (n + 1) (Fin.cons a w) : ℚ) : ℝ) =
            g (w ⟨t + 1, Nat.lt_succ_of_le ht⟩)
              (w ⟨t, Nat.lt_succ_of_le (Nat.le_of_succ_le ht)⟩) *
              (((h a * B a (O u) * A (w 0) a) *
                pathF S A B O (u + 1) n w : ℚ) : ℝ) := by
          intro a w
          have hidx1 : (⟨t + 1 + 1, Nat.lt_succ_of_le htn⟩ : Fin (n + 2)) =
              Fin.succ ⟨t + 1, Nat.lt_succ_of_le ht⟩ := rfl
          have hidx0 : (⟨t + 1, Nat.lt_succ_of_le (Nat.le_of_succ_le htn)⟩ :
              Fin (n + 2)) =
              Fin.succ ⟨t, Nat.lt_succ_of_le (Nat.le_of_succ_le ht)⟩ := rfl
          rw [pathF_succ, Fin.cons_zero, Fin.tail_cons, hidx1, hidx0,
            Fin.cons_succ, Fin.cons_succ]
          push_cast
          ring
        calc (∑ a : Fin S, ∑ w : Fin (n + 1) → Fin S,
                g ((Fin.cons a w : Fin (n + 2) → Fin S)
                    ⟨t + 1 + 1, Nat.lt_succ_of_le htn⟩)
                  ((Fin.cons a w : Fin (n + 2) → Fin S)
                    ⟨t + 1, Nat.lt_succ_of_le (Nat.le_of_succ_le htn)⟩) *
                  ((h ((Fin.cons a w : Fin (n + 2) → Fin S) 0) *
                    pathF S A B O u (n + 1) (Fin.cons a w) : ℚ) : ℝ))
            = ∑ a : Fin S, ∑ w : Fin (n + 1) → Fin S,
                g (w ⟨t + 1, Nat.lt_succ_of_le ht⟩)
                  (w ⟨t, Nat.lt_succ_of_le (Nat.le_of_succ_le ht)⟩) *
                  (((h a * B a (O u) * A (w 0) a) *
                    pathF S A B O (u + 1) n w : ℚ) : ℝ) :=
              Finset.sum_congr rfl fun a _ =>
                Finset.sum_congr rfl fun w _ => hstep a w
        _ = ∑ a : Fin S, ∑ i, ∑ j, g i j *
                ((fwF S A B O (fun j' => h a * B a (O u) * A j' a)
                    (u + 1) t j : ℝ) * (A i j : ℝ) *
                  (B i (O (u + 1 + t + 1)) : ℝ) *
                  (bwF S A B O (u + 1 + t + 1) (n - t - 1) i : ℝ)) :=
              Finset.sum_congr rfl fun a _ =>
                ih n ht (u + 1) (fun j' => h a * B a (O u) * A j' a) g
        _ = ∑ i, ∑ a : Fin S, ∑ j, g i j *
                ((fwF S A B O (fun j' => h a * B a (O u) * A j' a)
                    (u + 1) t j : ℝ) * (A i j : ℝ) *
                  (B i (O (u + 1 + t + 1)) : ℝ) *
                  (bwF S A B O (u + 1 + t + 1) (n - t - 1) i : ℝ)) :=
              Finset.sum_comm
        _ = ∑ i, ∑ j, ∑ a : Fin S, g i j *
                ((fwF S A B O (fun j' => h a * B a (O u) * A j' a)
                    (u + 1) t j : ℝ) * (A i j : ℝ) *
                  (B i (O (u + 1 + t + 1)) : ℝ) *
                  (bwF S A B O (u + 1 + t + 1) (n - t - 1) i : ℝ)) :=
              Finset.sum_congr rfl fun i _ => Finset.sum_comm
        _ = ∑ i, ∑ j, g i j *
                ((fwF S A B O h u (t + 1) j : ℝ) * (A i j : ℝ) *
                  (B i (O (u + (t + 1) + 1)) : ℝ) *
                  (bwF S A B O (u + (t + 1) + 1)
                    (n + 1 - (t + 1) - 1) i : ℝ)) := by
              refine Finset.sum_congr rfl ?_
              intro i _
              refine Finset.sum_congr rfl ?_
              intro j _
              have hsw : fwF S A B O h u (t + 1) j =
                  ∑ a, fwF S A B O (fun j' => h a * B a (O u) * A j' a)
                    (u + 1) t j := by
                rw [fwF_shift S A B O h u t j]
                exact fwF_finsum S A B O Finset.univ
                  (fun a j' => h a * B a (O u) * A j' a) (u + 1) t j
              rw [hsw, show u + (t + 1) + 1 = u + 1 + t + 1 by ring,
                Nat.succ_sub_succ]
              push_cast
              rw [Finset.sum_mul, Finset.sum_mul, Finset.sum_mul,
                Finset.mul_sum]

/-! ### Sign conditions -/

lemma emitP_nonneg (m : Model) (h : ∀ s k, 0 ≤ m.emit s k) :
    ∀ (s : Fin m.S) (k : ℕ), 0 ≤ emitP m s k := by
  intro s k
  unfold emitP
  split
  · exact h s _
  · exact le_refl 0

lemma pathF_nonneg (S : ℕ) (A : Fin S → Fin S → ℚ) (B : Fin S → ℕ → ℚ)
    (O : ℕ → ℕ) (hA : ∀ i j, 0 ≤ A i j) (hB : ∀ s k, 0 ≤ B s k) :
    ∀ (n t : ℕ) (z : Fin (n + 1) → Fin S), 0 ≤ pathF S A B O t n z := by
  intro n
  induction n with
  | zero =>
      intro t z
      exact hB _ _
  | succ n ih =>
      intro t z
      rw [pathF_succ]
      exact mul_nonneg (mul_nonneg (hB _ _) (hA _ _)) (ih (t + 1) (Fin.tail z))

lemma bwF_nonneg (S : ℕ) (A : Fin S → Fin S → ℚ) (B : Fin S → ℕ → ℚ)
    (O : ℕ → ℕ) (hA : ∀ i j, 0 ≤ A i j) (hB : ∀ s k, 0 ≤ B s k) :
    ∀ (n t : ℕ) (s : Fin S), 0 ≤ bwF S A B O t n s := by
  intro n
  induction n with
  | zero =>
      intro t s
      exact zero_le_one
  | succ n ih =>
      intro t s
      refine Finset.sum_nonneg ?_
      intro j _
      exact mul_nonneg (mul_nonneg (hA _ _) (hB _ _)) (ih (t + 1) j)

lemma alphaT_nonneg (m : Model) (O : ℕ → ℕ) (hI : ∀ s, 0 ≤ m.init s)
    (hA : ∀ i j, 0 ≤ m.trans i j) (hB : ∀ s k, 0 ≤ m.emit s k) :
    ∀ (t : ℕ) (s : Fin m.S), 0 ≤ alphaT m O t s := by
  intro t
  induction t with
  | zero =>
      intro s
      exact mul_nonneg (hI s) (emitP_nonneg m hB s _)
  | succ t ih =>
      intro s
      rw [alphaT_succ]
      refine mul_nonneg (emitP_nonneg m hB s _) (Finset.sum_nonneg ?_)
      intro j _
      refine mul_nonneg (hA s j) ?_
      unfold alphaS
      refine div_nonneg (ih j) ?_
      unfold sigma
      exact Finset.sum_nonneg fun r _ => ih r

lemma sigma_nonneg (m : Model) (O : ℕ → ℕ) (hI : ∀ s, 0 ≤ m.init s)
    (hA : ∀ i j, 0 ≤ m.trans i j) (hB : ∀ s k, 0 ≤ m.emit s k) (t : ℕ) :
    0 ≤ sigma m O t :=
  Finset.sum_nonneg fun s _ => alphaT_nonneg m O hI hA hB t s

lemma betaR_nonneg (m : Model) (O : ℕ → ℕ) (T : ℕ) (hI : ∀ s, 0 ≤ m.init s)
    (hA : ∀ i j, 0 ≤ m.trans i j) (hB : ∀ s k, 0 ≤ m.emit s k) :
    ∀ (r : ℕ) (s : Fin m.S), 0 ≤ betaR m O T r s := by
  intro r
  induction r with
  | zero =>
      intro s
      show 0 ≤ cScale m O (T - 1)
      unfold cScale
      exact one_div_nonneg.mpr (sigma_nonneg m O hI hA hB (T - 1))
  | succ r ih =>
      intro s
      rw [betaR_succ]
      refine mul_nonneg ?_ (Finset.sum_nonneg ?_)
      · unfold cScale
        exact one_div_nonneg.mpr (sigma_nonneg m O hI hA hB _)
      · intro j _
        exact mul_nonneg (mul_nonneg (hA j s) (emitP_nonneg m hB j _)) (ih j)

lemma gammaS_nonneg (m : Model) (O : ℕ → ℕ) (T t : ℕ)
    (hI : ∀ s, 0 ≤ m.init s) (hA : ∀ i j, 0 ≤ m.trans i j)
    (hB : ∀ s k, 0 ≤ m.emit s k) (s : Fin m.S) :
    0 ≤ gammaS m O T t s := by
  unfold gammaS alphaS cScale
  refine div_nonneg (mul_nonneg (div_nonneg (alphaT_nonneg m O hI hA hB t s)
    (sigma_nonneg m O hI hA hB t)) ?_) ?_
  · unfold betaS
    exact betaR_nonneg m O T hI hA hB _ s
  · exact one_div_nonneg.mpr (sigma_nonneg m O hI hA hB t)

lemma xiS_nonneg (m : Model) (O : ℕ → ℕ) (T t : ℕ)
    (hI : ∀ s, 0 ≤ m.init s) (hA : ∀ i j, 0 ≤ m.trans i j)
    (hB : ∀ s k, 0 ≤ m.emit s k) (i j : Fin m.S) :
    0 ≤ xiS m O T t i j := by
  unfold xiS alphaS
  refine mul_nonneg (mul_nonneg (mul_nonneg ?_ (hA i j))
    (emitP_nonneg m hB i _)) ?_
  · exact div_nonneg (alphaT_nonneg m O hI hA hB t j)
      (sigma_nonneg m O hI hA hB t)
  · unfold betaS
    exact betaR_nonneg m O T hI hA hB _ i

/-! ### Bridges between the path-space sums and the scaled recurrences -/

lemma fwF_alphaT (m : Model) (O : ℕ → ℕ) :
    ∀ (t : ℕ), (∀ r, r < t → sigma m O r ≠ 0) → ∀ (s : Fin m.S),
      fwF m.S m.trans (emitP m) O m.init 0 t s =
        alphaT m O t s * ∏ r ∈ Finset.range t, sigma m O r := by
  intro t
  induction t with
  | zero =>
      intro _ s
      rw [Finset.prod_range_zero, mul_one]
      rfl
  | succ t ih =>
      intro hs s
      have hst : sigma m O t ≠ 0 := hs t (Nat.lt_succ_self t)
      have ihs := ih fun r hr => hs r (Nat.lt_succ_of_lt hr)
      show emitP m s (O (0 + t + 1)) *
        (∑ j, m.trans s j * fwF m.S m.trans (emitP m) O m.init 0 t j) = _
      rw [show (0 : ℕ) + t + 1 = t + 1 by ring, alphaT_succ,
        Finset.prod_range_succ]
      calc emitP m s (O (t + 1)) *
            ∑ j, m.trans s j * fwF m.S m.trans (emitP m) O m.init 0 t j
          = emitP m s (O (t + 1)) *
              ∑ j, m.trans s j * alphaS m O t j *
                ((∏ r ∈ Finset.range t, sigma m O r) * sigma m O t) := by
            congr 1
            refine Finset.sum_congr rfl ?_
            intro j _
            rw [ihs j]
            unfold alphaS
            field_simp
            ring
      _ = emitP m s (O (t + 1)) * (∑ j, m.trans s j * alphaS m O t j) *
              ((∏ r ∈ Finset.range t, sigma m O r) * sigma m O t) := by
            rw [← Finset.sum_mul, mul_assoc]

lemma bwF_betaR (m : Model) (O : ℕ → ℕ) (T : ℕ) (hT : 1 ≤ T)
    (hs : ∀ u < T, sigma m O u ≠ 0) :
    ∀ r, r ≤ T - 1 → ∀ (s : Fin m.S),
      bwF m.S m.trans (emitP m) O (T - 1 - r) r s =
        betaR m O T r s * ∏ u ∈ Finset.Ico (T - 1 - r) T, sigma m O u := by
  intro r
  induction r with
  | zero =>
      intro _ s
      rw [Nat.sub_zero]
      show (1 : ℚ) = cScale m O (T - 1) * _
      have hIco : Finset.Ico (T - 1) T = {T - 1} := by
        ext x
        simp only [Finset.mem_Ico, Finset.mem_singleton]
        omega
      rw [hIco, Finset.prod_singleton]
      unfold cScale
      rw [one_div, inv_mul_cancel₀ (hs (T - 1) (by omega))]
  | succ r ih =>
      intro hr s
      have hrT : r ≤ T - 1 := by omega
      set t := T - 1 - (r + 1) with htdef
      have ht1 : t + 1 = T - 1 - r := by omega
      have ht2 : T - 2 - r = t := by omega
      have htT : t < T := by omega
      show (∑ j, m.trans j s * emitP m j (O (t + 1)) *
          bwF m.S m.trans (emitP m) O (t + 1) r j) = _
      calc (∑ j, m.trans j s * emitP m j (O (t + 1)) *
            bwF m.S m.trans (emitP m) O (t + 1) r j)
          = ∑ j, m.trans j s * emitP m j (O (t + 1)) * betaR m O T r j *
              ∏ u ∈ Finset.Ico (t + 1) T, sigma m O u := by
            refine Finset.sum_congr rfl ?_
            intro j _
            rw [ht1, ih hrT j, ← ht1]
            ring
      _ = (∑ j, m.trans j s * emitP m j (O (t + 1)) * betaR m O T r j) *
              ∏ u ∈ Finset.Ico (t + 1) T, sigma m O u := by
            rw [← Finset.sum_mul]
      _ = (betaR m O T (r + 1) s * sigma m O t) *
              ∏ u ∈ Finset.Ico (t + 1) T, sigma m O u := by
            congr 1
            rw [betaR_succ, ht2, ht1]
            unfold cScale
            have hst : sigma m O t ≠ 0 := hs t htT
            field_simp [hst]
      _ = betaR m O T (r + 1) s * ∏ u ∈ Finset.Ico t T, sigma m O u := by
            rw [Finset.prod_eq_prod_Ico_succ_bot htT]
            ring

/-- The scaled-unscaled relation `gamma_t = alphaT_t * betaS_t` (the scaling
cancels). -/
lemma gammaS_alphaT (m : Model) (O : ℕ → ℕ) (T t : ℕ)
    (hst : sigma m O t ≠ 0) (s : Fin m.S) :
    gammaS m O T t s = alphaT m O t s * betaS m O T t s := by
  unfold gammaS alphaS cScale
  field_simp

/-- The single-state pairing: forward times backward at time `t` is the
posterior `gamma_t` times the total likelihood. -/
lemma margF_gamma (m : Model) (O : ℕ → ℕ) (T : ℕ) (hT : 1 ≤ T)
    (hs : ∀ u < T, sigma m O u ≠ 0) (t : ℕ) (ht : t ≤ T - 1) (s : Fin m.S) :
    fwF m.S m.trans (emitP m) O m.init 0 t s *
      bwF m.S m.trans (emitP m) O t (T - 1 - t) s =
    gammaS m O T t s * ∏ r ∈ Finset.range T, sigma m O r := by
  have hb := bwF_betaR m O T hT hs (T - 1 - t) (by omega) s
  rw [show T - 1 - (T - 1 - t) = t by omega] at hb
  have hf := fwF_alphaT m O t (fun r hr => hs r (by omega)) s
  rw [hf, hb, gammaS_alphaT m O T t (hs t (by omega)) s]
  have hbs : betaR m O T (T - 1 - t) s = betaS m O T t s := rfl
  rw [hbs, ← Finset.prod_range_mul_prod_Ico (sigma m O) (show t ≤ T by omega)]
  have hsplit : (∏ u ∈ Finset.Ico t T, sigma m O u) =
      sigma m O t * ∏ u ∈ Finset.Ico (t + 1) T, sigma m O u :=
    Finset.prod_eq_prod_Ico_succ_bot (by omega) (sigma m O)
  ring

/-- The pair pairing: forward, transition, emission and backward factors
combine to the pair posterior `xi_t` times the total likelihood. -/
lemma margF_xi (m : Model) (O : ℕ → ℕ) (T : ℕ) (hT : 1 ≤ T)
    (hs : ∀ u < T, sigma m O u ≠ 0) (t : ℕ) (ht : t + 1 ≤ T - 1)
    (i j : Fin m.S) :
    fwF m.S m.trans (emitP m) O m.init 0 t j * m.trans i j *
      emitP m i (O (t + 1)) *
      bwF m.S m.trans (emitP m) O (t + 1) (T - 1 - (t + 1)) i =
    xiS m O T t i j * ∏ r ∈ Finset.range T, sigma m O r := by
  have hb := bwF_betaR m O T hT hs (T - 1 - (t + 1)) (by omega) i
  rw [show T - 1 - (T - 1 - (t + 1)) = t + 1 by omega] at hb
  have hf := fwF_alphaT m O t (fun r hr => hs r (by omega)) j
  have hbs : betaR m O T (T - 1 - (t + 1)) i = betaS m O T (t + 1) i := rfl
  rw [hf, hb, hbs]
  unfold xiS alphaS
  have hprod : (∏ r ∈ Finset.range T, sigma m O r) =
      (∏ r ∈ Finset.range t, sigma m O r) * sigma m O t *
        ∏ u ∈ Finset.Ico (t + 1) T, sigma m O u := by
    rw [← Finset.prod_range_mul_prod_Ico (sigma m O) (show t + 1 ≤ T by omega),
      Finset.prod_range_succ]
  rw [hprod]
  have hst : sigma m O t ≠ 0 := hs t (by omega)
  field_simp
  ring

/-! ### The two abstract inequalities behind EM monotonicity -/

/-- Jensen step: the posterior-weighted log-ratio of two non-negative weight
families is at most the log-ratio of their totals. -/
lemma relent_bound {ι : Type} [Fintype ι] (W W' : ι → ℝ)
    (hW : ∀ z, 0 ≤ W z) (hW' : ∀ z, 0 ≤ W' z)
    (hsupp : ∀ z, 0 < W z → 0 < W' z)
    (hpos : 0 < ∑ x, W x) :
    (∑ z, (W z / ∑ x, W x) * (Real.log (W' z) - Real.log (W z))) ≤
      Real.log (∑ x, W' x) - Real.log (∑ x, W x) := by
  obtain ⟨z₀, hz₀⟩ : ∃ z, 0 < W z := by
    by_contra hno
    push_neg at hno
    have hzero : ∀ z ∈ Finset.univ, W z = 0 :=
      fun z _ => le_antisymm (hno z) (hW z)
    rw [Finset.sum_eq_zero hzero] at hpos
    exact lt_irrefl 0 hpos
  have hpos' : 0 < ∑ x, W' x :=
    lt_of_lt_of_le (hsupp z₀ hz₀)
      (Finset.single_le_sum (fun z _ => hW' z) (Finset.mem_univ z₀))
  have hΛ : (∑ x, W x) ≠ 0 := ne_of_gt hpos
  have hΛ' : (∑ x, W' x) ≠ 0 := ne_of_gt hpos'
  have hlogc : Real.log ((∑ x, W' x) / ∑ x, W x) =
      Real.log (∑ x, W' x) - Real.log (∑ x, W x) := Real.log_div hΛ' hΛ
  have hpt : ∀ z, (W z / ∑ x, W x) * (Real.log (W' z) - Real.log (W z)) ≤
      (Real.log (∑ x, W' x) - Real.log (∑ x, W x)) * (W z / ∑ x, W x) +
        W' z / (∑ x, W' x) - W z / (∑ x, W x) := by
    intro z
    rcases eq_or_lt_of_le (hW z) with hz | hz
    · rw [← hz]
      have : (0 : ℝ) ≤ W' z / (∑ x, W' x) := div_nonneg (hW' z) (le_of_lt hpos')
      simp only [zero_div, zero_mul, mul_zero, add_zero, sub_zero]
      linarith
    · have hz' : 0 < W' z := hsupp z hz
      have hx : 0 < W' z / W z := div_pos hz' hz
      have hc : 0 < (∑ x, W' x) / ∑ x, W x := div_pos hpos' hpos
      have hkey : Real.log (W' z) - Real.log (W z) ≤
          (Real.log (∑ x, W' x) - Real.log (∑ x, W x)) +
            ((W' z / W z) / ((∑ x, W' x) / ∑ x, W x) - 1) := by
        have hlog := Real.log_le_sub_one_of_pos (div_pos hx hc)
        rw [Real.log_div (ne_of_gt hx) (ne_of_gt hc), Real.log_div
          (ne_of_gt hz') (ne_of_gt hz), hlogc] at hlog
        linarith
      have hmul := mul_le_mul_of_nonneg_left hkey
        (div_nonneg (le_of_lt hz) (le_of_lt hpos))
      calc (W z / ∑ x, W x) * (Real.log (W' z) - Real.log (W z))
          ≤ (W z / ∑ x, W x) *
              ((Real.log (∑ x, W' x) - Real.log (∑ x, W x)) +
                ((W' z / W z) / ((∑ x, W' x) / ∑ x, W x) - 1)) := hmul
      _ = (Real.log (∑ x, W' x) - Real.log (∑ x, W x)) * (W z / ∑ x, W x) +
            W' z / (∑ x, W' x) - W z / (∑ x, W x) := by
          have hexp : (W z / ∑ x, W x) *
              ((W' z / W z) / ((∑ x, W' x) / ∑ x, W x)) =
              W' z / (∑ x, W' x) := by
            field_simp
            ring
          linear_combination hexp
  calc (∑ z, (W z / ∑ x, W x) * (Real.log (W' z) - Real.log (W z)))
      ≤ ∑ z, ((Real.log (∑ x, W' x) - Real.log (∑ x, W x)) *
            (W z / ∑ x, W x) + W' z / (∑ x, W' x) - W z / (∑ x, W x)) :=
        Finset.sum_le_sum fun z _ => hpt z
  _ = (Real.log (∑ x, W' x) - Real.log (∑ x, W x)) *
          ((∑ z, W z) / (∑ x, W x)) +
        (∑ z, W' z) / (∑ x, W' x) - (∑ z, W z) / (∑ x, W x) := by
        rw [Finset.sum_sub_distrib, Finset.sum_add_distrib, ← Finset.mul_sum,
          ← Finset.sum_div, ← Finset.sum_div]
  _ = Real.log (∑ x, W' x) - Real.log (∑ x, W x) := by
        rw [div_self hΛ, div_self hΛ', mul_one]
        ring

/-- Gibbs step: replacing a probability vector `v` by the normalization of
the non-negative weights `w` never decreases the weighted log-score. -/
lemma gibbs_block {ι : Type} [Fintype ι] (w v : ι → ℝ)
    (hw : ∀ i, 0 ≤ w i) (hv : ∀ i, 0 ≤ v i) (hv1 : (∑ i, v i) = 1)
    (hsupp : ∀ i, 0 < w i → 0 < v i) (hWpos : 0 < ∑ j, w j) :
    0 ≤ ∑ i, w i * (Real.log (w i / ∑ j, w j) - Real.log (v i)) := by
  have hWne : (∑ j, w j) ≠ 0 := ne_of_gt hWpos
  have hpt : ∀ i, w i - (∑ j, w j) * v i ≤
      w i * (Real.log (w i / ∑ j, w j) - Real.log (v i)) := by
    intro i
    rcases eq_or_lt_of_le (hw i) with hi | hi
    · rw [← hi]
      have : 0 ≤ (∑ j, w j) * v i := mul_nonneg (le_of_lt hWpos) (hv i)
      simp only [zero_mul, zero_sub]
      linarith
    · have hvi : 0 < v i := hsupp i hi
      have hu : 0 < w i / ∑ j, w j := div_pos hi hWpos
      have hlog := Real.log_le_sub_one_of_pos (div_pos hvi hu)
      rw [Real.log_div (ne_of_gt hvi) (ne_of_gt hu)] at hlog
      have hexp : w i * (v i / (w i / ∑ j, w j)) = (∑ j, w j) * v i := by
        field_simp
        ring
      calc w i - (∑ j, w j) * v i
          = w i * (1 - v i / (w i / ∑ j, w j)) := by
            rw [mul_sub, mul_one, hexp]
      _ ≤ w i * (Real.log (w i / ∑ j, w j) - Real.log (v i)) :=
            mul_le_mul_of_nonneg_left (by linarith) (le_of_lt hi)
  have hsum : (∑ i, (w i - (∑ j, w j) * v i)) = 0 := by
    rw [Finset.sum_sub_distrib, ← Finset.mul_sum, hv1, mul_one, sub_self]
  calc (0 : ℝ) = ∑ i, (w i - (∑ j, w j) * v i) := hsum.symm
  _ ≤ ∑ i, w i * (Real.log (w i / ∑ j, w j) - Real.log (v i)) :=
      Finset.sum_le_sum fun i _ => hpt i

/-! ### Logarithmic expansion of a positive path weight -/

lemma pathF_factors_pos (S : ℕ) (A : Fin S → Fin S → ℚ) (B : Fin S → ℕ → ℚ)
    (O : ℕ → ℕ) (hA : ∀ i j, 0 ≤ A i j) (hB : ∀ s k, 0 ≤ B s k)
    (n t : ℕ) (z : Fin (n + 2) → Fin S)
    (hpos : 0 < pathF S A B O t (n + 1) z) :
    0 < B (z 0) (O t) ∧ 0 < A (Fin.tail z 0) (z 0) ∧
      0 < pathF S A B O (t + 1) n (Fin.tail z) := by
  rw [pathF_succ] at hpos
  have hB0 := hB (z 0) (O t)
  have hA0 := hA (Fin.tail z 0) (z 0)
  have hr : 0 ≤ pathF S A B O (t + 1) n (Fin.tail z) :=
    pathF_nonneg S A B O hA hB n (t + 1) (Fin.tail z)
  rcases eq_or_lt_of_le hr with h0 | hrpos
  · rw [← h0, mul_zero] at hpos
    exact absurd hpos (lt_irrefl 0)
  rcases eq_or_lt_of_le (mul_nonneg hB0 hA0) with h1 | hBA
  · rw [← h1, zero_mul] at hpos
    exact absurd hpos (lt_irrefl 0)
  rcases eq_or_lt_of_le hB0 with h2 | hBpos
  · rw [← h2, zero_mul] at hBA
    exact absurd hBA (lt_irrefl 0)
  rcases eq_or_lt_of_le hA0 with h3 | hApos
  · rw [← h3, mul_zero] at hBA
    exact absurd hBA (lt_irrefl 0)
  exact ⟨hBpos, hApos, hrpos⟩

/-- Positive path weights expand into sums of factor logarithms. -/
lemma pathF_log (S : ℕ) (A : Fin S → Fin S → ℚ) (B : Fin S → ℕ → ℚ)
    (O : ℕ → ℕ) (hA : ∀ i j, 0 ≤ A i j) (hB : ∀ s k, 0 ≤ B s k) :
    ∀ (n t : ℕ) (z : Fin (n + 1) → Fin S), 0 < pathF S A B O t n z →
      Real.log ((pathF S A B O t n z : ℚ) : ℝ) =
        (∑ i : Fin n, Real.log ((A (z i.succ) (z i.castSucc) : ℚ) : ℝ)) +
        ∑ i : Fin (n + 1), Real.log ((B (z i) (O (t + i.val)) : ℚ) : ℝ) := by
  intro n
  induction n with
  | zero =>
      intro t z _
      rw [pathF_zero, Fin.sum_univ_zero, Fin.sum_univ_one, zero_add,
        Fin.val_zero, Nat.add_zero]
  | succ n ih =>
      intro t z hpos
      obtain ⟨hBp, hAp, hrp⟩ := pathF_factors_pos S A B O hA hB n t z hpos
      have hBne : ((B (z 0) (O t) : ℚ) : ℝ) ≠ 0 :=
        ne_of_gt (by exact_mod_cast hBp)
      have hAne : ((A (Fin.tail z 0) (z 0) : ℚ) : ℝ) ≠ 0 :=
        ne_of_gt (by exact_mod_cast hAp)
      have hrne : ((pathF S A B O (t + 1) n (Fin.tail z) : ℚ) : ℝ) ≠ 0 :=
        ne_of_gt (by exact_mod_cast hrp)
      have hA2 : (∑ i : Fin (n + 1),
            Real.log ((A (z i.succ) (z i.castSucc) : ℚ) : ℝ)) =
          Real.log ((A (Fin.tail z 0) (z 0) : ℚ) : ℝ) +
            ∑ i : Fin n, Real.log
              ((A (Fin.tail z i.succ) (Fin.tail z i.castSucc) : ℚ) : ℝ) := by
        rw [Fin.sum_univ_succ]
        rfl
      have hB2 : (∑ i : Fin (n + 2),
            Real.log ((B (z i) (O (t + i.val)) : ℚ) : ℝ)) =
          Real.log ((B (z 0) (O t) : ℚ) : ℝ) +
            ∑ i : Fin (n + 1), Real.log
              ((B (Fin.tail z i) (O (t + 1 + i.val)) : ℚ) : ℝ) := by
        rw [Fin.sum_univ_succ]
        congr 1
        refine Finset.sum_congr rfl ?_
        intro i _
        rw [Fin.val_succ, show t + (i.val + 1) = t + 1 + i.val by ring]
        rfl
      rw [pathF_succ]
      push_cast
      rw [Real.log_mul (mul_ne_zero hBne hAne) hrne, Real.log_mul hBne hAne,
        ih (t + 1) (Fin.tail z) hrp, hA2, hB2]
      ring

/-! ### Exactly stochastic models and the M-step -/

/-- Modelled from the spec: parameters that are exactly stochastic — all
entries non-negative, with the initial vector, every transition column and
every emission row summing to exactly 1 (tolerance zero). -/
def ExactStoch (m : Model) : Prop :=
  (∀ s, 0 ≤ m.init s) ∧ sumV m.init = 1 ∧
    (∀ j, (∀ i, 0 ≤ m.trans i j) ∧ sumV (fun i => m.trans i j) = 1) ∧
    (∀ s, (∀ k, 0 ≤ m.emit s k) ∧ sumV (m.emit s) = 1)

lemma initAccL_nonneg (m : Model) (seqs : List (List ℕ))
    (hI : ∀ s, 0 ≤ m.init s) (hA : ∀ i j, 0 ≤ m.trans i j)
    (hB : ∀ s k, 0 ≤ m.emit s k) (s : Fin m.S) :
    0 ≤ initAccL m seqs s := by
  refine List.sum_nonneg ?_
  intro x hx
  obtain ⟨o, _, rfl⟩ := List.mem_map.mp hx
  exact gammaS_nonneg m (seqO o) o.length 0 hI hA hB s

lemma transNumL_nonneg (m : Model) (seqs : List (List ℕ))
    (hI : ∀ s, 0 ≤ m.init s) (hA : ∀ i j, 0 ≤ m.trans i j)
    (hB : ∀ s k, 0 ≤ m.emit s k) (i j : Fin m.S) :
    0 ≤ transNumL m seqs i j := by
  refine List.sum_nonneg ?_
  intro x hx
  obtain ⟨o, _, rfl⟩ := List.mem_map.mp hx
  refine Finset.sum_nonneg ?_
  intro t _
  exact xiS_nonneg m (seqO o) o.length t hI hA hB i j

lemma transDenL_nonneg (m : Model) (seqs : List (List ℕ))
    (hI : ∀ s, 0 ≤ m.init s) (hA : ∀ i j, 0 ≤ m.trans i j)
    (hB : ∀ s k, 0 ≤ m.emit s k) (j : Fin m.S) :
    0 ≤ transDenL m seqs j := by
  refine List.sum_nonneg ?_
  intro x hx
  obtain ⟨o, _, rfl⟩ := List.mem_map.mp hx
  refine Finset.sum_nonneg ?_
  intro t _
  exact gammaS_nonneg m (seqO o) o.length t hI hA hB j

lemma emitNumL_nonneg (m : Model) (seqs : List (List ℕ))
    (hI : ∀ s, 0 ≤ m.init s) (hA : ∀ i j, 0 ≤ m.trans i j)
    (hB : ∀ s k, 0 ≤ m.emit s k) (s : Fin m.S) (k : Fin m.K) :
    0 ≤ emitNumL m seqs s k := by
  refine List.sum_nonneg ?_
  intro x hx
  obtain ⟨o, _, rfl⟩ := List.mem_map.mp hx
  refine Finset.sum_nonneg ?_
  intro t _
  split
  · exact gammaS_nonneg m (seqO o) o.length t hI hA hB s
  · exact le_refl 0

lemma emitDenL_nonneg (m : Model) (seqs : List (List ℕ))
    (hI : ∀ s, 0 ≤ m.init s) (hA : ∀ i j, 0 ≤ m.trans i j)
    (hB : ∀ s k, 0 ≤ m.emit s k) (s : Fin m.S) :
    0 ≤ emitDenL m seqs s := by
  refine List.sum_nonneg ?_
  intro x hx
  obtain ⟨o, _, rfl⟩ := List.mem_map.mp hx
  refine Finset.sum_nonneg ?_
  intro t _
  exact gammaS_nonneg m (seqO o) o.length t hI hA hB s

lemma normalizeV_of_sum_one {n : ℕ} (v : Fin n → ℚ) (h : sumV v = 1)
    (i : Fin n) : normalizeV v i = v i := by
  unfold normalizeV
  rw [h, div_one]

lemma lengthQ_pos (seqs : List (List ℕ)) (hne : seqs ≠ []) :
    0 < ((seqs.length : ℚ)) := by
  have : 0 < seqs.length := List.length_pos.mpr hne
  exact_mod_cast this

/-- The initial-vector entries produced by the M-step, written as the
normalized batch statistic. -/
lemma mStep_init_eq (m : Model) (seqs : List (List ℕ)) (hne : seqs ≠ [])
    (hval : GoodBatch m seqs) (s : Fin m.S) :
    (mStep m seqs).init s = initAccL m seqs s / (seqs.length : ℚ) := by
  have hN : ((seqs.length : ℚ)) ≠ 0 := ne_of_gt (lengthQ_pos seqs hne)
  have hpre : sumV (fun s => initAccL m seqs s / (seqs.length : ℚ)) = 1 := by
    unfold sumV
    rw [← Finset.sum_div, initAccL_sum m seqs hval]
    exact div_self hN
  exact normalizeV_of_sum_one _ hpre s

lemma mStep_trans_keep (m : Model) (seqs : List (List ℕ)) (i j : Fin m.S)
    (hd : transDenL m seqs j = 0) :
    (mStep m seqs).trans i j = m.trans i j := by
  show (if transDenL m seqs j = 0 then m.trans i j else _) = m.trans i j
  rw [if_pos hd]

lemma mStep_trans_eq (m : Model) (seqs : List (List ℕ))
    (hval : GoodBatch m seqs) (i j : Fin m.S)
    (hd : transDenL m seqs j ≠ 0) :
    (mStep m seqs).trans i j = transNumL m seqs i j / transDenL m seqs j := by
  have hpre : sumV (fun i' => transNumL m seqs i' j / transDenL m seqs j)
      = 1 := by
    unfold sumV
    rw [← Finset.sum_div, transNumL_sum m seqs hval j]
    exact div_self hd
  show (if transDenL m seqs j = 0 then m.trans i j else _) = _
  rw [if_neg hd]
  exact normalizeV_of_sum_one _ hpre i

lemma mStep_emit_keep (m : Model) (seqs : List (List ℕ)) (s : Fin m.S)
    (k : Fin m.K) (hd : emitDenL m seqs s = 0) :
    (mStep m seqs).emit s k = m.emit s k := by
  show (if emitDenL m seqs s = 0 then m.emit s k else _) = m.emit s k
  rw [if_pos hd]

lemma mStep_emit_eq (m : Model) (seqs : List (List ℕ))
    (hval : GoodBatch m seqs) (s : Fin m.S) (k : Fin m.K)
    (hd : emitDenL m seqs s ≠ 0) :
    (mStep m seqs).emit s k = emitNumL m seqs s k / emitDenL m seqs s := by
  have hpre : sumV (fun k' => emitNumL m seqs s k' / emitDenL m seqs s)
      = 1 := by
    unfold sumV
    rw [← Finset.sum_div, emitNumL_sum m seqs hval s]
    exact div_self hd
  show (if emitDenL m seqs s = 0 then m.emit s k else _) = _
  rw [if_neg hd]
  exact normalizeV_of_sum_one _ hpre k

/-- The M-step of a good batch preserves exact stochasticity. -/
lemma mStep_exact (m : Model) (seqs : List (List ℕ)) (hex : ExactStoch m)
    (hne : seqs ≠ []) (hval : GoodBatch m seqs) :
    ExactStoch (mStep m seqs) := by
  obtain ⟨hI, hIs, hT, hE⟩ := hex
  have hA : ∀ i j, 0 ≤ m.trans i j := fun i j => (hT j).1 i
  have hB : ∀ s k, 0 ≤ m.emit s k := fun s k => (hE s).1 k
  have hN : (0 : ℚ) < (seqs.length : ℚ) := lengthQ_pos seqs hne
  refine ⟨?_, ?_, ?_, ?_⟩
  · intro s
    rw [mStep_init_eq m seqs hne hval s]
    exact div_nonneg (initAccL_nonneg m seqs hI hA hB s) (le_of_lt hN)
  · unfold sumV
    calc (∑ s, (mStep m seqs).init s)
        = ∑ s, initAccL m seqs s / (seqs.length : ℚ) :=
          Finset.sum_congr rfl fun s _ => mStep_init_eq m seqs hne hval s
    _ = 1 := by
        rw [← Finset.sum_div, initAccL_sum m seqs hval]
        exact div_self (ne_of_gt hN)
  · intro j
    by_cases hd : transDenL m seqs j = 0
    · constructor
      · intro i
        rw [mStep_trans_keep m seqs i j hd]
        exact hA i j
      · unfold sumV
        calc (∑ i, (mStep m seqs).trans i j)
            = ∑ i, m.trans i j :=
              Finset.sum_congr rfl fun i _ => mStep_trans_keep m seqs i j hd
        _ = 1 := (hT j).2
    · constructor
      · intro i
        rw [mStep_trans_eq m seqs hval i j hd]
        exact div_nonneg (transNumL_nonneg m seqs hI hA hB i j)
          (transDenL_nonneg m seqs hI hA hB j)
      · unfold sumV
        calc (∑ i, (mStep m seqs).trans i j)
            = ∑ i, transNumL m seqs i j / transDenL m seqs j :=
              Finset.sum_congr rfl fun i _ => mStep_trans_eq m seqs hval i j hd
        _ = 1 := by
            rw [← Finset.sum_div, transNumL_sum m seqs hval j]
            exact div_self hd
  · intro s
    by_cases hd : emitDenL m seqs s = 0
    · constructor
      · intro k
        rw [mStep_emit_keep m seqs s k hd]
        exact hB s k
      · unfold sumV
        calc (∑ k, (mStep m seqs).emit s k)
            = ∑ k, m.emit s k :=
              Finset.sum_congr rfl fun k _ => mStep_emit_keep m seqs s k hd
        _ = 1 := (hE s).2
    · constructor
      · intro k
        rw [mStep_emit_eq m seqs hval s k hd]
        exact div_nonneg (emitNumL_nonneg m seqs hI hA hB s k)
          (emitDenL_nonneg m seqs hI hA hB s)
      · unfold sumV
        calc (∑ k, (mStep m seqs).emit s k)
            = ∑ k, emitNumL m seqs s k / emitDenL m seqs s :=
              Finset.sum_congr rfl fun k _ => mStep_emit_eq m seqs hval s k hd
        _ = 1 := by
            rw [← Finset.sum_div, emitNumL_sum m seqs hval s]
            exact div_self hd

/-! ### The path-space likelihood and the engine's returned value -/

/-- Modelled from the spec: the total path-space likelihood of a sequence,
as the sum of the forward sums at the last time step. -/
def pathLik (m : Model) (obs : List ℕ) : ℚ :=
  ∑ s, fwF m.S m.trans (emitP m) (seqO obs) m.init 0 (obs.length - 1) s

lemma fwF_zero_eq (S : ℕ) (A : Fin S → Fin S → ℚ) (B : Fin S → ℕ → ℚ)
    (O : ℕ → ℕ) (h : Fin S → ℚ) (u : ℕ) (s : Fin S) :
    fwF S A B O h u 0 s = h s * B s (O u) := rfl

lemma fwF_succ_eq (S : ℕ) (A : Fin S → Fin S → ℚ) (B : Fin S → ℕ → ℚ)
    (O : ℕ → ℕ) (h : Fin S → ℚ) (u r : ℕ) (s : Fin S) :
    fwF S A B O h u (r + 1) s =
      B s (O (u + r + 1)) * ∑ j, A s j * fwF S A B O h u r j := rfl

/-- On a sequence whose scaling totals never vanish, the path-space
likelihood equals the product of the scaling totals. -/
lemma pathLik_eq_prod (m : Model) (obs : List ℕ) (hT : 1 ≤ obs.length)
    (hs : ∀ t < obs.length, sigma m (seqO obs) t ≠ 0) :
    pathLik m obs =
      ∏ t ∈ Finset.range obs.length, sigma m (seqO obs) t := by
  have hTT : obs.length - 1 + 1 = obs.length := by omega
  unfold pathLik
  calc (∑ s, fwF m.S m.trans (emitP m) (seqO obs) m.init 0
          (obs.length - 1) s)
      = ∑ s, alphaT m (seqO obs) (obs.length - 1) s *
          ∏ r ∈ Finset.range (obs.length - 1), sigma m (seqO obs) r :=
        Finset.sum_congr rfl fun s _ =>
          fwF_alphaT m (seqO obs) (obs.length - 1)
            (fun r hr => hs r (by omega)) s
  _ = (∏ r ∈ Finset.range (obs.length - 1), sigma m (seqO obs) r) *
        sigma m (seqO obs) (obs.length - 1) := by
      rw [← Finset.sum_mul]
      exact mul_comm _ _
  _ = ∏ r ∈ Finset.range (obs.length - 1 + 1), sigma m (seqO obs) r :=
      (Finset.prod_range_succ _ _).symm
  _ = ∏ t ∈ Finset.range obs.length, sigma m (seqO obs) t := by rw [hTT]

/-- Engine success on a good sequence, with the returned value. -/
lemma likelihoodE_ok_of (m : Model) (obs : List ℕ) (hne : obs ≠ [])
    (hsym : ∀ sym ∈ obs, sym < m.K)
    (hs : ∀ t < obs.length, sigma m (seqO obs) t ≠ 0) :
    likelihoodE m obs =
      Except.ok (∏ t ∈ Finset.range obs.length, sigma m (seqO obs) t) := by
  have h1 : ¬(obs.isEmpty = true) := by
    cases obs with
    | nil => exact absurd rfl hne
    | cons a l => simp
  have h2 : ¬(obs.any (fun sym => m.K ≤ sym) = true) := by
    intro hcon
    rw [List.any_eq_true] at hcon
    obtain ⟨x, hx, hdec⟩ := hcon
    have hle := of_decide_eq_true hdec
    have := hsym x hx
    omega
  have h3 : ¬((List.range obs.length).any
      (fun t => decide (sigma m (seqO obs) t = 0)) = true) := by
    intro hcon
    rw [List.any_eq_true] at hcon
    obtain ⟨t, ht, hdec⟩ := hcon
    exact hs t (List.mem_range.mp ht) (of_decide_eq_true hdec)
  unfold likelihoodE
  rw [if_neg h1, if_neg h2, if_neg h3]

/-- If the path-space likelihood is positive, no scaling total vanishes. -/
lemma pathLik_pos_sigma (m : Model) (obs : List ℕ) (hT : 1 ≤ obs.length)
    (hI : ∀ s, 0 ≤ m.init s) (hA : ∀ i j, 0 ≤ m.trans i j)
    (hB : ∀ s k, 0 ≤ m.emit s k) (hpos : 0 < pathLik m obs) :
    ∀ t < obs.length, sigma m (seqO obs) t ≠ 0 := by
  by_contra hcon
  push_neg at hcon
  obtain ⟨t, htT, htz⟩ := hcon
  have hex : ∃ u, sigma m (seqO obs) u = 0 := ⟨t, htz⟩
  set t0 := Nat.find hex with ht0def
  have ht0 : sigma m (seqO obs) t0 = 0 := Nat.find_spec hex
  have ht0min : ∀ r, r < t0 → sigma m (seqO obs) r ≠ 0 :=
    fun r hr => Nat.find_min hex hr
  have ht0le : t0 ≤ t := Nat.find_min' hex htz
  have hzero0 : ∀ s, fwF m.S m.trans (emitP m) (seqO obs) m.init 0 t0 s
      = 0 := by
    intro s
    rw [fwF_alphaT m (seqO obs) t0 ht0min s]
    have halpha : alphaT m (seqO obs) t0 s = 0 := by
      have hnn : ∀ r ∈ Finset.univ, 0 ≤ alphaT m (seqO obs) t0 r :=
        fun r _ => alphaT_nonneg m (seqO obs) hI hA hB t0 r
      have := (Finset.sum_eq_zero_iff_of_nonneg hnn).mp ht0
      exact this s (Finset.mem_univ s)
    rw [halpha, zero_mul]
  have hzero : ∀ d s, fwF m.S m.trans (emitP m) (seqO obs) m.init 0
      (t0 + d) s = 0 := by
    intro d
    induction d with
    | zero => exact hzero0
    | succ d ih =>
        intro s
        rw [show t0 + (d + 1) = (t0 + d) + 1 by ring, fwF_succ_eq]
        have : (∑ j, m.trans s j *
            fwF m.S m.trans (emitP m) (seqO obs) m.init 0 (t0 + d) j) = 0 := by
          refine Finset.sum_eq_zero ?_
          intro j _
          rw [ih j, mul_zero]
        rw [this, mul_zero]
  have hlast : pathLik m obs = 0 := by
    unfold pathLik
    refine Finset.sum_eq_zero ?_
    intro s _
    have := hzero (obs.length - 1 - t0) s
    rw [show t0 + (obs.length - 1 - t0) = obs.length - 1 by omega] at this
    exact this
  rw [hlast] at hpos
  exact lt_irrefl 0 hpos

/-- The per-sequence likelihoods returned by the engine, multiplied over the
batch (a failed run contributes the neutral factor 1). -/
def prodLik (m : Model) (seqs : List (List ℕ)) : ℚ :=
  (seqs.map (fun obs => match likelihoodE m obs with
    | Except.ok P => P
    | Except.error _ => 1)).prod

/-! ### Per-sequence path weights -/

/-- Modelled from the spec: the joint weight of a full hidden-state path for
an observation sequence: initial weight times emission and transition
factors. -/
def pathW (m : Model) (obs : List ℕ)
    (z : Fin (obs.length - 1 + 1) → Fin m.S) : ℚ :=
  m.init (z 0) *
    pathF m.S m.trans (emitP m) (seqO obs) 0 (obs.length - 1) z

lemma pathW_nonneg (m : Model) (obs : List ℕ) (hI : ∀ s, 0 ≤ m.init s)
    (hA : ∀ i j, 0 ≤ m.trans i j) (hB : ∀ s k, 0 ≤ m.emit s k)
    (z : Fin (obs.length - 1 + 1) → Fin m.S) :
    0 ≤ pathW m obs z :=
  mul_nonneg (hI (z 0))
    (pathF_nonneg m.S m.trans (emitP m) (seqO obs) hA
      (emitP_nonneg m hB) (obs.length - 1) 0 z)

/-- The total path weight is the path-space likelihood (no hypotheses are
needed: this is a polynomial identity). -/
lemma pathW_total (m : Model) (obs : List ℕ) :
    (∑ z : Fin (obs.length - 1 + 1) → Fin m.S,
        ((pathW m obs z : ℚ) : ℝ)) = ((pathLik m obs : ℚ) : ℝ) := by
  have hmarg := pathF_marg m.S m.trans (emitP m) (seqO obs)
    (obs.length - 1) (obs.length - 1) (le_refl _) 0 m.init
    (fun _ => (1 : ℝ))
  calc (∑ z : Fin (obs.length - 1 + 1) → Fin m.S, ((pathW m obs z : ℚ) : ℝ))
      = ∑ z : Fin (obs.length - 1 + 1) → Fin m.S,
          (1 : ℝ) * ((m.init (z 0) *
            pathF m.S m.trans (emitP m) (seqO obs) 0 (obs.length - 1) z
              : ℚ) : ℝ) := by
        refine Finset.sum_congr rfl ?_
        intro z _
        rw [one_mul]
        rfl
  _ = ∑ s, (1 : ℝ) *
        ((fwF m.S m.trans (emitP m) (seqO obs) m.init 0 (obs.length - 1) s
          : ℚ) : ℝ) *
        ((bwF m.S m.trans (emitP m) (seqO obs)
          (0 + (obs.length - 1)) (obs.length - 1 - (obs.length - 1)) s
          : ℚ) : ℝ) := hmarg
  _ = ∑ s, ((fwF m.S m.trans (emitP m) (seqO obs) m.init 0
        (obs.length - 1) s : ℚ) : ℝ) := by
      refine Finset.sum_congr rfl ?_
      intro s _
      rw [Nat.sub_self]
      show 1 * _ * ((1 : ℚ) : ℝ) = _
      push_cast
      ring
  _ = ((pathLik m obs : ℚ) : ℝ) := by
      unfold pathLik
      push_cast
      rfl

/-- The single-position marginal of the path weights is the state posterior
scaled by the total likelihood. -/
lemma pathW_marg (m : Model) (obs : List ℕ) (hT : 1 ≤ obs.length)
    (hs : ∀ u < obs.length, sigma m (seqO obs) u ≠ 0) (t : ℕ)
    (ht : t ≤ obs.length - 1) (g : Fin m.S → ℝ) :
    (∑ z : Fin (obs.length - 1 + 1) → Fin m.S,
        g (z ⟨t, Nat.lt_succ_of_le ht⟩) * ((pathW m obs z : ℚ) : ℝ)) =
      ∑ s, g s * ((gammaS m (seqO obs) obs.length t s *
        ∏ r ∈ Finset.range obs.length, sigma m (seqO obs) r : ℚ) : ℝ) := by
  have hmarg := pathF_marg m.S m.trans (emitP m) (seqO obs)
    t (obs.length - 1) ht 0 m.init g
  calc (∑ z : Fin (obs.length - 1 + 1) → Fin m.S,
          g (z ⟨t, Nat.lt_succ_of_le ht⟩) * ((pathW m obs z : ℚ) : ℝ))
      = ∑ s, g s *
          ((fwF m.S m.trans (emitP m) (seqO obs) m.init 0 t s : ℚ) : ℝ) *
          ((bwF m.S m.trans (emitP m) (seqO obs) (0 + t)
            (obs.length - 1 - t) s : ℚ) : ℝ) := hmarg
  _ = ∑ s, g s * ((gammaS m (seqO obs) obs.length t s *
        ∏ r ∈ Finset.range obs.length, sigma m (seqO obs) r : ℚ) : ℝ) := by
      refine Finset.sum_congr rfl ?_
      intro s _
      rw [Nat.zero_add]
      have hg := margF_gamma m (seqO obs) obs.length hT hs t ht s
      rw [mul_assoc]
      rw [show ((fwF m.S m.trans (emitP m) (seqO obs) m.init 0 t s : ℚ) : ℝ) *
          ((bwF m.S m.trans (emitP m) (seqO obs) t
            (obs.length - 1 - t) s : ℚ) : ℝ) =
          ((gammaS m (seqO obs) obs.length t s *
            ∏ r ∈ Finset.range obs.length, sigma m (seqO obs) r : ℚ) : ℝ) by
        rw [← Rat.cast_mul, hg]]

/-- The pair marginal of the path weights is the pair posterior scaled by
the total likelihood. -/
lemma pathW_margP (m : Model) (obs : List ℕ) (hT : 1 ≤ obs.length)
    (hs : ∀ u < obs.length, sigma m (seqO obs) u ≠ 0) (t : ℕ)
    (ht : t + 1 ≤ obs.length - 1) (g : Fin m.S → Fin m.S → ℝ) :
    (∑ z : Fin (obs.length - 1 + 1) → Fin m.S,
        g (z ⟨t + 1, Nat.lt_succ_of_le ht⟩)
          (z ⟨t, Nat.lt_succ_of_le (Nat.le_of_succ_le ht)⟩) *
          ((pathW m obs z : ℚ) : ℝ)) =
      ∑ i, ∑ j, g i j * ((xiS m (seqO obs) obs.length t i j *
        ∏ r ∈ Finset.range obs.length, sigma m (seqO obs) r : ℚ) : ℝ) := by
  have hmarg := pathF_margP m.S m.trans (emitP m) (seqO obs)
    t (obs.length - 1) ht 0 m.init g
  calc (∑ z : Fin (obs.length - 1 + 1) → Fin m.S,
          g (z ⟨t + 1, Nat.lt_succ_of_le ht⟩)
            (z ⟨t, Nat.lt_succ_of_le (Nat.le_of_succ_le ht)⟩) *
            ((pathW m obs z : ℚ) : ℝ))
      = ∑ i, ∑ j, g i j *
          (((fwF m.S m.trans (emitP m) (seqO obs) m.init 0 t j : ℚ) : ℝ) *
            ((m.trans i j : ℚ) : ℝ) *
            ((emitP m i (seqO obs (0 + t + 1)) : ℚ) : ℝ) *
            ((bwF m.S m.trans (emitP m) (seqO obs) (0 + t + 1)
              (obs.length - 1 - t - 1) i : ℚ) : ℝ)) := hmarg
  _ = ∑ i, ∑ j, g i j * ((xiS m (seqO obs) obs.length t i j *
        ∏ r ∈ Finset.range obs.length, sigma m (seqO obs) r : ℚ) : ℝ) := by
      refine Finset.sum_congr rfl ?_
      intro i _
      refine Finset.sum_congr rfl ?_
      intro j _
      rw [Nat.zero_add, Nat.sub_sub (obs.length - 1) t 1]
      have hx := margF_xi m (seqO obs) obs.length hT hs t ht i j
      rw [show ((fwF m.S m.trans (emitP m) (seqO obs) m.init 0 t j : ℚ) : ℝ) *
          ((m.trans i j : ℚ) : ℝ) *
          ((emitP m i (seqO obs (t + 1)) : ℚ) : ℝ) *
          ((bwF m.S m.trans (emitP m) (seqO obs) (t + 1)
            (obs.length - 1 - (t + 1)) i : ℚ) : ℝ) =
          ((xiS m (seqO obs) obs.length t i j *
            ∏ r ∈ Finset.range obs.length, sigma m (seqO obs) r : ℚ) : ℝ) by
        rw [← Rat.cast_mul, ← Rat.cast_mul, ← Rat.cast_mul, hx]]

/-- Every single path weight is dominated by the corresponding scaled state
posterior: `pathW z ≤ gamma_t (z_t) * P`. -/
lemma pathW_le_gamma (m : Model) (obs : List ℕ) (hT : 1 ≤ obs.length)
    (hs : ∀ u < obs.length, sigma m (seqO obs) u ≠ 0)
    (hI : ∀ s, 0 ≤ m.init s) (hA : ∀ i j, 0 ≤ m.trans i j)
    (hB : ∀ s k, 0 ≤ m.emit s k) (t : ℕ) (ht : t ≤ obs.length - 1)
    (z : Fin (obs.length - 1 + 1) → Fin m.S) :
    pathW m obs z ≤ gammaS m (seqO obs) obs.length t
        (z ⟨t, Nat.lt_succ_of_le ht⟩) *
      ∏ r ∈ Finset.range obs.length, sigma m (seqO obs) r := by
  set s₀ := z ⟨t, Nat.lt_succ_of_le ht⟩ with hs₀
  have hmarg := pathW_marg m obs hT hs t ht
    (fun s => if s = s₀ then (1 : ℝ) else 0)
  have hRHS : (∑ s, (if s = s₀ then (1 : ℝ) else 0) *
      ((gammaS m (seqO obs) obs.length t s *
        ∏ r ∈ Finset.range obs.length, sigma m (seqO obs) r : ℚ) : ℝ)) =
      ((gammaS m (seqO obs) obs.length t s₀ *
        ∏ r ∈ Finset.range obs.length, sigma m (seqO obs) r : ℚ) : ℝ) := by
    rw [Finset.sum_eq_single s₀]
    · rw [if_pos rfl, one_mul]
    · intro b _ hb
      rw [if_neg hb, zero_mul]
    · intro habs
      exact absurd (Finset.mem_univ s₀) habs
  have hLHS : ((pathW m obs z : ℚ) : ℝ) ≤
      ∑ z' : Fin (obs.length - 1 + 1) → Fin m.S,
        (if z' ⟨t, Nat.lt_succ_of_le ht⟩ = s₀ then (1 : ℝ) else 0) *
          ((pathW m obs z' : ℚ) : ℝ) := by
    have hz : ((pathW m obs z : ℚ) : ℝ) =
        (if z ⟨t, Nat.lt_succ_of_le ht⟩ = s₀ then (1 : ℝ) else 0) *
          ((pathW m obs z : ℚ) : ℝ) := by
      rw [if_pos hs₀.symm, one_mul]
    rw [hz]
    exact @Finset.single_le_sum _ ℝ _
      (fun z' => (if z' ⟨t, Nat.lt_succ_of_le ht⟩ = s₀ then (1 : ℝ) else 0) *
        ((pathW m obs z' : ℚ) : ℝ)) Finset.univ
      (fun z' _ => by
        have hnn : (0 : ℝ) ≤ ((pathW m obs z' : ℚ) : ℝ) := by
          exact_mod_cast pathW_nonneg m obs hI hA hB z'
        dsimp only
        split
        · rw [one_mul]
          exact hnn
        · rw [zero_mul]) z (Finset.mem_univ z)
  have := le_trans hLHS (le_of_eq (hmarg.trans hRHS))
  exact_mod_cast this

/-- Every single path weight is dominated by the corresponding scaled pair
posterior: `pathW z ≤ xi_t (z_{t+1}, z_t) * P`. -/
lemma pathW_le_xi (m : Model) (obs : List ℕ) (hT : 1 ≤ obs.length)
    (hs : ∀ u < obs.length, sigma m (seqO obs) u ≠ 0)
    (hI : ∀ s, 0 ≤ m.init s) (hA : ∀ i j, 0 ≤ m.trans i j)
    (hB : ∀ s k, 0 ≤ m.emit s k) (t : ℕ) (ht : t + 1 ≤ obs.length - 1)
    (z : Fin (obs.length - 1 + 1) → Fin m.S) :
    pathW m obs z ≤ xiS m (seqO obs) obs.length t
        (z ⟨t + 1, Nat.lt_succ_of_le ht⟩)
        (z ⟨t, Nat.lt_succ_of_le (Nat.le_of_succ_le ht)⟩) *
      ∏ r ∈ Finset.range obs.length, sigma m (seqO obs) r := by
  set i₀ := z ⟨t + 1, Nat.lt_succ_of_le ht⟩ with hi₀
  set j₀ := z ⟨t, Nat.lt_succ_of_le (Nat.le_of_succ_le ht)⟩ with hj₀
  have hmarg := pathW_margP m obs hT hs t ht
    (fun i j => if i = i₀ ∧ j = j₀ then (1 : ℝ) else 0)
  have hRHS : (∑ i, ∑ j, (if i = i₀ ∧ j = j₀ then (1 : ℝ) else 0) *
      ((xiS m (seqO obs) obs.length t i j *
        ∏ r ∈ Finset.range obs.length, sigma m (seqO obs) r : ℚ) : ℝ)) =
      ((xiS m (seqO obs) obs.length t i₀ j₀ *
        ∏ r ∈ Finset.range obs.length, sigma m (seqO obs) r : ℚ) : ℝ) := by
    rw [Finset.sum_eq_single i₀]
    · rw [Finset.sum_eq_single j₀]
      · rw [if_pos ⟨rfl, rfl⟩, one_mul]
      · intro b _ hb
        rw [if_neg, zero_mul]
        intro hcon
        exact hb hcon.2
      · intro habs
        exact absurd (Finset.mem_univ j₀) habs
    · intro b _ hb
      refine Finset.sum_eq_zero ?_
      intro j _
      rw [if_neg, zero_mul]
      intro hcon
      exact hb hcon.1
    · intro habs
      exact absurd (Finset.mem_univ i₀) habs
  have hLHS : ((pathW m obs z : ℚ) : ℝ) ≤
      ∑ z' : Fin (obs.length - 1 + 1) → Fin m.S,
        (if z' ⟨t + 1, Nat.lt_succ_of_le ht⟩ = i₀ ∧
            z' ⟨t, Nat.lt_succ_of_le (Nat.le_of_succ_le ht)⟩ = j₀
          then (1 : ℝ) else 0) * ((pathW m obs z' : ℚ) : ℝ) := by
    have hz : ((pathW m obs z : ℚ) : ℝ) =
        (if z ⟨t + 1, Nat.lt_succ_of_le ht⟩ = i₀ ∧
            z ⟨t, Nat.lt_succ_of_le (Nat.le_of_succ_le ht)⟩ = j₀
          then (1 : ℝ) else 0) * ((pathW m obs z : ℚ) : ℝ) := by
      rw [if_pos ⟨hi₀.symm, hj₀.symm⟩, one_mul]
    rw [hz]
    exact @Finset.single_le_sum _ ℝ _
      (fun z' => (if z' ⟨t + 1, Nat.lt_succ_of_le ht⟩ = i₀ ∧
          z' ⟨t, Nat.lt_succ_of_le (Nat.le_of_succ_le ht)⟩ = j₀
        then (1 : ℝ) else 0) * ((pathW m obs z' : ℚ) : ℝ)) Finset.univ
      (fun z' _ => by
        have hnn : (0 : ℝ) ≤ ((pathW m obs z' : ℚ) : ℝ) := by
          exact_mod_cast pathW_nonneg m obs hI hA hB z'
        dsimp only
        split
        · rw [one_mul]
          exact hnn
        · rw [zero_mul]) z (Finset.mem_univ z)
  have := le_trans hLHS (le_of_eq (hmarg.trans hRHS))
  exact_mod_cast this

/-! ### Support transfer: factors used by a positive-weight path stay
positive after the M-step -/

lemma seqO_lt (m : Model) (obs : List ℕ) (hsym : ∀ sym ∈ obs, sym < m.K)
    (u : ℕ) (hu : u < obs.length) : seqO obs u < m.K := by
  have hmem : obs.getD u 0 ∈ obs := by
    rw [List.getD_eq_getElem obs 0 hu]
    exact List.getElem_mem hu
  exact hsym _ hmem

lemma qpos_of_le_mul (a b c : ℚ) (hc : 0 < c) (hb : 0 < b)
    (h : c ≤ a * b) : 0 < a := by
  nlinarith

lemma qpos_split (a b : ℚ) (ha : 0 ≤ a) (hb : 0 ≤ b) (h : 0 < a * b) :
    0 < a ∧ 0 < b := by
  rcases eq_or_lt_of_le ha with h1 | h1
  · rw [← h1, zero_mul] at h
    exact absurd h (lt_irrefl 0)
  rcases eq_or_lt_of_le hb with h2 | h2
  · rw [← h2, mul_zero] at h
    exact absurd h (lt_irrefl 0)
  exact ⟨h1, h2⟩

lemma emitP_eq (m : Model) (s : Fin m.S) (k : ℕ) (h : k < m.K) :
    emitP m s k = m.emit s ⟨k, h⟩ := dif_pos h

lemma list_le_sum (l : List ℚ) (h0 : ∀ x ∈ l, 0 ≤ x) (x : ℚ) (hx : x ∈ l) :
    x ≤ l.sum := List.single_le_sum h0 x hx

/-- A positive initial statistic makes the updated initial entry positive. -/
lemma mStep_init_pos (m : Model) (seqs : List (List ℕ)) (hne : seqs ≠ [])
    (hval : GoodBatch m seqs) (hI : ∀ s, 0 ≤ m.init s)
    (hA : ∀ i j, 0 ≤ m.trans i j) (hB : ∀ s k, 0 ≤ m.emit s k)
    (obs : List ℕ) (hobs : obs ∈ seqs) (s : Fin m.S)
    (hpos : 0 < initAcc m obs s) : 0 < (mStep m seqs).init s := by
  rw [mStep_init_eq m seqs hne hval s]
  refine div_pos ?_ (lengthQ_pos seqs hne)
  have hle : initAcc m obs s ≤ initAccL m seqs s := by
    refine list_le_sum _ ?_ _ (List.mem_map_of_mem _ hobs)
    intro x hx
    obtain ⟨o, _, rfl⟩ := List.mem_map.mp hx
    exact gammaS_nonneg m (seqO o) o.length 0 hI hA hB s
  exact lt_of_lt_of_le hpos hle

/-- A positive pair statistic (together with a positive previous entry, for
the zero-denominator branch) makes the updated transition entry positive. -/
lemma mStep_trans_pos (m : Model) (seqs : List (List ℕ))
    (hval : GoodBatch m seqs) (hI : ∀ s, 0 ≤ m.init s)
    (hA : ∀ i j, 0 ≤ m.trans i j) (hB : ∀ s k, 0 ≤ m.emit s k)
    (obs : List ℕ) (hobs : obs ∈ seqs) (i j : Fin m.S)
    (hold : 0 < m.trans i j) (hnum : 0 < transNum m obs i j) :
    0 < (mStep m seqs).trans i j := by
  by_cases hd : transDenL m seqs j = 0
  · rw [mStep_trans_keep m seqs i j hd]
    exact hold
  · rw [mStep_trans_eq m seqs hval i j hd]
    have hle : transNum m obs i j ≤ transNumL m seqs i j := by
      refine list_le_sum _ ?_ _ (List.mem_map_of_mem _ hobs)
      intro x hx
      obtain ⟨o, _, rfl⟩ := List.mem_map.mp hx
      exact Finset.sum_nonneg fun t _ =>
        xiS_nonneg m (seqO o) o.length t hI hA hB i j
    refine div_pos (lt_of_lt_of_le hnum hle)
      (lt_of_le_of_ne (transDenL_nonneg m seqs hI hA hB j) (Ne.symm hd))

/-- A positive emission statistic (with a positive previous entry for the
zero-denominator branch) makes the updated emission entry positive. -/
lemma mStep_emit_pos (m : Model) (seqs : List (List ℕ))
    (hval : GoodBatch m seqs) (hI : ∀ s, 0 ≤ m.init s)
    (hA : ∀ i j, 0 ≤ m.trans i j) (hB : ∀ s k, 0 ≤ m.emit s k)
    (obs : List ℕ) (hobs : obs ∈ seqs) (s : Fin m.S) (k : Fin m.K)
    (hold : 0 < m.emit s k) (hnum : 0 < emitNum m obs s k) :
    0 < (mStep m seqs).emit s k := by
  by_cases hd : emitDenL m seqs s = 0
  · rw [mStep_emit_keep m seqs s k hd]
    exact hold
  · rw [mStep_emit_eq m seqs hval s k hd]
    have hle : emitNum m obs s k ≤ emitNumL m seqs s k := by
      refine list_le_sum _ ?_ _ (List.mem_map_of_mem _ hobs)
      intro x hx
      obtain ⟨o, _, rfl⟩ := List.mem_map.mp hx
      refine Finset.sum_nonneg fun t _ => ?_
      split
      · exact gammaS_nonneg m (seqO o) o.length t hI hA hB s
      · exact le_refl 0
    refine div_pos (lt_of_lt_of_le hnum hle)
      (lt_of_le_of_ne (emitDenL_nonneg m seqs hI hA hB s) (Ne.symm hd))

/-- Pointwise positivity transfer along a fixed path. -/
lemma pathF_pos_pointwise (S : ℕ) (A A' : Fin S → Fin S → ℚ)
    (B B' : Fin S → ℕ → ℚ) (O : ℕ → ℕ)
    (hA : ∀ i j, 0 ≤ A i j) (hB : ∀ s k, 0 ≤ B s k) :
    ∀ (n t : ℕ) (z : Fin (n + 1) → Fin S), 0 < pathF S A B O t n z →
      (∀ i : Fin (n + 1), B (z i) (O (t + i.val)) ≠ 0 →
        0 < B' (z i) (O (t + i.val))) →
      (∀ i : Fin n, A (z i.succ) (z i.castSucc) ≠ 0 →
        0 < A' (z i.succ) (z i.castSucc)) →
      0 < pathF S A' B' O t n z := by
  intro n
  induction n with
  | zero =>
      intro t z hpos hBt _
      rw [pathF_zero] at hpos ⊢
      exact hBt 0 (ne_of_gt hpos)
  | succ n ih =>
      intro t z hpos hBt hAt
      obtain ⟨hBp, hAp, hrp⟩ := pathF_factors_pos S A B O hA hB n t z hpos
      rw [pathF_succ]
      refine mul_pos (mul_pos ?_ ?_) ?_
      · exact hBt 0 (ne_of_gt hBp)
      · exact hAt 0 (ne_of_gt hAp)
      · refine ih (t + 1) (Fin.tail z) hrp ?_ ?_
        · intro i hi
          have hi' : B (z i.succ) (O (t + i.succ.val)) ≠ 0 := by
            show B (z i.succ) (O (t + (i.val + 1))) ≠ 0
            rw [show t + (i.val + 1) = t + 1 + i.val by ring]
            exact hi
          have h0 := hBt i.succ hi'
          show 0 < B' (Fin.tail z i) (O (t + 1 + i.val))
          rw [show t + 1 + i.val = t + (i.val + 1) by ring]
          exact h0
        · intro i hi
          exact hAt i.succ hi

/-- Positivity of a full path weight survives the M-step: every factor the
path uses has positive posterior mass, hence a positive updated value. -/
lemma pathW_supp (m : Model) (seqs : List (List ℕ)) (hex : ExactStoch m)
    (hne : seqs ≠ []) (hval : GoodBatch m seqs) (obs : List ℕ)
    (hobs : obs ∈ seqs) (z : Fin (obs.length - 1 + 1) → Fin m.S)
    (hz : 0 < pathW m obs z) : 0 < pathW (mStep m seqs) obs z := by
  obtain ⟨hI, hIs, hTr, hEm⟩ := hex
  have hA : ∀ i j, 0 ≤ m.trans i j := fun i j => (hTr j).1 i
  have hB : ∀ s k, 0 ≤ m.emit s k := fun s k => (hEm s).1 k
  have hT : 1 ≤ obs.length := (hval obs hobs).1
  have hsym : ∀ sym ∈ obs, sym < m.K := (hval obs hobs).2.1
  have hsig : ∀ t < obs.length, sigma m (seqO obs) t ≠ 0 := (hval obs hobs).2.2
  have hPpos : 0 < ∏ r ∈ Finset.range obs.length, sigma m (seqO obs) r := by
    refine Finset.prod_pos ?_
    intro r hr
    exact lt_of_le_of_ne (sigma_nonneg m (seqO obs) hI hA hB r)
      (Ne.symm (hsig r (Finset.mem_range.mp hr)))
  obtain ⟨hinit, hpath⟩ := qpos_split _ _ (hI (z 0))
    (pathF_nonneg m.S m.trans (emitP m) (seqO obs) hA (emitP_nonneg m hB)
      (obs.length - 1) 0 z) hz
  have hγ : ∀ (t : ℕ) (ht : t ≤ obs.length - 1),
      0 < gammaS m (seqO obs) obs.length t (z ⟨t, Nat.lt_succ_of_le ht⟩) :=
    fun t ht => qpos_of_le_mul _ _ _ hz hPpos
      (pathW_le_gamma m obs hT hsig hI hA hB t ht z)
  have hξ : ∀ (t : ℕ) (ht : t + 1 ≤ obs.length - 1),
      0 < xiS m (seqO obs) obs.length t (z ⟨t + 1, Nat.lt_succ_of_le ht⟩)
        (z ⟨t, Nat.lt_succ_of_le (Nat.le_of_succ_le ht)⟩) :=
    fun t ht => qpos_of_le_mul _ _ _ hz hPpos
      (pathW_le_xi m obs hT hsig hI hA hB t ht z)
  have hinit' : 0 < (mStep m seqs).init (z 0) :=
    mStep_init_pos m seqs hne hval hI hA hB obs hobs (z 0)
      (hγ 0 (Nat.zero_le _))
  have hBpt : ∀ i : Fin (obs.length - 1 + 1),
      emitP m (z i) (seqO obs (0 + i.val)) ≠ 0 →
        0 < emitP (mStep m seqs) (z i) (seqO obs (0 + i.val)) := by
    intro i hi
    have hi2 : i.val < obs.length - 1 + 1 := i.isLt
    have hiT : 0 + i.val < obs.length := by omega
    have hiT2 : i.val < obs.length := by omega
    have hkK : seqO obs (0 + i.val) < m.K := seqO_lt m obs hsym _ hiT
    have hne0 : m.emit (z i) ⟨seqO obs (0 + i.val), hkK⟩ ≠ 0 := by
      rw [← emitP_eq m (z i) _ hkK]
      exact hi
    have hold : 0 < m.emit (z i) ⟨seqO obs (0 + i.val), hkK⟩ :=
      lt_of_le_of_ne (hB _ _) (Ne.symm hne0)
    have hγi : 0 < gammaS m (seqO obs) obs.length i.val (z i) :=
      hγ i.val (by omega)
    have hcond : seqO obs i.val =
        (⟨seqO obs (0 + i.val), hkK⟩ : Fin m.K).val := by
      show seqO obs i.val = seqO obs (0 + i.val)
      rw [Nat.zero_add]
    have hterm : 0 < (if seqO obs i.val =
        (⟨seqO obs (0 + i.val), hkK⟩ : Fin m.K).val then
          gammaS m (seqO obs) obs.length i.val (z i) else 0) := by
      rw [if_pos hcond]
      exact hγi
    have hnum : 0 < emitNum m obs (z i) ⟨seqO obs (0 + i.val), hkK⟩ := by
      refine lt_of_lt_of_le hterm ?_
      exact @Finset.single_le_sum ℕ ℚ _
        (fun t => if seqO obs t =
            (⟨seqO obs (0 + i.val), hkK⟩ : Fin m.K).val then
          gammaS m (seqO obs) obs.length t (z i) else 0)
        (Finset.range obs.length)
        (fun t _ => by
          dsimp only
          split
          · exact gammaS_nonneg m (seqO obs) obs.length t hI hA hB (z i)
          · exact le_refl 0)
        i.val (Finset.mem_range.mpr hiT2)
    have hfin := mStep_emit_pos m seqs hval hI hA hB obs hobs (z i)
      ⟨seqO obs (0 + i.val), hkK⟩ hold hnum
    rw [emitP_eq (mStep m seqs) (z i) _ hkK]
    exact hfin
  have hApt : ∀ i : Fin (obs.length - 1),
      m.trans (z i.succ) (z i.castSucc) ≠ 0 →
        0 < (mStep m seqs).trans (z i.succ) (z i.castSucc) := by
    intro i hi
    have hold : 0 < m.trans (z i.succ) (z i.castSucc) :=
      lt_of_le_of_ne (hA _ _) (Ne.symm hi)
    have hξi : 0 < xiS m (seqO obs) obs.length i.val (z i.succ)
        (z i.castSucc) := hξ i.val i.isLt
    have hnum : 0 < transNum m obs (z i.succ) (z i.castSucc) := by
      refine lt_of_lt_of_le hξi ?_
      exact @Finset.single_le_sum ℕ ℚ _
        (fun t => xiS m (seqO obs) obs.length t (z i.succ) (z i.castSucc))
        (Finset.range (obs.length - 1))
        (fun t _ => xiS_nonneg m (seqO obs) obs.length t hI hA hB (z i.succ)
          (z i.castSucc))
        i.val (Finset.mem_range.mpr i.isLt)
    exact mStep_trans_pos m seqs hval hI hA hB obs hobs (z i.succ)
      (z i.castSucc) hold hnum
  have hB' : ∀ s k, 0 ≤ (mStep m seqs).emit s k := by
    intro s k
    have hex' := mStep_exact m seqs ⟨hI, hIs, hTr, hEm⟩ hne hval
    exact (hex'.2.2.2 s).1 k
  have hpath' := pathF_pos_pointwise m.S m.trans ((mStep m seqs).trans)
    (emitP m) (emitP (mStep m seqs)) (seqO obs) hA (emitP_nonneg m hB)
    (obs.length - 1) 0 z hpath hBpt hApt
  exact mul_pos hinit' hpath'

/-! ### Decomposition of the weighted complete-data score into blocks -/

lemma decomp_init (m : Model) (seqs : List (List ℕ)) (obs : List ℕ)
    (hT : 1 ≤ obs.length)
    (hsig : ∀ u < obs.length, sigma m (seqO obs) u ≠ 0) :
    (∑ z : Fin (obs.length - 1 + 1) → Fin m.S,
        ((pathW m obs z : ℚ) : ℝ) *
          (Real.log (((mStep m seqs).init (z 0) : ℚ) : ℝ) -
            Real.log ((m.init (z 0) : ℚ) : ℝ))) =
      (∑ s, ((initAcc m obs s : ℚ) : ℝ) *
          (Real.log (((mStep m seqs).init s : ℚ) : ℝ) -
            Real.log ((m.init s : ℚ) : ℝ))) *
        ((∏ r ∈ Finset.range obs.length, sigma m (seqO obs) r : ℚ) : ℝ) := by
  calc (∑ z : Fin (obs.length - 1 + 1) → Fin m.S,
          ((pathW m obs z : ℚ) : ℝ) *
            (Real.log (((mStep m seqs).init (z 0) : ℚ) : ℝ) -
              Real.log ((m.init (z 0) : ℚ) : ℝ)))
      = ∑ z : Fin (obs.length - 1 + 1) → Fin m.S,
          (Real.log (((mStep m seqs).init (z 0) : ℚ) : ℝ) -
            Real.log ((m.init (z 0) : ℚ) : ℝ)) *
            ((pathW m obs z : ℚ) : ℝ) :=
        Finset.sum_congr rfl fun z _ => mul_comm _ _
  _ = ∑ s, (Real.log (((mStep m seqs).init s : ℚ) : ℝ) -
          Real.log ((m.init s : ℚ) : ℝ)) *
          ((gammaS m (seqO obs) obs.length 0 s *
            ∏ r ∈ Finset.range obs.length, sigma m (seqO obs) r : ℚ) : ℝ) :=
      pathW_marg m obs hT hsig 0 (Nat.zero_le _)
        (fun s => Real.log (((mStep m seqs).init s : ℚ) : ℝ) -
          Real.log ((m.init s : ℚ) : ℝ))
  _ = ∑ s, ((initAcc m obs s : ℚ) : ℝ) *
          (Real.log (((mStep m seqs).init s : ℚ) : ℝ) -
            Real.log ((m.init s : ℚ) : ℝ)) *
          ((∏ r ∈ Finset.range obs.length, sigma m (seqO obs) r : ℚ) : ℝ) := by
      refine Finset.sum_congr rfl ?_
      intro s _
      have hγ : gammaS m (seqO obs) obs.length 0 s = initAcc m obs s := rfl
      rw [Rat.cast_mul, hγ]
      ring
  _ = (∑ s, ((initAcc m obs s : ℚ) : ℝ) *
          (Real.log (((mStep m seqs).init s : ℚ) : ℝ) -
            Real.log ((m.init s : ℚ) : ℝ))) *
        ((∏ r ∈ Finset.range obs.length, sigma m (seqO obs) r : ℚ) : ℝ) :=
      (Finset.sum_mul _ _ _).symm

lemma decomp_trans (m : Model) (seqs : List (List ℕ)) (obs : List ℕ)
    (hT : 1 ≤ obs.length)
    (hsig : ∀ u < obs.length, sigma m (seqO obs) u ≠ 0) :
    (∑ z : Fin (obs.length - 1 + 1) → Fin m.S,
        ((pathW m obs z : ℚ) : ℝ) *
          ∑ i : Fin (obs.length - 1),
            (Real.log (((mStep m seqs).trans (z i.succ) (z i.castSucc)
                : ℚ) : ℝ) -
              Real.log ((m.trans (z i.succ) (z i.castSucc) : ℚ) : ℝ))) =
      (∑ a, ∑ b, ((transNum m obs a b : ℚ) : ℝ) *
          (Real.log (((mStep m seqs).trans a b : ℚ) : ℝ) -
            Real.log ((m.trans a b : ℚ) : ℝ))) *
        ((∏ r ∈ Finset.range obs.length, sigma m (seqO obs) r : ℚ) : ℝ) := by
  calc (∑ z : Fin (obs.length - 1 + 1) → Fin m.S,
          ((pathW m obs z : ℚ) : ℝ) *
            ∑ i : Fin (obs.length - 1),
              (Real.log (((mStep m seqs).trans (z i.succ) (z i.castSucc)
                  : ℚ) : ℝ) -
                Real.log ((m.trans (z i.succ) (z i.castSucc) : ℚ) : ℝ)))
      = ∑ i : Fin (obs.length - 1),
          ∑ z : Fin (obs.length - 1 + 1) → Fin m.S,
            (Real.log (((mStep m seqs).trans (z i.succ) (z i.castSucc)
                : ℚ) : ℝ) -
              Real.log ((m.trans (z i.succ) (z i.castSucc) : ℚ) : ℝ)) *
              ((pathW m obs z : ℚ) : ℝ) := by
        rw [← Finset.sum_comm]
        refine Finset.sum_congr rfl ?_
        intro z _
        rw [Finset.mul_sum]
        exact Finset.sum_congr rfl fun i _ => mul_comm _ _
  _ = ∑ i : Fin (obs.length - 1), ∑ a, ∑ b,
          (Real.log (((mStep m seqs).trans a b : ℚ) : ℝ) -
            Real.log ((m.trans a b : ℚ) : ℝ)) *
          ((xiS m (seqO obs) obs.length i.val a b *
            ∏ r ∈ Finset.range obs.length, sigma m (seqO obs) r : ℚ) : ℝ) :=
      Finset.sum_congr rfl fun i _ =>
        pathW_margP m obs hT hsig i.val i.isLt
          (fun a b => Real.log (((mStep m seqs).trans a b : ℚ) : ℝ) -
            Real.log ((m.trans a b : ℚ) : ℝ))
  _ = ∑ a, ∑ b, ∑ i : Fin (obs.length - 1),
          (Real.log (((mStep m seqs).trans a b : ℚ) : ℝ) -
            Real.log ((m.trans a b : ℚ) : ℝ)) *
          ((xiS m (seqO obs) obs.length i.val a b *
            ∏ r ∈ Finset.range obs.length, sigma m (seqO obs) r : ℚ) : ℝ) := by
        rw [Finset.sum_comm]
        exact Finset.sum_congr rfl fun a _ => Finset.sum_comm
  _ = ∑ a, ∑ b, ((transNum m obs a b : ℚ) : ℝ) *
          (Real.log (((mStep m seqs).trans a b : ℚ) : ℝ) -
            Real.log ((m.trans a b : ℚ) : ℝ)) *
          ((∏ r ∈ Finset.range obs.length, sigma m (seqO obs) r : ℚ) : ℝ) := by
        refine Finset.sum_congr rfl ?_
        intro a _
        refine Finset.sum_congr rfl ?_
        intro b _
        have hnum : (∑ i : Fin (obs.length - 1),
            ((xiS m (seqO obs) obs.length i.val a b : ℚ) : ℝ)) =
            ((transNum m obs a b : ℚ) : ℝ) := by
          rw [show ((transNum m obs a b : ℚ) : ℝ) =
              ∑ t ∈ Finset.range (obs.length - 1),
                ((xiS m (seqO obs) obs.length t a b : ℚ) : ℝ) by
            unfold transNum
            push_cast
            rfl]
          exact Fin.sum_univ_eq_sum_range
            (fun t => ((xiS m (seqO obs) obs.length t a b : ℚ) : ℝ)) _
        calc (∑ i : Fin (obs.length - 1),
                (Real.log (((mStep m seqs).trans a b : ℚ) : ℝ) -
                  Real.log ((m.trans a b : ℚ) : ℝ)) *
                ((xiS m (seqO obs) obs.length i.val a b *
                  ∏ r ∈ Finset.range obs.length, sigma m (seqO obs) r
                  : ℚ) : ℝ))
            = (∑ i : Fin (obs.length - 1),
                ((xiS m (seqO obs) obs.length i.val a b : ℚ) : ℝ)) *
                ((Real.log (((mStep m seqs).trans a b : ℚ) : ℝ) -
                  Real.log ((m.trans a b : ℚ) : ℝ)) *
                ((∏ r ∈ Finset.range obs.length, sigma m (seqO obs) r
                  : ℚ) : ℝ)) := by
              rw [Finset.sum_mul]
              refine Finset.sum_congr rfl ?_
              intro i _
              rw [Rat.cast_mul]
              ring
        _ = ((transNum m obs a b : ℚ) : ℝ) *
              (Real.log (((mStep m seqs).trans a b : ℚ) : ℝ) -
                Real.log ((m.trans a b : ℚ) : ℝ)) *
              ((∏ r ∈ Finset.range obs.length, sigma m (seqO obs) r
                : ℚ) : ℝ) := by
              rw [hnum]
              ring
  _ = (∑ a, ∑ b, ((transNum m obs a b : ℚ) : ℝ) *
          (Real.log (((mStep m seqs).trans a b : ℚ) : ℝ) -
            Real.log ((m.trans a b : ℚ) : ℝ))) *
        ((∏ r ∈ Finset.range obs.length, sigma m (seqO obs) r : ℚ) : ℝ) := by
      rw [Finset.sum_mul]
      exact Finset.sum_congr rfl fun a _ => (Finset.sum_mul _ _ _).symm

lemma decomp_emit (m : Model) (seqs : List (List ℕ)) (obs : List ℕ)
    (hT : 1 ≤ obs.length)
    (hsig : ∀ u < obs.length, sigma m (seqO obs) u ≠ 0) :
    (∑ z : Fin (obs.length - 1 + 1) → Fin m.S,
        ((pathW m obs z : ℚ) : ℝ) *
          ∑ i : Fin (obs.length - 1 + 1),
            (Real.log ((emitP (mStep m seqs) (z i)
                (seqO obs (0 + i.val)) : ℚ) : ℝ) -
              Real.log ((emitP m (z i) (seqO obs (0 + i.val)) : ℚ) : ℝ))) =
      (∑ t ∈ Finset.range obs.length, ∑ s,
          ((gammaS m (seqO obs) obs.length t s : ℚ) : ℝ) *
          (Real.log ((emitP (mStep m seqs) s (seqO obs t) : ℚ) : ℝ) -
            Real.log ((emitP m s (seqO obs t) : ℚ) : ℝ))) *
        ((∏ r ∈ Finset.range obs.length, sigma m (seqO obs) r : ℚ) : ℝ) := by
  have hTT : obs.length - 1 + 1 = obs.length := by omega
  calc (∑ z : Fin (obs.length - 1 + 1) → Fin m.S,
          ((pathW m obs z : ℚ) : ℝ) *
            ∑ i : Fin (obs.length - 1 + 1),
              (Real.log ((emitP (mStep m seqs) (z i)
                  (seqO obs (0 + i.val)) : ℚ) : ℝ) -
                Real.log ((emitP m (z i) (seqO obs (0 + i.val)) : ℚ) : ℝ)))
      = ∑ i : Fin (obs.length - 1 + 1),
          ∑ z : Fin (obs.length - 1 + 1) → Fin m.S,
            (Real.log ((emitP (mStep m seqs) (z i)
                (seqO obs (0 + i.val)) : ℚ) : ℝ) -
              Real.log ((emitP m (z i) (seqO obs (0 + i.val)) : ℚ) : ℝ)) *
              ((pathW m obs z : ℚ) : ℝ) := by
        rw [← Finset.sum_comm]
        refine Finset.sum_congr rfl ?_
        intro z _
        rw [Finset.mul_sum]
        exact Finset.sum_congr rfl fun i _ => mul_comm _ _
  _ = ∑ i : Fin (obs.length - 1 + 1), ∑ s,
          (Real.log ((emitP (mStep m seqs) s (seqO obs (0 + i.val)) : ℚ) : ℝ) -
            Real.log ((emitP m s (seqO obs (0 + i.val)) : ℚ) : ℝ)) *
          ((gammaS m (seqO obs) obs.length i.val s *
            ∏ r ∈ Finset.range obs.length, sigma m (seqO obs) r : ℚ) : ℝ) :=
      Finset.sum_congr rfl fun i _ =>
        pathW_marg m obs hT hsig i.val (Nat.lt_succ_iff.mp i.isLt)
          (fun s => Real.log ((emitP (mStep m seqs) s
              (seqO obs (0 + i.val)) : ℚ) : ℝ) -
            Real.log ((emitP m s (seqO obs (0 + i.val)) : ℚ) : ℝ))
  _ = ∑ t ∈ Finset.range (obs.length - 1 + 1), ∑ s,
          (Real.log ((emitP (mStep m seqs) s (seqO obs (0 + t)) : ℚ) : ℝ) -
            Real.log ((emitP m s (seqO obs (0 + t)) : ℚ) : ℝ)) *
          ((gammaS m (seqO obs) obs.length t s *
            ∏ r ∈ Finset.range obs.length, sigma m (seqO obs) r : ℚ) : ℝ) :=
      Fin.sum_univ_eq_sum_range
        (fun t => ∑ s,
          (Real.log ((emitP (mStep m seqs) s (seqO obs (0 + t)) : ℚ) : ℝ) -
            Real.log ((emitP m s (seqO obs (0 + t)) : ℚ) : ℝ)) *
          ((gammaS m (seqO obs) obs.length t s *
            ∏ r ∈ Finset.range obs.length, sigma m (seqO obs) r : ℚ) : ℝ)) _
  _ = ∑ t ∈ Finset.range obs.length, ∑ s,
          ((gammaS m (seqO obs) obs.length t s : ℚ) : ℝ) *
          (Real.log ((emitP (mStep m seqs) s (seqO obs t) : ℚ) : ℝ) -
            Real.log ((emitP m s (seqO obs t) : ℚ) : ℝ)) *
          ((∏ r ∈ Finset.range obs.length, sigma m (seqO obs) r : ℚ) : ℝ) := by
        rw [hTT]
        refine Finset.sum_congr rfl ?_
        intro t _
        refine Finset.sum_congr rfl ?_
        intro s _
        rw [Nat.zero_add, Rat.cast_mul]
        ring
  _ = (∑ t ∈ Finset.range obs.length, ∑ s,
          ((gammaS m (seqO obs) obs.length t s : ℚ) : ℝ) *
          (Real.log ((emitP (mStep m seqs) s (seqO obs t) : ℚ) : ℝ) -
            Real.log ((emitP m s (seqO obs t) : ℚ) : ℝ))) *
        ((∏ r ∈ Finset.range obs.length, sigma m (seqO obs) r : ℚ) : ℝ) := by
      rw [Finset.sum_mul]
      exact Finset.sum_congr rfl fun t _ => (Finset.sum_mul _ _ _).symm

/-- Regrouping the emission block by symbol: the time-indexed posterior sums
against a per-symbol score become the per-symbol emission statistics. -/
lemma emit_regroup (m : Model) (obs : List ℕ)
    (hsym : ∀ sym ∈ obs, sym < m.K) (f : Fin m.S → ℕ → ℝ) :
    (∑ t ∈ Finset.range obs.length, ∑ s,
        ((gammaS m (seqO obs) obs.length t s : ℚ) : ℝ) * f s (seqO obs t)) =
      ∑ s, ∑ k : Fin m.K, ((emitNum m obs s k : ℚ) : ℝ) * f s k.val := by
  calc (∑ t ∈ Finset.range obs.length, ∑ s,
          ((gammaS m (seqO obs) obs.length t s : ℚ) : ℝ) * f s (seqO obs t))
      = ∑ s, ∑ t ∈ Finset.range obs.length,
          ((gammaS m (seqO obs) obs.length t s : ℚ) : ℝ) * f s (seqO obs t) :=
        Finset.sum_comm
  _ = ∑ s, ∑ t ∈ Finset.range obs.length, ∑ k : Fin m.K,
        (if seqO obs t = k.val then
          ((gammaS m (seqO obs) obs.length t s : ℚ) : ℝ) * f s k.val
          else 0) := by
      refine Finset.sum_congr rfl ?_
      intro s _
      refine Finset.sum_congr rfl ?_
      intro t ht
      have hk : seqO obs t < m.K :=
        seqO_lt m obs hsym t (Finset.mem_range.mp ht)
      rw [Finset.sum_eq_single (⟨seqO obs t, hk⟩ : Fin m.K)]
      · rw [if_pos rfl]
      · intro b _ hb
        rw [if_neg]
        intro hcon
        exact hb (Fin.ext hcon.symm)
      · intro habs
        exact absurd (Finset.mem_univ _) habs
  _ = ∑ s, ∑ k : Fin m.K, ∑ t ∈ Finset.range obs.length,
        (if seqO obs t = k.val then
          ((gammaS m (seqO obs) obs.length t s : ℚ) : ℝ) * f s k.val
          else 0) :=
      Finset.sum_congr rfl fun s _ => Finset.sum_comm
  _ = ∑ s, ∑ k : Fin m.K, ((emitNum m obs s k : ℚ) : ℝ) * f s k.val := by
      refine Finset.sum_congr rfl ?_
      intro s _
      refine Finset.sum_congr rfl ?_
      intro k _
      have hcast : ((emitNum m obs s k : ℚ) : ℝ) =
          ∑ t ∈ Finset.range obs.length,
            (if seqO obs t = k.val then
              ((gammaS m (seqO obs) obs.length t s : ℚ) : ℝ) else 0) := by
        unfold emitNum
        push_cast
        refine Finset.sum_congr rfl ?_
        intro t _
        rw [apply_ite (fun q : ℚ => (q : ℝ))]
        norm_num
      rw [hcast, Finset.sum_mul]
      refine Finset.sum_congr rfl ?_
      intro t _
      rw [ite_mul, zero_mul]

/-- The per-sequence EM bound: one M-step cannot decrease a sequence's
log-likelihood by more than the (non-negative) gain of the weighted
complete-data score. -/
lemma seq_em_bound (m : Model) (seqs : List (List ℕ)) (hex : ExactStoch m)
    (hne : seqs ≠ []) (hval : GoodBatch m seqs) (obs : List ℕ)
    (hobs : obs ∈ seqs) :
    0 < pathLik (mStep m seqs) obs ∧
    Real.log ((pathLik m obs : ℚ) : ℝ) +
      ((∑ s, ((initAcc m obs s : ℚ) : ℝ) *
          (Real.log (((mStep m seqs).init s : ℚ) : ℝ) -
            Real.log ((m.init s : ℚ) : ℝ))) +
        (∑ a, ∑ b, ((transNum m obs a b : ℚ) : ℝ) *
          (Real.log (((mStep m seqs).trans a b : ℚ) : ℝ) -
            Real.log ((m.trans a b : ℚ) : ℝ))) +
        (∑ s, ∑ k : Fin m.K, ((emitNum m obs s k : ℚ) : ℝ) *
          (Real.log ((emitP (mStep m seqs) s k.val : ℚ) : ℝ) -
            Real.log ((emitP m s k.val : ℚ) : ℝ)))) ≤
      Real.log ((pathLik (mStep m seqs) obs : ℚ) : ℝ) := by
  have hI : ∀ s, 0 ≤ m.init s := hex.1
  have hA : ∀ i j, 0 ≤ m.trans i j := fun i j => (hex.2.2.1 j).1 i
  have hB : ∀ s k, 0 ≤ m.emit s k := fun s k => (hex.2.2.2 s).1 k
  have hT : 1 ≤ obs.length := (hval obs hobs).1
  have hsym : ∀ sym ∈ obs, sym < m.K := (hval obs hobs).2.1
  have hsig : ∀ t < obs.length, sigma m (seqO obs) t ≠ 0 := (hval obs hobs).2.2
  have hex' := mStep_exact m seqs hex hne hval
  have hI' : ∀ s : Fin m.S, 0 ≤ (mStep m seqs).init s := hex'.1
  have hA' : ∀ i j : Fin m.S, 0 ≤ (mStep m seqs).trans i j :=
    fun i j => (hex'.2.2.1 j).1 i
  have hB' : ∀ (s : Fin m.S) (k : ℕ), 0 ≤ emitP (mStep m seqs) s k :=
    emitP_nonneg (mStep m seqs) (fun s k => (hex'.2.2.2 s).1 k)
  have hPpos : 0 < ∏ r ∈ Finset.range obs.length, sigma m (seqO obs) r := by
    refine Finset.prod_pos ?_
    intro r hr
    exact lt_of_le_of_ne (sigma_nonneg m (seqO obs) hI hA hB r)
      (Ne.symm (hsig r (Finset.mem_range.mp hr)))
  have hPL : pathLik m obs =
      ∏ r ∈ Finset.range obs.length, sigma m (seqO obs) r :=
    pathLik_eq_prod m obs hT hsig
  have hPLpos : 0 < pathLik m obs := by
    rw [hPL]
    exact hPpos
  have hWnn : ∀ z : Fin (obs.length - 1 + 1) → Fin m.S,
      (0 : ℝ) ≤ ((pathW m obs z : ℚ) : ℝ) := fun z => by
    exact_mod_cast pathW_nonneg m obs hI hA hB z
  have hW'nn : ∀ z : Fin (obs.length - 1 + 1) → Fin m.S,
      (0 : ℝ) ≤ ((pathW (mStep m seqs) obs z : ℚ) : ℝ) := fun z => by
    exact_mod_cast pathW_nonneg (mStep m seqs) obs hI'
      (fun i j => (hex'.2.2.1 j).1 i) (fun s k => (hex'.2.2.2 s).1 k) z
  have hsuppR : ∀ z : Fin (obs.length - 1 + 1) → Fin m.S,
      0 < ((pathW m obs z : ℚ) : ℝ) →
        0 < ((pathW (mStep m seqs) obs z : ℚ) : ℝ) := fun z hz => by
    exact_mod_cast pathW_supp m seqs hex hne hval obs hobs z
      (by exact_mod_cast hz)
  have hTotW : (∑ z : Fin (obs.length - 1 + 1) → Fin m.S,
      ((pathW m obs z : ℚ) : ℝ)) = ((pathLik m obs : ℚ) : ℝ) :=
    pathW_total m obs
  have hTotW' : (∑ z : Fin (obs.length - 1 + 1) → Fin m.S,
      ((pathW (mStep m seqs) obs z : ℚ) : ℝ)) =
      ((pathLik (mStep m seqs) obs : ℚ) : ℝ) :=
    pathW_total (mStep m seqs) obs
  have hposR : 0 < ∑ z : Fin (obs.length - 1 + 1) → Fin m.S,
      ((pathW m obs z : ℚ) : ℝ) := by
    rw [hTotW]
    exact_mod_cast hPLpos
  obtain ⟨z₀, hz₀⟩ : ∃ z : Fin (obs.length - 1 + 1) → Fin m.S,
      0 < pathW m obs z := by
    by_contra hno
    push_neg at hno
    have hzero : (∑ z : Fin (obs.length - 1 + 1) → Fin m.S,
        ((pathW m obs z : ℚ) : ℝ)) = 0 := by
      refine Finset.sum_eq_zero ?_
      intro z _
      have h1 : pathW m obs z = 0 :=
        le_antisymm (hno z) (pathW_nonneg m obs hI hA hB z)
      rw [h1]
      norm_num
    rw [hTotW] at hzero
    have h2 : pathLik m obs = 0 := by exact_mod_cast hzero
    rw [h2] at hPLpos
    exact lt_irrefl 0 hPLpos
  have hPL'pos : 0 < pathLik (mStep m seqs) obs := by
    have hz₀' := pathW_supp m seqs hex hne hval obs hobs z₀ hz₀
    have hle : ((pathW (mStep m seqs) obs z₀ : ℚ) : ℝ) ≤
        ∑ z : Fin (obs.length - 1 + 1) → Fin m.S,
          ((pathW (mStep m seqs) obs z : ℚ) : ℝ) :=
      Finset.single_le_sum (fun z _ => hW'nn z) (Finset.mem_univ z₀)
    rw [hTotW'] at hle
    have h3 : (0 : ℝ) < ((pathLik (mStep m seqs) obs : ℚ) : ℝ) :=
      lt_of_lt_of_le (by exact_mod_cast hz₀') hle
    exact_mod_cast h3
  have hrel := relent_bound
    (fun z : Fin (obs.length - 1 + 1) → Fin m.S => ((pathW m obs z : ℚ) : ℝ))
    (fun z => ((pathW (mStep m seqs) obs z : ℚ) : ℝ))
    hWnn hW'nn hsuppR hposR
  rw [hTotW, hTotW'] at hrel
  have hDeq : (∑ z : Fin (obs.length - 1 + 1) → Fin m.S,
      ((pathW m obs z : ℚ) : ℝ) / ((pathLik m obs : ℚ) : ℝ) *
        (Real.log ((pathW (mStep m seqs) obs z : ℚ) : ℝ) -
          Real.log ((pathW m obs z : ℚ) : ℝ))) =
      ∑ z : Fin (obs.length - 1 + 1) → Fin m.S,
        ((pathW m obs z : ℚ) : ℝ) / ((pathLik m obs : ℚ) : ℝ) *
        ((Real.log (((mStep m seqs).init (z 0) : ℚ) : ℝ) -
            Real.log ((m.init (z 0) : ℚ) : ℝ)) +
          ((∑ i : Fin (obs.length - 1),
              (Real.log (((mStep m seqs).trans (z i.succ) (z i.castSucc)
                  : ℚ) : ℝ) -
                Real.log ((m.trans (z i.succ) (z i.castSucc) : ℚ) : ℝ))) +
            (∑ i : Fin (obs.length - 1 + 1),
              (Real.log ((emitP (mStep m seqs) (z i)
                  (seqO obs (0 + i.val)) : ℚ) : ℝ) -
                Real.log ((emitP m (z i)
                  (seqO obs (0 + i.val)) : ℚ) : ℝ))))) := by
    refine Finset.sum_congr rfl ?_
    intro z _
    rcases eq_or_lt_of_le (pathW_nonneg m obs hI hA hB z) with h0 | hp
    · rw [← h0]
      norm_num
    · congr 1
      obtain ⟨hi0, hp0⟩ := qpos_split _ _ (hI (z 0))
        (pathF_nonneg m.S m.trans (emitP m) (seqO obs) hA
          (emitP_nonneg m hB) (obs.length - 1) 0 z) hp
      have hp' := pathW_supp m seqs hex hne hval obs hobs z hp
      obtain ⟨hi0', hp0'⟩ := qpos_split _ _ (hI' (z 0))
        (pathF_nonneg m.S ((mStep m seqs).trans) (emitP (mStep m seqs))
          (seqO obs) hA' hB' (obs.length - 1) 0 z) hp'
      have hlogW : Real.log ((pathW m obs z : ℚ) : ℝ) =
          Real.log ((m.init (z 0) : ℚ) : ℝ) +
            Real.log ((pathF m.S m.trans (emitP m) (seqO obs) 0
              (obs.length - 1) z : ℚ) : ℝ) := by
        have hc : ((pathW m obs z : ℚ) : ℝ) =
            ((m.init (z 0) : ℚ) : ℝ) *
              ((pathF m.S m.trans (emitP m) (seqO obs) 0
                (obs.length - 1) z : ℚ) : ℝ) := by
          show ((m.init (z 0) * pathF m.S m.trans (emitP m) (seqO obs) 0
            (obs.length - 1) z : ℚ) : ℝ) = _
          push_cast
          rfl
        rw [hc, Real.log_mul (ne_of_gt (by exact_mod_cast hi0))
          (ne_of_gt (by exact_mod_cast hp0))]
      have hlogW' : Real.log ((pathW (mStep m seqs) obs z : ℚ) : ℝ) =
          Real.log (((mStep m seqs).init (z 0) : ℚ) : ℝ) +
            Real.log ((pathF m.S ((mStep m seqs).trans)
              (emitP (mStep m seqs)) (seqO obs) 0
              (obs.length - 1) z : ℚ) : ℝ) := by
        have hc : ((pathW (mStep m seqs) obs z : ℚ) : ℝ) =
            (((mStep m seqs).init (z 0) : ℚ) : ℝ) *
              ((pathF m.S ((mStep m seqs).trans) (emitP (mStep m seqs))
                (seqO obs) 0 (obs.length - 1) z : ℚ) : ℝ) := by
          show (((mStep m seqs).init (z 0) *
            pathF m.S ((mStep m seqs).trans) (emitP (mStep m seqs))
              (seqO obs) 0 (obs.length - 1) z : ℚ) : ℝ) = _
          push_cast
          rfl
        rw [hc, Real.log_mul (ne_of_gt (by exact_mod_cast hi0'))
          (ne_of_gt (by exact_mod_cast hp0'))]
      have hlogF := pathF_log m.S m.trans (emitP m) (seqO obs) hA
        (emitP_nonneg m hB) (obs.length - 1) 0 z hp0
      have hlogF' := pathF_log m.S ((mStep m seqs).trans)
        (emitP (mStep m seqs)) (seqO obs) hA' hB' (obs.length - 1) 0 z hp0'
      rw [hlogW, hlogW', hlogF, hlogF', Finset.sum_sub_distrib,
        Finset.sum_sub_distrib]
      ring
  have hWD : (∑ z : Fin (obs.length - 1 + 1) → Fin m.S,
      ((pathW m obs z : ℚ) : ℝ) *
        ((Real.log (((mStep m seqs).init (z 0) : ℚ) : ℝ) -
            Real.log ((m.init (z 0) : ℚ) : ℝ)) +
          ((∑ i : Fin (obs.length - 1),
              (Real.log (((mStep m seqs).trans (z i.succ) (z i.castSucc)
                  : ℚ) : ℝ) -
                Real.log ((m.trans (z i.succ) (z i.castSucc) : ℚ) : ℝ))) +
            (∑ i : Fin (obs.length - 1 + 1),
              (Real.log ((emitP (mStep m seqs) (z i)
                  (seqO obs (0 + i.val)) : ℚ) : ℝ) -
                Real.log ((emitP m (z i)
                  (seqO obs (0 + i.val)) : ℚ) : ℝ)))))) =
      ((∑ s, ((initAcc m obs s : ℚ) : ℝ) *
          (Real.log (((mStep m seqs).init s : ℚ) : ℝ) -
            Real.log ((m.init s : ℚ) : ℝ))) +
        ((∑ a, ∑ b, ((transNum m obs a b : ℚ) : ℝ) *
          (Real.log (((mStep m seqs).trans a b : ℚ) : ℝ) -
            Real.log ((m.trans a b : ℚ) : ℝ))) +
        (∑ t ∈ Finset.range obs.length, ∑ s,
          ((gammaS m (seqO obs) obs.length t s : ℚ) : ℝ) *
          (Real.log ((emitP (mStep m seqs) s (seqO obs t) : ℚ) : ℝ) -
            Real.log ((emitP m s (seqO obs t) : ℚ) : ℝ))))) *
        ((∏ r ∈ Finset.range obs.length, sigma m (seqO obs) r : ℚ) : ℝ) := by
    calc (∑ z : Fin (obs.length - 1 + 1) → Fin m.S,
            ((pathW m obs z : ℚ) : ℝ) * (_ + (_ + _)))
        = (∑ z : Fin (obs.length - 1 + 1) → Fin m.S,
            ((pathW m obs z : ℚ) : ℝ) *
              (Real.log (((mStep m seqs).init (z 0) : ℚ) : ℝ) -
                Real.log ((m.init (z 0) : ℚ) : ℝ))) +
          ((∑ z : Fin (obs.length - 1 + 1) → Fin m.S,
            ((pathW m obs z : ℚ) : ℝ) *
              ∑ i : Fin (obs.length - 1),
                (Real.log (((mStep m seqs).trans (z i.succ) (z i.castSucc)
                    : ℚ) : ℝ) -
                  Real.log ((m.trans (z i.succ) (z i.castSucc) : ℚ) : ℝ))) +
          (∑ z : Fin (obs.length - 1 + 1) → Fin m.S,
            ((pathW m obs z : ℚ) : ℝ) *
              ∑ i : Fin (obs.length - 1 + 1),
                (Real.log ((emitP (mStep m seqs) (z i)
                    (seqO obs (0 + i.val)) : ℚ) : ℝ) -
                  Real.log ((emitP m (z i)
                    (seqO obs (0 + i.val)) : ℚ) : ℝ)))) := by
          rw [← Finset.sum_add_distrib, ← Finset.sum_add_distrib]
          exact Finset.sum_congr rfl fun z _ => by ring
    _ = _ := by
        rw [decomp_init m seqs obs hT hsig, decomp_trans m seqs obs hT hsig,
          decomp_emit m seqs obs hT hsig]
        ring
  have hregroup := emit_regroup m obs hsym
    (fun s k => Real.log ((emitP (mStep m seqs) s k : ℚ) : ℝ) -
      Real.log ((emitP m s k : ℚ) : ℝ))
  have hPne : ((∏ r ∈ Finset.range obs.length, sigma m (seqO obs) r
      : ℚ) : ℝ) ≠ 0 := by
    exact_mod_cast ne_of_gt hPpos
  have hqD : (∑ z : Fin (obs.length - 1 + 1) → Fin m.S,
      ((pathW m obs z : ℚ) : ℝ) / ((pathLik m obs : ℚ) : ℝ) *
        ((Real.log (((mStep m seqs).init (z 0) : ℚ) : ℝ) -
            Real.log ((m.init (z 0) : ℚ) : ℝ)) +
          ((∑ i : Fin (obs.length - 1),
              (Real.log (((mStep m seqs).trans (z i.succ) (z i.castSucc)
                  : ℚ) : ℝ) -
                Real.log ((m.trans (z i.succ) (z i.castSucc) : ℚ) : ℝ))) +
            (∑ i : Fin (obs.length - 1 + 1),
              (Real.log ((emitP (mStep m seqs) (z i)
                  (seqO obs (0 + i.val)) : ℚ) : ℝ) -
                Real.log ((emitP m (z i)
                  (seqO obs (0 + i.val)) : ℚ) : ℝ)))))) =
      (∑ s, ((initAcc m obs s : ℚ) : ℝ) *
          (Real.log (((mStep m seqs).init s : ℚ) : ℝ) -
            Real.log ((m.init s : ℚ) : ℝ))) +
        (∑ a, ∑ b, ((transNum m obs a b : ℚ) : ℝ) *
          (Real.log (((mStep m seqs).trans a b : ℚ) : ℝ) -
            Real.log ((m.trans a b : ℚ) : ℝ))) +
        (∑ s, ∑ k : Fin m.K, ((emitNum m obs s k : ℚ) : ℝ) *
          (Real.log ((emitP (mStep m seqs) s k.val : ℚ) : ℝ) -
            Real.log ((emitP m s k.val : ℚ) : ℝ))) := by
    calc (∑ z : Fin (obs.length - 1 + 1) → Fin m.S,
            ((pathW m obs z : ℚ) : ℝ) / ((pathLik m obs : ℚ) : ℝ) * _)
        = (∑ z : Fin (obs.length - 1 + 1) → Fin m.S,
            ((pathW m obs z : ℚ) : ℝ) *
              ((Real.log (((mStep m seqs).init (z 0) : ℚ) : ℝ) -
                  Real.log ((m.init (z 0) : ℚ) : ℝ)) +
                ((∑ i : Fin (obs.length - 1),
                    (Real.log (((mStep m seqs).trans (z i.succ)
                        (z i.castSucc) : ℚ) : ℝ) -
                      Real.log ((m.trans (z i.succ) (z i.castSucc)
                        : ℚ) : ℝ))) +
                  (∑ i : Fin (obs.length - 1 + 1),
                    (Real.log ((emitP (mStep m seqs) (z i)
                        (seqO obs (0 + i.val)) : ℚ) : ℝ) -
                      Real.log ((emitP m (z i)
                        (seqO obs (0 + i.val)) : ℚ) : ℝ))))) /
              ((pathLik m obs : ℚ) : ℝ)) :=
          Finset.sum_congr rfl fun z _ => div_mul_eq_mul_div _ _ _
    _ = (∑ z : Fin (obs.length - 1 + 1) → Fin m.S,
            ((pathW m obs z : ℚ) : ℝ) *
              ((Real.log (((mStep m seqs).init (z 0) : ℚ) : ℝ) -
                  Real.log ((m.init (z 0) : ℚ) : ℝ)) +
                ((∑ i : Fin (obs.length - 1),
                    (Real.log (((mStep m seqs).trans (z i.succ)
                        (z i.castSucc) : ℚ) : ℝ) -
                      Real.log ((m.trans (z i.succ) (z i.castSucc)
                        : ℚ) : ℝ))) +
                  (∑ i : Fin (obs.length - 1 + 1),
                    (Real.log ((emitP (mStep m seqs) (z i)
                        (seqO obs (0 + i.val)) : ℚ) : ℝ) -
                      Real.log ((emitP m (z i)
                        (seqO obs (0 + i.val)) : ℚ) : ℝ)))))) /
              ((pathLik m obs : ℚ) : ℝ) :=
          (Finset.sum_div _ _ _).symm
    _ = _ := by
        rw [hWD, hPL, mul_div_assoc, div_self hPne, mul_one, hregroup]
        ring
  rw [← hqD, ← hDeq]
  refine ⟨hPL'pos, ?_⟩
  linarith [hrel]

/-! ### Batch assembly helpers -/

lemma gammaS_ne_alphaT (m : Model) (O : ℕ → ℕ) (T t : ℕ) (s : Fin m.S)
    (h : gammaS m O T t s ≠ 0) : alphaT m O t s ≠ 0 := by
  intro hz
  apply h
  unfold gammaS alphaS
  rw [hz, zero_div, zero_mul, zero_div]

lemma alphaT_ne_emitP (m : Model) (O : ℕ → ℕ) (t : ℕ) (s : Fin m.S)
    (h : alphaT m O t s ≠ 0) : emitP m s (O t) ≠ 0 := by
  intro hz
  apply h
  cases t with
  | zero =>
      show m.init s * emitP m s (O 0) = 0
      rw [hz, mul_zero]
  | succ t =>
      rw [alphaT_succ, hz, zero_mul]

lemma xiS_ne_trans (m : Model) (O : ℕ → ℕ) (T t : ℕ) (i j : Fin m.S)
    (h : xiS m O T t i j ≠ 0) : m.trans i j ≠ 0 := by
  intro hz
  apply h
  unfold xiS
  rw [hz, mul_zero, zero_mul, zero_mul]

lemma initAcc_ne_init (m : Model) (obs : List ℕ) (s : Fin m.S)
    (h : initAcc m obs s ≠ 0) : m.init s ≠ 0 := by
  intro hz
  have h1 : alphaT m (seqO obs) 0 s ≠ 0 :=
    gammaS_ne_alphaT m (seqO obs) obs.length 0 s h
  apply h1
  show m.init s * emitP m s (seqO obs 0) = 0
  rw [hz, zero_mul]

lemma cast_list_sum (l : List ℚ) :
    ((l.sum : ℚ) : ℝ) = (l.map (fun q : ℚ => (q : ℝ))).sum := by
  induction l with
  | nil => norm_num
  | cons a l ih =>
      rw [List.sum_cons, List.map_cons, List.sum_cons, ← ih]
      push_cast
      rfl

lemma list_sum_map_add (l : List (List ℕ)) (f g : List ℕ → ℝ) :
    (l.map (fun o => f o + g o)).sum = (l.map f).sum + (l.map g).sum := by
  induction l with
  | nil => norm_num
  | cons a l ih =>
      rw [List.map_cons, List.sum_cons, List.map_cons, List.sum_cons,
        List.map_cons, List.sum_cons, ih]
      ring

lemma list_sum_finswap {ι : Type} [Fintype ι] (l : List (List ℕ))
    (F : List ℕ → ι → ℝ) :
    (l.map (fun o => ∑ s, F o s)).sum = ∑ s, (l.map (fun o => F o s)).sum := by
  induction l with
  | nil =>
      rw [List.map_nil, List.sum_nil, Finset.sum_congr rfl
        (fun s _ => by rw [List.map_nil, List.sum_nil]), Finset.sum_const,
        smul_zero]
  | cons a l ih =>
      rw [List.map_cons, List.sum_cons, ih, ← Finset.sum_add_distrib]
      refine Finset.sum_congr rfl ?_
      intro s _
      rw [List.map_cons, List.sum_cons]

lemma list_sum_map_mul_right (l : List (List ℕ)) (f : List ℕ → ℝ) (c : ℝ) :
    (l.map (fun o => f o * c)).sum = (l.map f).sum * c := by
  induction l with
  | nil => norm_num
  | cons a l ih =>
      rw [List.map_cons, List.sum_cons, List.map_cons, List.sum_cons, ih]
      ring

lemma pathLik_pos (m : Model) (obs : List ℕ) (hT : 1 ≤ obs.length)
    (hI : ∀ s, 0 ≤ m.init s) (hA : ∀ i j, 0 ≤ m.trans i j)
    (hB : ∀ s k, 0 ≤ m.emit s k)
    (hs : ∀ t < obs.length, sigma m (seqO obs) t ≠ 0) :
    0 < pathLik m obs := by
  rw [pathLik_eq_prod m obs hT hs]
  refine Finset.prod_pos ?_
  intro r hr
  exact lt_of_le_of_ne (sigma_nonneg m (seqO obs) hI hA hB r)
    (Ne.symm (hs r (Finset.mem_range.mp hr)))

lemma prodLik_eq (m : Model) (seqs : List (List ℕ))
    (hval : GoodBatch m seqs) :
    prodLik m seqs = (seqs.map (fun o => pathLik m o)).prod := by
  unfold prodLik
  congr 1
  refine List.map_congr_left ?_
  intro o ho
  have h1 := hval o ho
  have hone : o ≠ [] := by
    intro hnil
    rw [hnil] at h1
    exact absurd h1.1 (by norm_num)
  rw [likelihoodE_ok_of m o hone h1.2.1 h1.2.2,
    pathLik_eq_prod m o h1.1 h1.2.2]

lemma log_list_prod (l : List ℚ) (hpos : ∀ x ∈ l, 0 < x) :
    Real.log ((l.prod : ℚ) : ℝ) =
      (l.map (fun q : ℚ => Real.log ((q : ℚ) : ℝ))).sum := by
  induction l with
  | nil =>
      rw [List.prod_nil, List.map_nil, List.sum_nil]
      norm_num
  | cons a l ih =>
      have hane : ((a : ℚ) : ℝ) ≠ 0 := by
        have := hpos a (by simp)
        exact_mod_cast ne_of_gt this
      have hlpos : 0 < l.prod := List.prod_pos fun x hx => hpos x (by simp [hx])
      have hlne : ((l.prod : ℚ) : ℝ) ≠ 0 := by
        exact_mod_cast ne_of_gt hlpos
      rw [List.prod_cons, List.map_cons, List.sum_cons, Rat.cast_mul,
        Real.log_mul hane hlne, ih (fun x hx => hpos x (by simp [hx]))]

/-- The pooled initial-state block is non-negative (Gibbs). -/
lemma gibbs_init (m : Model) (seqs : List (List ℕ)) (hex : ExactStoch m)
    (hne : seqs ≠ []) (hval : GoodBatch m seqs) :
    0 ≤ ∑ s, ((initAccL m seqs s : ℚ) : ℝ) *
      (Real.log (((mStep m seqs).init s : ℚ) : ℝ) -
        Real.log ((m.init s : ℚ) : ℝ)) := by
  have hI : ∀ s, 0 ≤ m.init s := hex.1
  have hA : ∀ i j, 0 ≤ m.trans i j := fun i j => (hex.2.2.1 j).1 i
  have hB : ∀ s k, 0 ≤ m.emit s k := fun s k => (hex.2.2.2 s).1 k
  have hN := initAccL_sum m seqs hval
  have hsum : (∑ j, ((initAccL m seqs j : ℚ) : ℝ)) =
      ((seqs.length : ℚ) : ℝ) := by
    rw [← Rat.cast_sum, hN]
  have h1 : (∑ i, m.init i) = 1 := hex.2.1
  have gb := gibbs_block (fun s => ((initAccL m seqs s : ℚ) : ℝ))
    (fun s => ((m.init s : ℚ) : ℝ))
    (fun s => by dsimp only; exact_mod_cast initAccL_nonneg m seqs hI hA hB s)
    (fun s => by dsimp only; exact_mod_cast hI s)
    (by rw [← Rat.cast_sum]; exact_mod_cast h1)
    (fun s hws => by
      dsimp only at hws ⊢
      have hq : initAccL m seqs s ≠ 0 := by
        intro hz
        rw [hz] at hws
        norm_num at hws
      have hone : ∃ o ∈ seqs, initAcc m o s ≠ 0 := by
        by_contra hall
        push_neg at hall
        apply hq
        unfold initAccL
        refine List.sum_eq_zero ?_
        intro x hx
        obtain ⟨o, ho, rfl⟩ := List.mem_map.mp hx
        exact hall o ho
      obtain ⟨o, ho, hone⟩ := hone
      have hin := initAcc_ne_init m o s hone
      exact_mod_cast lt_of_le_of_ne (hI s) (Ne.symm hin))
    (by rw [hsum]; exact_mod_cast lengthQ_pos seqs hne)
  refine le_trans gb (le_of_eq ?_)
  refine Finset.sum_congr rfl ?_
  intro s _
  rw [hsum, mStep_init_eq m seqs hne hval s, Rat.cast_div]

/-- The pooled transition block is non-negative (Gibbs per column). -/
lemma gibbs_trans (m : Model) (seqs : List (List ℕ)) (hex : ExactStoch m)
    (hval : GoodBatch m seqs) :
    0 ≤ ∑ a, ∑ b, ((transNumL m seqs a b : ℚ) : ℝ) *
      (Real.log (((mStep m seqs).trans a b : ℚ) : ℝ) -
        Real.log ((m.trans a b : ℚ) : ℝ)) := by
  have hI : ∀ s, 0 ≤ m.init s := hex.1
  have hA : ∀ i j, 0 ≤ m.trans i j := fun i j => (hex.2.2.1 j).1 i
  have hB : ∀ s k, 0 ≤ m.emit s k := fun s k => (hex.2.2.2 s).1 k
  rw [Finset.sum_comm]
  refine Finset.sum_nonneg ?_
  intro b _
  by_cases hd : transDenL m seqs b = 0
  · refine le_of_eq (Finset.sum_eq_zero ?_).symm
    intro a _
    have hsum0 : (∑ a, transNumL m seqs a b) = 0 :=
      (transNumL_sum m seqs hval b).trans hd
    have hz := (Finset.sum_eq_zero_iff_of_nonneg
      (fun a _ => transNumL_nonneg m seqs hI hA hB a b)).mp hsum0 a
      (Finset.mem_univ a)
    rw [hz]
    norm_num
  · have hcol := transNumL_sum m seqs hval b
    have hsum : (∑ a, ((transNumL m seqs a b : ℚ) : ℝ)) =
        ((transDenL m seqs b : ℚ) : ℝ) := by
      rw [← Rat.cast_sum, hcol]
    have h1 : (∑ i, m.trans i b) = 1 := (hex.2.2.1 b).2
    have gb := gibbs_block (fun a => ((transNumL m seqs a b : ℚ) : ℝ))
      (fun a => ((m.trans a b : ℚ) : ℝ))
      (fun a => by dsimp only; exact_mod_cast transNumL_nonneg m seqs hI hA hB a b)
      (fun a => by dsimp only; exact_mod_cast hA a b)
      (by rw [← Rat.cast_sum]; exact_mod_cast h1)
      (fun a hws => by
        dsimp only at hws ⊢
        have hq : transNumL m seqs a b ≠ 0 := by
          intro hz
          rw [hz] at hws
          norm_num at hws
        have hone : ∃ o ∈ seqs, transNum m o a b ≠ 0 := by
          by_contra hall
          push_neg at hall
          apply hq
          unfold transNumL
          refine List.sum_eq_zero ?_
          intro x hx
          obtain ⟨o, ho, rfl⟩ := List.mem_map.mp hx
          exact hall o ho
        obtain ⟨o, ho, hone⟩ := hone
        obtain ⟨t, _, ht⟩ := Finset.exists_ne_zero_of_sum_ne_zero hone
        have htr := xiS_ne_trans m (seqO o) o.length t a b ht
        exact_mod_cast lt_of_le_of_ne (hA a b) (Ne.symm htr))
      (by
        rw [hsum]
        exact_mod_cast lt_of_le_of_ne (transDenL_nonneg m seqs hI hA hB b)
          (Ne.symm hd))
    refine le_trans gb (le_of_eq ?_)
    refine Finset.sum_congr rfl ?_
    intro a _
    rw [hsum, mStep_trans_eq m seqs hval a b hd, Rat.cast_div]

/-- The pooled emission block is non-negative (Gibbs per row). -/
lemma gibbs_emit (m : Model) (seqs : List (List ℕ)) (hex : ExactStoch m)
    (hval : GoodBatch m seqs) :
    0 ≤ ∑ s, ∑ k : Fin m.K, ((emitNumL m seqs s k : ℚ) : ℝ) *
      (Real.log ((emitP (mStep m seqs) s k.val : ℚ) : ℝ) -
        Real.log ((emitP m s k.val : ℚ) : ℝ)) := by
  have hI : ∀ s, 0 ≤ m.init s := hex.1
  have hA : ∀ i j, 0 ≤ m.trans i j := fun i j => (hex.2.2.1 j).1 i
  have hB : ∀ s k, 0 ≤ m.emit s k := fun s k => (hex.2.2.2 s).1 k
  refine Finset.sum_nonneg ?_
  intro s _
  have hPe : ∀ k : Fin m.K, emitP m s k.val = m.emit s k := fun k => by
    rw [emitP_eq m s k.val k.isLt]
  have hPe' : ∀ k : Fin m.K,
      emitP (mStep m seqs) s k.val = (mStep m seqs).emit s k := fun k => by
    rw [emitP_eq (mStep m seqs) s k.val k.isLt]
    rfl
  by_cases hd : emitDenL m seqs s = 0
  · refine le_of_eq (Finset.sum_eq_zero ?_).symm
    intro k _
    have hsum0 : (∑ k, emitNumL m seqs s k) = 0 :=
      (emitNumL_sum m seqs hval s).trans hd
    have hz := (Finset.sum_eq_zero_iff_of_nonneg
      (fun k _ => emitNumL_nonneg m seqs hI hA hB s k)).mp hsum0 k
      (Finset.mem_univ k)
    rw [hz]
    norm_num
  · have hrow := emitNumL_sum m seqs hval s
    have hsum : (∑ k, ((emitNumL m seqs s k : ℚ) : ℝ)) =
        ((emitDenL m seqs s : ℚ) : ℝ) := by
      rw [← Rat.cast_sum, hrow]
    have h1 : (∑ k, m.emit s k) = 1 := (hex.2.2.2 s).2
    have gb := gibbs_block (fun k : Fin m.K => ((emitNumL m seqs s k : ℚ) : ℝ))
      (fun k => ((m.emit s k : ℚ) : ℝ))
      (fun k => by dsimp only; exact_mod_cast emitNumL_nonneg m seqs hI hA hB s k)
      (fun k => by dsimp only; exact_mod_cast hB s k)
      (by rw [← Rat.cast_sum]; exact_mod_cast h1)
      (fun k hws => by
        dsimp only at hws ⊢
        have hq : emitNumL m seqs s k ≠ 0 := by
          intro hz
          rw [hz] at hws
          norm_num at hws
        have hone : ∃ o ∈ seqs, emitNum m o s k ≠ 0 := by
          by_contra hall
          push_neg at hall
          apply hq
          unfold emitNumL
          refine List.sum_eq_zero ?_
          intro x hx
          obtain ⟨o, ho, rfl⟩ := List.mem_map.mp hx
          exact hall o ho
        obtain ⟨o, ho, hone⟩ := hone
        obtain ⟨t, _, ht⟩ := Finset.exists_ne_zero_of_sum_ne_zero hone
        have hcond : seqO o t = k.val ∧
            gammaS m (seqO o) o.length t s ≠ 0 := by
          by_cases hc : seqO o t = k.val
          · refine ⟨hc, ?_⟩
            intro hγ
            apply ht
            rw [if_pos hc, hγ]
          · exfalso
            apply ht
            rw [if_neg hc]
        have hα := gammaS_ne_alphaT m (seqO o) o.length t s hcond.2
        have hem := alphaT_ne_emitP m (seqO o) t s hα
        rw [hcond.1] at hem
        rw [← hPe k]
        exact_mod_cast lt_of_le_of_ne (emitP_nonneg m hB s k.val)
          (Ne.symm hem))
      (by
        rw [hsum]
        exact_mod_cast lt_of_le_of_ne (emitDenL_nonneg m seqs hI hA hB s)
          (Ne.symm hd))
    refine le_trans gb (le_of_eq ?_)
    refine Finset.sum_congr rfl ?_
    intro k _
    rw [hsum, hPe k, hPe' k, mStep_emit_eq m seqs hval s k hd, Rat.cast_div]

lemma list_sum_le_sum (l : List (List ℕ)) (f g : List ℕ → ℝ)
    (h : ∀ o ∈ l, f o ≤ g o) : (l.map f).sum ≤ (l.map g).sum := by
  induction l with
  | nil => exact le_refl 0
  | cons a l ih =>
      rw [List.map_cons, List.sum_cons, List.map_cons, List.sum_cons]
      exact add_le_add (h a (by simp))
        (ih fun o ho => h o (by simp [ho]))

lemma cast_list_sum_map (l : List (List ℕ)) (f : List ℕ → ℚ) :
    (((l.map f).sum : ℚ) : ℝ) = (l.map (fun o => ((f o : ℚ) : ℝ))).sum := by
  induction l with
  | nil => norm_num
  | cons a l ih =>
      rw [List.map_cons, List.sum_cons, List.map_cons, List.sum_cons, ← ih]
      push_cast
      rfl

/-- One successful Baum-Welch iteration from an exactly stochastic model
never decreases the product of the per-sequence likelihoods. -/
lemma bw_step_mono (m : Model) (seqs : List (List ℕ)) (m' : Model)
    (hex : ExactStoch m) (hok : bwStep m seqs = Except.ok m') :
    Real.log ((prodLik m seqs : ℚ) : ℝ) ≤
      Real.log ((prodLik m' seqs : ℚ) : ℝ) := by
  obtain ⟨hm', hne, hval⟩ := bwStep_ok m seqs m' hok
  subst hm'
  have hI : ∀ s, 0 ≤ m.init s := hex.1
  have hA : ∀ i j, 0 ≤ m.trans i j := fun i j => (hex.2.2.1 j).1 i
  have hB : ∀ s k, 0 ≤ m.emit s k := fun s k => (hex.2.2.2 s).1 k
  have hex' := mStep_exact m seqs hex hne hval
  have hI' : ∀ s, 0 ≤ (mStep m seqs).init s := hex'.1
  have hA' : ∀ i j, 0 ≤ (mStep m seqs).trans i j :=
    fun i j => (hex'.2.2.1 j).1 i
  have hB' : ∀ s k, 0 ≤ (mStep m seqs).emit s k :=
    fun s k => (hex'.2.2.2 s).1 k
  have hbound := fun o (ho : o ∈ seqs) => seq_em_bound m seqs hex hne hval o ho
  have hval' : GoodBatch (mStep m seqs) seqs := by
    intro o ho
    refine ⟨(hval o ho).1, ?_, ?_⟩
    · intro sym hs
      exact (hval o ho).2.1 sym hs
    · exact pathLik_pos_sigma (mStep m seqs) o (hval o ho).1 hI' hA' hB'
        (hbound o ho).1
  have hprod : prodLik m seqs = (seqs.map (fun o => pathLik m o)).prod :=
    prodLik_eq m seqs hval
  have hprod' : prodLik (mStep m seqs) seqs =
      (seqs.map (fun o => pathLik (mStep m seqs) o)).prod :=
    prodLik_eq (mStep m seqs) seqs hval'
  have hpos : ∀ x ∈ seqs.map (fun o => pathLik m o), 0 < x := by
    intro x hx
    obtain ⟨o, ho, rfl⟩ := List.mem_map.mp hx
    exact pathLik_pos m o (hval o ho).1 hI hA hB (hval o ho).2.2
  have hpos' : ∀ x ∈ seqs.map (fun o => pathLik (mStep m seqs) o), 0 < x := by
    intro x hx
    obtain ⟨o, ho, rfl⟩ := List.mem_map.mp hx
    exact (hbound o ho).1
  have hlogL : Real.log ((prodLik m seqs : ℚ) : ℝ) =
      (seqs.map (fun o => Real.log ((pathLik m o : ℚ) : ℝ))).sum := by
    rw [hprod, log_list_prod _ hpos, List.map_map]
    rfl
  have hlogL' : Real.log ((prodLik (mStep m seqs) seqs : ℚ) : ℝ) =
      (seqs.map (fun o =>
        Real.log ((pathLik (mStep m seqs) o : ℚ) : ℝ))).sum := by
    rw [hprod', log_list_prod _ hpos', List.map_map]
    rfl
  have hBinit : (seqs.map (fun o => ∑ s, ((initAcc m o s : ℚ) : ℝ) *
      (Real.log (((mStep m seqs).init s : ℚ) : ℝ) -
        Real.log ((m.init s : ℚ) : ℝ)))).sum =
      ∑ s, ((initAccL m seqs s : ℚ) : ℝ) *
        (Real.log (((mStep m seqs).init s : ℚ) : ℝ) -
          Real.log ((m.init s : ℚ) : ℝ)) := by
    rw [list_sum_finswap]
    refine Finset.sum_congr rfl ?_
    intro s _
    rw [list_sum_map_mul_right]
    congr 1
    exact (cast_list_sum_map seqs (fun o => initAcc m o s)).symm
  have hBtrans : (seqs.map (fun o => ∑ a, ∑ b,
      ((transNum m o a b : ℚ) : ℝ) *
      (Real.log (((mStep m seqs).trans a b : ℚ) : ℝ) -
        Real.log ((m.trans a b : ℚ) : ℝ)))).sum =
      ∑ a, ∑ b, ((transNumL m seqs a b : ℚ) : ℝ) *
        (Real.log (((mStep m seqs).trans a b : ℚ) : ℝ) -
          Real.log ((m.trans a b : ℚ) : ℝ)) := by
    rw [list_sum_finswap]
    refine Finset.sum_congr rfl ?_
    intro a _
    rw [list_sum_finswap]
    refine Finset.sum_congr rfl ?_
    intro b _
    rw [list_sum_map_mul_right]
    congr 1
    exact (cast_list_sum_map seqs (fun o => transNum m o a b)).symm
  have hBemit : (seqs.map (fun o => ∑ s, ∑ k : Fin m.K,
      ((emitNum m o s k : ℚ) : ℝ) *
      (Real.log ((emitP (mStep m seqs) s k.val : ℚ) : ℝ) -
        Real.log ((emitP m s k.val : ℚ) : ℝ)))).sum =
      ∑ s, ∑ k : Fin m.K, ((emitNumL m seqs s k : ℚ) : ℝ) *
        (Real.log ((emitP (mStep m seqs) s k.val : ℚ) : ℝ) -
          Real.log ((emitP m s k.val : ℚ) : ℝ)) := by
    rw [list_sum_finswap]
    refine Finset.sum_congr rfl ?_
    intro s _
    rw [list_sum_finswap]
    refine Finset.sum_congr rfl ?_
    intro k _
    rw [list_sum_map_mul_right]
    congr 1
    exact (cast_list_sum_map seqs (fun o => emitNum m o s k)).symm
  have hblocksum : 0 ≤ (seqs.map (fun o =>
      (∑ s, ((initAcc m o s : ℚ) : ℝ) *
          (Real.log (((mStep m seqs).init s : ℚ) : ℝ) -
            Real.log ((m.init s : ℚ) : ℝ))) +
        (∑ a, ∑ b, ((transNum m o a b : ℚ) : ℝ) *
          (Real.log (((mStep m seqs).trans a b : ℚ) : ℝ) -
            Real.log ((m.trans a b : ℚ) : ℝ))) +
        (∑ s, ∑ k : Fin m.K, ((emitNum m o s k : ℚ) : ℝ) *
          (Real.log ((emitP (mStep m seqs) s k.val : ℚ) : ℝ) -
            Real.log ((emitP m s k.val : ℚ) : ℝ))))).sum := by
    have hsplit1 : (seqs.map (fun o =>
        (∑ s, ((initAcc m o s : ℚ) : ℝ) *
            (Real.log (((mStep m seqs).init s : ℚ) : ℝ) -
              Real.log ((m.init s : ℚ) : ℝ))) +
          (∑ a, ∑ b, ((transNum m o a b : ℚ) : ℝ) *
            (Real.log (((mStep m seqs).trans a b : ℚ) : ℝ) -
              Real.log ((m.trans a b : ℚ) : ℝ))) +
          (∑ s, ∑ k : Fin m.K, ((emitNum m o s k : ℚ) : ℝ) *
            (Real.log ((emitP (mStep m seqs) s k.val : ℚ) : ℝ) -
              Real.log ((emitP m s k.val : ℚ) : ℝ))))).sum =
        (seqs.map (fun o =>
          (∑ s, ((initAcc m o s : ℚ) : ℝ) *
            (Real.log (((mStep m seqs).init s : ℚ) : ℝ) -
              Real.log ((m.init s : ℚ) : ℝ))) +
          (∑ a, ∑ b, ((transNum m o a b : ℚ) : ℝ) *
            (Real.log (((mStep m seqs).trans a b : ℚ) : ℝ) -
              Real.log ((m.trans a b : ℚ) : ℝ))))).sum +
        (seqs.map (fun o =>
          ∑ s, ∑ k : Fin m.K, ((emitNum m o s k : ℚ) : ℝ) *
            (Real.log ((emitP (mStep m seqs) s k.val : ℚ) : ℝ) -
              Real.log ((emitP m s k.val : ℚ) : ℝ)))).sum :=
      list_sum_map_add seqs _ _
    have hsplit2 : (seqs.map (fun o =>
        (∑ s, ((initAcc m o s : ℚ) : ℝ) *
          (Real.log (((mStep m seqs).init s : ℚ) : ℝ) -
            Real.log ((m.init s : ℚ) : ℝ))) +
        (∑ a, ∑ b, ((transNum m o a b : ℚ) : ℝ) *
          (Real.log (((mStep m seqs).trans a b : ℚ) : ℝ) -
            Real.log ((m.trans a b : ℚ) : ℝ))))).sum =
        (seqs.map (fun o =>
          ∑ s, ((initAcc m o s : ℚ) : ℝ) *
            (Real.log (((mStep m seqs).init s : ℚ) : ℝ) -
              Real.log ((m.init s : ℚ) : ℝ)))).sum +
        (seqs.map (fun o =>
          ∑ a, ∑ b, ((transNum m o a b : ℚ) : ℝ) *
            (Real.log (((mStep m seqs).trans a b : ℚ) : ℝ) -
              Real.log ((m.trans a b : ℚ) : ℝ)))).sum :=
      list_sum_map_add seqs _ _
    rw [hsplit1, hsplit2, hBinit, hBtrans, hBemit]
    have g1 := gibbs_init m seqs hex hne hval
    have g2 := gibbs_trans m seqs hex hval
    have g3 := gibbs_emit m seqs hex hval
    linarith
  calc Real.log ((prodLik m seqs : ℚ) : ℝ)
      = (seqs.map (fun o => Real.log ((pathLik m o : ℚ) : ℝ))).sum := hlogL
  _ ≤ (seqs.map (fun o => Real.log ((pathLik m o : ℚ) : ℝ))).sum +
        (seqs.map (fun o =>
          (∑ s, ((initAcc m o s : ℚ) : ℝ) *
              (Real.log (((mStep m seqs).init s : ℚ) : ℝ) -
                Real.log ((m.init s : ℚ) : ℝ))) +
            (∑ a, ∑ b, ((transNum m o a b : ℚ) : ℝ) *
              (Real.log (((mStep m seqs).trans a b : ℚ) : ℝ) -
                Real.log ((m.trans a b : ℚ) : ℝ))) +
            (∑ s, ∑ k : Fin m.K, ((emitNum m o s k : ℚ) : ℝ) *
              (Real.log ((emitP (mStep m seqs) s k.val : ℚ) : ℝ) -
                Real.log ((emitP m s k.val : ℚ) : ℝ))))).sum :=
      le_add_of_nonneg_right hblocksum
  _ = (seqs.map (fun o => Real.log ((pathLik m o : ℚ) : ℝ) +
        ((∑ s, ((initAcc m o s : ℚ) : ℝ) *
            (Real.log (((mStep m seqs).init s : ℚ) : ℝ) -
              Real.log ((m.init s : ℚ) : ℝ))) +
          (∑ a, ∑ b, ((transNum m o a b : ℚ) : ℝ) *
            (Real.log (((mStep m seqs).trans a b : ℚ) : ℝ) -
              Real.log ((m.trans a b : ℚ) : ℝ))) +
          (∑ s, ∑ k : Fin m.K, ((emitNum m o s k : ℚ) : ℝ) *
            (Real.log ((emitP (mStep m seqs) s k.val : ℚ) : ℝ) -
              Real.log ((emitP m s k.val : ℚ) : ℝ)))))).sum :=
      (list_sum_map_add seqs _ _).symm
  _ ≤ (seqs.map (fun o =>
        Real.log ((pathLik (mStep m seqs) o : ℚ) : ℝ))).sum :=
      list_sum_le_sum seqs _ _ (fun o ho => (hbound o ho).2)
  _ = Real.log ((prodLik (mStep m seqs) seqs : ℚ) : ℝ) := hlogL'.symm

/-- Peeling the last iteration off the training loop. -/
lemma trainGo_succ (seqs : List (List ℕ)) : ∀ (n : ℕ) (m : Model),
    trainGo seqs (n + 1) m =
      match trainGo seqs n m with
      | (m', none) =>
          (match bwStep m' seqs with
            | Except.error e => (m', some e)
            | Except.ok m'' => (m'', none))
      | (m', some e) => (m', some e) := by
  intro n
  induction n with
  | zero =>
      intro m
      cases hb : bwStep m seqs with
      | error e => simp [trainGo, hb]
      | ok m1 => simp [trainGo, hb]
  | succ n ih =>
      intro m
      cases hb : bwStep m seqs with
      | error e =>
          have h1 : trainGo seqs (n + 1 + 1) m = (m, some e) := by
            rw [trainGo, hb]
          have h2 : trainGo seqs (n + 1) m = (m, some e) := by
            rw [trainGo, hb]
          rw [h1, h2]
      | ok m1 =>
          have h1 : trainGo seqs (n + 1 + 1) m = trainGo seqs (n + 1) m1 := by
            rw [trainGo, hb]
          have h2 : trainGo seqs (n + 1) m = trainGo seqs n m1 := by
            rw [trainGo, hb]
          rw [h1, h2, ih m1]

/-- Training preserves exact stochasticity. -/
lemma trainGo_exact (seqs : List (List ℕ)) :
    ∀ (n : ℕ) (m : Model), ExactStoch m → ExactStoch (trainGo seqs n m).1 := by
  intro n
  induction n with
  | zero =>
      intro m hm
      exact hm
  | succ n ih =>
      intro m hm
      cases hb : bwStep m seqs with
      | error e =>
          have heq : trainGo seqs (n + 1) m = (m, some e) := by
            rw [trainGo, hb]
          rw [heq]
          exact hm
      | ok m' =>
          have heq : trainGo seqs (n + 1) m = trainGo seqs n m' := by
            rw [trainGo, hb]
          rw [heq]
          obtain ⟨hm', hne, hval⟩ := bwStep_ok m seqs m' hb
          exact ih m' (hm' ▸ mStep_exact m seqs hm hne hval)

/-- Monotonicity across one more iteration of the training loop. -/
lemma trainGo_mono (seqs : List (List ℕ)) (n : ℕ) (m : Model)
    (hex : ExactStoch m) :
    Real.log ((prodLik (trainGo seqs n m).1 seqs : ℚ) : ℝ) ≤
      Real.log ((prodLik (trainGo seqs (n + 1) m).1 seqs : ℚ) : ℝ) := by
  have hex_n := trainGo_exact seqs n m hex
  rcases htr : trainGo seqs n m with ⟨m1, err⟩
  rw [htr] at hex_n
  cases err with
  | some e =>
      have h1 : trainGo seqs (n + 1) m = (m1, some e) := by
        rw [trainGo_succ, htr]
      rw [h1]
  | none =>
      cases hb : bwStep m1 seqs with
      | error e =>
          have h1 : trainGo seqs (n + 1) m = (m1, some e) := by
            rw [trainGo_succ, htr]
            show (match bwStep m1 seqs with
              | Except.error e => (m1, some e)
              | Except.ok m'' => (m'', none)) = (m1, some e)
            rw [hb]
          rw [h1]
      | ok m2 =>
          have h1 : trainGo seqs (n + 1) m = (m2, none) := by
            rw [trainGo_succ, htr]
            show (match bwStep m1 seqs with
              | Except.error e => (m1, some e)
              | Except.ok m'' => (m'', none)) = (m2, none)
            rw [hb]
          rw [h1]
          exact bw_step_mono m1 seqs m2 hex_n hb

/-! ### Likelihood monotonicity across Baum-Welch iterations (claim C7)

The stochasticity tolerance of 1e-9 admits models whose parameters sum to
slightly more than 1.  On such a model the first Baum-Welch iteration
renormalizes the parameters and the log-likelihood drops by about
1.5e-9 > 1e-9: a one-state model with transition and emission entries
1 + 5e-10 over the two-symbol-long sequence [0, 0] has likelihood
(1 + 5e-10)^3 before training and exactly 1 after one iteration. -/

/-- Half the stochasticity tolerance. -/
def epsQ : ℚ := 1/2000000000

/-- A one-state, one-symbol model whose entries exceed 1 by `epsQ`: valid
within the 1e-9 tolerance but not exactly stochastic. -/
def mEps : Model := ⟨1, 1, fun _ => 1, fun _ _ => 1 + epsQ, fun _ _ => 1 + epsQ⟩

lemma meI (s : Fin mEps.S) : mEps.init s = 1 := rfl

lemma meT (s j : Fin mEps.S) : mEps.trans s j = 1 + epsQ := rfl

lemma meE (s : Fin mEps.S) : emitP mEps s 0 = 1 + epsQ := rfl

lemma sum_meps (f : Fin mEps.S → ℚ) : (∑ j, f j) = f ⟨0, Nat.zero_lt_one⟩ :=
  Fin.sum_univ_one f

lemma me_eps_ne : (1 + epsQ : ℚ) ≠ 0 := by norm_num [epsQ]

lemma me_valid : ValidModel mEps := by
  show StochVec (fun _ : Fin 1 => (1 : ℚ)) ∧
    (∀ j : Fin 1, StochVec (fun _ : Fin 1 => (1 + epsQ : ℚ))) ∧
    (∀ s : Fin 1, StochVec (fun _ : Fin 1 => (1 + epsQ : ℚ)))
  refine ⟨⟨fun i => by norm_num, ?_⟩, fun j => ⟨fun i => by norm_num [epsQ], ?_⟩,
    fun s => ⟨fun k => by norm_num [epsQ], ?_⟩⟩ <;>
    norm_num [sumV, Fin.sum_univ_one, tol, epsQ, abs_le]

lemma me_a0 (s : Fin mEps.S) : alphaT mEps (seqO [0, 0]) 0 s = 1 + epsQ := by
  show mEps.init s * emitP mEps s (seqO [0, 0] 0) = 1 + epsQ
  rw [show seqO [0, 0] 0 = 0 from rfl, meI, meE, one_mul]

lemma me_s0 : sigma mEps (seqO [0, 0]) 0 = 1 + epsQ := by
  show (∑ s, alphaT mEps (seqO [0, 0]) 0 s) = 1 + epsQ
  rw [sum_meps, me_a0]

lemma me_a1 (s : Fin mEps.S) :
    alphaT mEps (seqO [0, 0]) 1 s = (1 + epsQ) ^ 2 := by
  rw [alphaT_succ, sum_meps]
  unfold alphaS
  rw [me_a0, me_s0, show seqO [0, 0] 1 = 0 from rfl, meE, meT,
    div_self me_eps_ne]
  ring

lemma me_s1 : sigma mEps (seqO [0, 0]) 1 = (1 + epsQ) ^ 2 := by
  show (∑ s, alphaT mEps (seqO [0, 0]) 1 s) = (1 + epsQ) ^ 2
  rw [sum_meps, me_a1]

lemma me_sig_ne : ∀ t < ([0, 0] : List ℕ).length,
    sigma mEps (seqO [0, 0]) t ≠ 0 := by
  intro t ht
  have ht2 : t < 2 := ht
  interval_cases t
  · rw [me_s0]
    exact me_eps_ne
  · rw [me_s1]
    exact pow_ne_zero 2 me_eps_ne

lemma me_nozero : zeroProb mEps [0, 0] = false := by
  unfold zeroProb
  rw [show List.range ([0, 0] : List ℕ).length = [0, 1] from rfl]
  simp only [List.any_cons, List.any_nil, Bool.or_eq_false_iff,
    decide_eq_false_iff_not]
  exact ⟨me_sig_ne 0 (by norm_num), me_sig_ne 1 (by norm_num), trivial⟩

lemma me_L0 : likelihoodE mEps [0, 0] = Except.ok ((1 + epsQ) ^ 3) := by
  show (if (List.range ([0, 0] : List ℕ).length).any
        (fun t => decide (sigma mEps (seqO [0, 0]) t = 0))
      then Except.error HmmErr.ZeroProbability
      else Except.ok (∏ t ∈ Finset.range ([0, 0] : List ℕ).length,
        sigma mEps (seqO [0, 0]) t)) = _
  rw [show ((List.range ([0, 0] : List ℕ).length).any
      (fun t => decide (sigma mEps (seqO [0, 0]) t = 0))) = false
    from me_nozero]
  show Except.ok (∏ t ∈ Finset.range 2, sigma mEps (seqO [0, 0]) t) = _
  rw [Finset.prod_range_succ, Finset.prod_range_one, me_s0, me_s1]
  exact congrArg Except.ok (by ring)

lemma me_gamma (t : ℕ) (ht : t ≤ 1) (s : Fin mEps.S) :
    gammaS mEps (seqO [0, 0]) 2 t s = 1 := by
  have h := gamma_sum mEps (seqO [0, 0]) 2 t (by norm_num) (by omega)
    me_sig_ne
  rw [sum_meps] at h
  have hv : s.val < 1 := s.isLt
  rw [show s = ⟨0, Nat.zero_lt_one⟩ from Fin.ext (show s.val = 0 by omega)]
  exact h

lemma me_xi (i j : Fin mEps.S) : xiS mEps (seqO [0, 0]) 2 0 i j = 1 := by
  have h := xi_sum mEps (seqO [0, 0]) 2 0 (by norm_num) me_sig_ne j
  rw [sum_meps, me_gamma 0 (by norm_num) j] at h
  have hv : i.val < 1 := i.isLt
  rw [show i = ⟨0, Nat.zero_lt_one⟩ from Fin.ext (show i.val = 0 by omega)]
  exact h

lemma len2 : ([0, 0] : List ℕ).length = 2 := rfl

lemma me_initAccL (s : Fin mEps.S) : initAccL mEps [[0, 0]] s = 1 := by
  unfold initAccL
  rw [List.map_cons, List.map_nil, List.sum_cons, List.sum_nil]
  unfold initAcc
  rw [len2, me_gamma 0 (by norm_num) s, add_zero]

lemma me_transDenL (j : Fin mEps.S) : transDenL mEps [[0, 0]] j = 1 := by
  unfold transDenL
  rw [List.map_cons, List.map_nil, List.sum_cons, List.sum_nil]
  unfold transDen
  rw [len2, Finset.sum_range_one, me_gamma 0 (by norm_num) j, add_zero]

lemma me_transNumL (i j : Fin mEps.S) : transNumL mEps [[0, 0]] i j = 1 := by
  unfold transNumL
  rw [List.map_cons, List.map_nil, List.sum_cons, List.sum_nil]
  unfold transNum
  rw [len2, Finset.sum_range_one, me_xi i j, add_zero]

lemma me_emitDenL (s : Fin mEps.S) : emitDenL mEps [[0, 0]] s = 2 := by
  unfold emitDenL
  rw [List.map_cons, List.map_nil, List.sum_cons, List.sum_nil]
  unfold emitDen
  rw [len2, Finset.sum_range_succ, Finset.sum_range_one,
    me_gamma 0 (by norm_num) s, me_gamma 1 (by norm_num) s, add_zero]
  norm_num

lemma me_emitNumL (s : Fin mEps.S) (k : Fin mEps.K) :
    emitNumL mEps [[0, 0]] s k = 2 := by
  unfold emitNumL
  rw [List.map_cons, List.map_nil, List.sum_cons, List.sum_nil]
  unfold emitNum
  have hkv : k.val < 1 := k.isLt
  have hk : k.val = 0 := by omega
  rw [len2, Finset.sum_range_succ, Finset.sum_range_one,
    show seqO [0, 0] 0 = 0 from rfl, show seqO [0, 0] 1 = 0 from rfl, hk]
  rw [if_pos rfl, if_pos rfl, me_gamma 0 (by norm_num) s,
    me_gamma 1 (by norm_num) s, add_zero]
  norm_num

lemma sum_mepsK (f : Fin mEps.K → ℚ) : (∑ j, f j) = f ⟨0, Nat.zero_lt_one⟩ :=
  Fin.sum_univ_one f

lemma me_mstep_init (s : Fin mEps.S) : (mStep mEps [[0, 0]]).init s = 1 := by
  show normalizeV (fun s' => initAccL mEps [[0, 0]] s' /
    (([[0, 0]] : List (List ℕ)).length : ℚ)) s = 1
  have hfun : (fun s' => initAccL mEps [[0, 0]] s' /
      (([[0, 0]] : List (List ℕ)).length : ℚ)) = fun _ : Fin mEps.S => (1 : ℚ) := by
    funext s'
    rw [me_initAccL s',
      show ((([[0, 0]] : List (List ℕ)).length : ℚ)) = 1 by norm_num]
    norm_num
  rw [hfun]
  unfold normalizeV sumV
  rw [sum_meps]
  norm_num

lemma me_mstep_trans (i j : Fin mEps.S) :
    (mStep mEps [[0, 0]]).trans i j = 1 := by
  show (if transDenL mEps [[0, 0]] j = 0 then mEps.trans i j
    else normalizeV (fun i' => transNumL mEps [[0, 0]] i' j /
      transDenL mEps [[0, 0]] j) i) = 1
  rw [if_neg (by rw [me_transDenL]; norm_num)]
  have hfun : (fun i' => transNumL mEps [[0, 0]] i' j /
      transDenL mEps [[0, 0]] j) = fun _ : Fin mEps.S => (1 : ℚ) := by
    funext i'
    rw [me_transNumL i' j, me_transDenL j]
    norm_num
  rw [hfun]
  unfold normalizeV sumV
  rw [sum_meps]
  norm_num

lemma me_mstep_emit (s : Fin mEps.S) (k : Fin mEps.K) :
    (mStep mEps [[0, 0]]).emit s k = 1 := by
  show (if emitDenL mEps [[0, 0]] s = 0 then mEps.emit s k
    else normalizeV (fun k' => emitNumL mEps [[0, 0]] s k' /
      emitDenL mEps [[0, 0]] s) k) = 1
  rw [if_neg (by rw [me_emitDenL]; norm_num)]
  have hfun : (fun k' => emitNumL mEps [[0, 0]] s k' /
      emitDenL mEps [[0, 0]] s) = fun _ : Fin mEps.K => (1 : ℚ) := by
    funext k'
    rw [me_emitNumL s k', me_emitDenL s]
    norm_num
  rw [hfun]
  unfold normalizeV sumV
  rw [sum_mepsK]
  norm_num

lemma me_bwStep : bwStep mEps [[0, 0]] = Except.ok (mStep mEps [[0, 0]]) := by
  unfold bwStep
  rw [show checkSeqs mEps [[0, 0]] = none from rfl]
  rw [show (([[0, 0]] : List (List ℕ)).any fun obs => zeroProb mEps obs) =
    false by
      show (zeroProb mEps [0, 0] || false) = false
      rw [me_nozero]
      rfl]
  rfl

lemma me_train : (train mEps [[0, 0]] 1).1 = mStep mEps [[0, 0]] := by
  unfold train
  rw [show checkSeqs mEps [[0, 0]] = none from rfl, trainGo, me_bwStep]
  rfl

lemma sum_meps' (f : Fin (mStep mEps [[0, 0]]).S → ℚ) :
    (∑ j, f j) = f ⟨0, Nat.zero_lt_one⟩ :=
  Fin.sum_univ_one f

lemma emitP_pos (m : Model) (s : Fin m.S) (k : ℕ) (h : k < m.K) :
    emitP m s k = m.emit s ⟨k, h⟩ := dif_pos h

lemma me_emitP' (s : Fin (mStep mEps [[0, 0]]).S) :
    emitP (mStep mEps [[0, 0]]) s 0 = 1 := by
  rw [emitP_pos (mStep mEps [[0, 0]]) s 0 Nat.zero_lt_one]
  exact me_mstep_emit s _

lemma me_a0' (s : Fin (mStep mEps [[0, 0]]).S) :
    alphaT (mStep mEps [[0, 0]]) (seqO [0, 0]) 0 s = 1 := by
  show (mStep mEps [[0, 0]]).init s *
    emitP (mStep mEps [[0, 0]]) s (seqO [0, 0] 0) = 1
  rw [show seqO [0, 0] 0 = 0 from rfl, me_mstep_init, me_emitP', one_mul]

lemma me_s0' : sigma (mStep mEps [[0, 0]]) (seqO [0, 0]) 0 = 1 := by
  show (∑ s, alphaT (mStep mEps [[0, 0]]) (seqO [0, 0]) 0 s) = 1
  rw [sum_meps', me_a0']

lemma me_a1' (s : Fin (mStep mEps [[0, 0]]).S) :
    alphaT (mStep mEps [[0, 0]]) (seqO [0, 0]) 1 s = 1 := by
  rw [alphaT_succ, sum_meps']
  unfold alphaS
  rw [me_a0', me_s0', show seqO [0, 0] 1 = 0 from rfl, me_emitP',
    me_mstep_trans]
  norm_num

lemma me_s1' : sigma (mStep mEps [[0, 0]]) (seqO [0, 0]) 1 = 1 := by
  show (∑ s, alphaT (mStep mEps [[0, 0]]) (seqO [0, 0]) 1 s) = 1
  rw [sum_meps', me_a1']

lemma me_L1 : likelihoodE (mStep mEps [[0, 0]]) [0, 0] = Except.ok 1 := by
  show (if (List.range ([0, 0] : List ℕ).length).any
        (fun t => decide (sigma (mStep mEps [[0, 0]]) (seqO [0, 0]) t = 0))
      then Except.error HmmErr.ZeroProbability
      else Except.ok (∏ t ∈ Finset.range ([0, 0] : List ℕ).length,
        sigma (mStep mEps [[0, 0]]) (seqO [0, 0]) t)) = _
  rw [show ((List.range ([0, 0] : List ℕ).length).any
      (fun t => decide (sigma (mStep mEps [[0, 0]]) (seqO [0, 0]) t = 0))) =
      false by
    rw [show List.range ([0, 0] : List ℕ).length = [0, 1] from rfl]
    simp only [List.any_cons, List.any_nil, Bool.or_eq_false_iff,
      decide_eq_false_iff_not]
    exact ⟨by rw [me_s0']; norm_num, by rw [me_s1']; norm_num, trivial⟩]
  show Except.ok (∏ t ∈ Finset.range 2,
    sigma (mStep mEps [[0, 0]]) (seqO [0, 0]) t) = _
  rw [Finset.prod_range_succ, Finset.prod_range_one, me_s0', me_s1']
  norm_num

/-- C7 counterexample (failing input): on the valid model `mEps` (one state, entries
1 + 5e-10, within the 1e-9 stochasticity tolerance) and the batch [[0, 0]],
the likelihood before training is (1 + 5e-10)^3 and exactly 1 after one
Baum-Welch iteration, so the log-likelihood drops by 3 log(1 + 5e-10),
which exceeds the claimed 1e-9 slack. -/
theorem em_iteration_drops_likelihood :
    ValidModel mEps ∧
    likelihoodE mEps [0, 0] = Except.ok ((1 + epsQ) ^ 3) ∧
    likelihoodE (train mEps [[0, 0]] 1).1 [0, 0] = Except.ok 1 ∧
    Real.log ((1 : ℚ) : ℝ) <
      Real.log (((1 + epsQ) ^ 3 : ℚ) : ℝ) - 1/1000000000 := by
  refine ⟨me_valid, me_L0, by rw [me_train]; exact me_L1, ?_⟩
  have he : ((1 : ℚ) : ℝ) = 1 := by norm_num
  rw [he, Real.log_one]
  have hcast : (((1 + epsQ) ^ 3 : ℚ) : ℝ) = (1 + (1/2000000000 : ℝ)) ^ 3 := by
    unfold epsQ
    push_cast
    ring
  rw [hcast, Real.log_pow]
  have hpos : (0 : ℝ) < 1 + 1/2000000000 := by norm_num
  have hlb : 1 - (1 + (1/2000000000 : ℝ))⁻¹ ≤ Real.log (1 + 1/2000000000) := by
    have h := Real.log_le_sub_one_of_pos (inv_pos.mpr hpos)
    rw [Real.log_inv] at h
    linarith
  have harith : (1/1000000000 : ℝ) <
      3 * (1 - (1 + (1/2000000000 : ℝ))⁻¹) := by
    rw [show (1 + (1/2000000000 : ℝ))⁻¹ = 2000000000/2000000001 by
      rw [show (1 + (1/2000000000 : ℝ)) = 2000000001/2000000000 by norm_num,
        inv_div]]
    norm_num
  have h3 : (3 : ℕ) * Real.log (1 + 1/2000000000) =
      3 * Real.log (1 + 1/2000000000) := by norm_num
  rw [h3]
  linarith

/-- Amended C7: from exactly stochastic parameters, the total log-likelihood
of the batch never decreases across consecutive Baum-Welch iterations of
train (with zero slack). -/
theorem em_train_monotone (m : Model) (seqs : List (List ℕ)) (n : ℕ)
    (hex : ExactStoch m) :
    Real.log ((prodLik (train m seqs n).1 seqs : ℚ) : ℝ) ≤
      Real.log ((prodLik (train m seqs (n + 1)).1 seqs : ℚ) : ℝ) := by
  unfold train
  cases hc : checkSeqs m seqs with
  | some e =>
      exact le_refl _
  | none =>
      show Real.log ((prodLik (trainGo seqs n m).1 seqs : ℚ) : ℝ) ≤
        Real.log ((prodLik (trainGo seqs (n + 1) m).1 seqs : ℚ) : ℝ)
      exact trainGo_mono seqs n m hex

/-- The demo model is exactly stochastic. -/
lemma demo_exact : ExactStoch demoModel := by
  show (∀ s : Fin 2, 0 ≤ demoInit s) ∧ sumV demoInit = 1 ∧
    (∀ j : Fin 2, (∀ i : Fin 2, 0 ≤ demoTrans i j) ∧
      sumV (fun i => demoTrans i j) = 1) ∧
    (∀ s : Fin 2, (∀ k : Fin 2, 0 ≤ demoEmit s k) ∧ sumV (demoEmit s) = 1)
  refine ⟨?_, ?_, ?_, ?_⟩
  · intro s
    fin_cases s <;> norm_num [demoInit]
  · norm_num [sumV, Fin.sum_univ_two, demoInit]
  · intro j
    constructor
    · intro i
      fin_cases i <;> fin_cases j <;> norm_num [demoTrans]
    · fin_cases j <;> norm_num [sumV, Fin.sum_univ_two, demoTrans]
  · intro s
    constructor
    · intro k
      fin_cases k <;> fin_cases s <;> norm_num [demoEmit]
    · fin_cases s <;> norm_num [sumV, Fin.sum_univ_two, demoEmit]

theorem em_train_monotone_witness :
    ExactStoch demoModel ∧
    Real.log ((prodLik (train demoModel [demoObs] 0).1 [demoObs] : ℚ) : ℝ) ≤
      Real.log ((prodLik (train demoModel [demoObs] 1).1 [demoObs]
        : ℚ) : ℝ) :=
  ⟨demo_exact, em_train_monotone demoModel [demoObs] 0 demo_exact⟩

end HmmDemo
